import Mathlib

/-!
Verification of the graph engine in `grafo-monitoria` (C sources, file
`src/unnamed/part_001`, which is the current version of the library; an older
copy appears in `part_000`).

Shallow embedding conventions:
* `size_t` values become `Nat`; `int` status codes become `Int`; `int`
  distances become `Nat` (they live in `[0, INT_MAX]` and the code guards
  every addition, so no wrap can occur for graphs admitted by `create_graph`,
  whose vertex count is at most `GRAFO_MAX_VERTICES = 10000`).
* A heap array together with its length (`g->adj[v]` plus `g->adj_size[v]`)
  is collapsed into the logical list of its live elements; `adj_size[v]--`
  therefore becomes `List.dropLast`.
* Arrays indexed by vertices become functions `Nat → _` with pointwise
  update `upd`; cells the C code never reads are irrelevant junk.
* `safe_malloc`/`safe_calloc` are modelled as succeeding except in
  `add_edge`/`remove_edge`, where the claims under study are precisely about
  allocation-failure behaviour: there each `safe_realloc` call gets an
  explicit boolean oracle (`true` = the allocation succeeds).
* Output parameters (`out_path`, `out_len`, …) that feed only the optional
  path reconstruction are dropped; the embedded functions compute the value
  the C function returns (and, where a claim needs it, the output arrays).
-/

namespace Grafo

/-- `SIZE_MAX` for the 64-bit `size_t` used by the sources. -/
def SIZE_MAX : Nat := 18446744073709551615

/-- `INT_MAX` from `<limits.h>` (32-bit `int`). -/
def INT_MAX : Nat := 2147483647

/-- `GRAFO_MAX_VERTICES` from `part_001`. -/
def GRAFO_MAX_VERTICES : Nat := 10000

/-- Pointwise update of a vertex-indexed store, modelling `arr[i] = x`. -/
def upd {α : Type} (f : Nat → α) (i : Nat) (x : α) : Nat → α :=
  fun j => if j = i then x else f j

@[simp] theorem upd_same {α : Type} (f : Nat → α) (i : Nat) (x : α) :
    upd f i x i = x := by simp [upd]

@[simp] theorem upd_other {α : Type} (f : Nat → α) (i j : Nat) (x : α)
    (h : j ≠ i) : upd f i x j = f j := by simp [upd, h]

/-- The `Graph` struct: vertex count, `directed` flag, and the adjacency
lists (`adj` together with `adj_size`, collapsed into logical lists).
Vertices are `0 .. n-1`; `adj u` for `u ≥ n` is junk the code never touches. -/
@[ext] structure Graph where
  n : Nat
  directed : Bool
  adj : Nat → List Nat

/-- Every stored neighbour index is in range (the spec's adjacency
invariant: "every neighbor index stored is `< num_vertices`"). -/
def Graph.WF (g : Graph) : Prop :=
  ∀ u, u < g.n → ∀ v ∈ g.adj u, v < g.n

/-- Membership-symmetric adjacency, as produced by `add_edge` on an
undirected graph. -/
def Graph.Sym (g : Graph) : Prop :=
  ∀ u v, v ∈ g.adj u → u ∈ g.adj v

/-- Occurrence-count symmetry between distinct in-range vertices (the
invariant named by claim C9). -/
def Graph.SymCount (g : Graph) : Prop :=
  ∀ u v, u < g.n → v < g.n → u ≠ v → (g.adj u).count v = (g.adj v).count u

/-- `_checa_overflow(a, b)`: `a > 0 && b > SIZE_MAX / a`. -/
def checa_overflow (a b : Nat) : Bool :=
  decide (0 < a) && decide (SIZE_MAX / a < b)

/-- `add_edge(g, src, dest)` from `part_001` (lines 225-278).
`ok1`/`ok2` are the outcomes of the two `safe_realloc` calls (src side and,
for undirected graphs, dest side).  Status codes: `0` success, `-2` invalid
vertex, `-3` overflow, `-4` reallocation failure.  The `-1` NULL-graph case
is unrepresentable here.  The rollback `g->adj_size[src]--` is
`List.dropLast` on the just-extended src list. -/
def add_edge (g : Graph) (src dest : Nat) (ok1 ok2 : Bool) : Graph × Int :=
  if g.n ≤ src ∨ g.n ≤ dest then (g, -2)
  else if checa_overflow ((g.adj src).length + 1) 8 then (g, -3)
  else if ok1 = false then (g, -4)
  else
    let g1 : Graph := { g with adj := upd g.adj src (g.adj src ++ [dest]) }
    if g.directed = false then
      if checa_overflow ((g1.adj dest).length + 1) 8 then
        ({ g1 with adj := upd g1.adj src ((g1.adj src).dropLast) }, -3)
      else if ok2 = false then
        ({ g1 with adj := upd g1.adj src ((g1.adj src).dropLast) }, -4)
      else
        ({ g1 with adj := upd g1.adj dest (g1.adj dest ++ [src]) }, 0)
    else (g1, 0)

/-- The scan-and-shift in `remove_edge`: drop the first occurrence of `x`,
keeping the order of the remaining elements. -/
def remove_first : List Nat → Nat → List Nat
  | [], _ => []
  | a :: t, x => if a = x then t else a :: remove_first t x

/-- `remove_edge(g, src, dest)` from `part_001` (lines 291-356).
`ok1`/`ok2` are the outcomes of the two shrinking `safe_realloc` calls; the
code only treats a failed shrink as an error (`-4`) when the shrunken list
is still non-empty (`!new_adj && adj_size > 0`), and the removal that was
already performed is NOT rolled back in that case.  A missing mirrored
entry on an undirected graph is only a warning (the call still returns 0). -/
def remove_edge (g : Graph) (src dest : Nat) (ok1 ok2 : Bool) : Graph × Int :=
  if g.n ≤ src ∨ g.n ≤ dest then (g, -2)
  else if dest ∈ g.adj src then
    let l1 := remove_first (g.adj src) dest
    let g1 : Graph := { g with adj := upd g.adj src l1 }
    if ok1 = false ∧ l1 ≠ [] then (g1, -4)
    else if g.directed = false then
      if src ∈ g1.adj dest then
        let l2 := remove_first (g1.adj dest) src
        let g2 : Graph := { g1 with adj := upd g1.adj dest l2 }
        if ok2 = false ∧ l2 ≠ [] then (g2, -4) else (g2, 0)
      else (g1, 0)
    else (g1, 0)
  else (g, -3)

/-- Inner neighbour scan of `get_edges` for undirected graphs (dedup via the
`processed` bitset keyed `min*n+max`); `none` models the "capacity exceeded"
error return (`*num_edges = 0`, `NULL`). -/
def ge_undir_inner (n cap v : Nat) :
    List Nat → List (Nat × Nat) → (Nat → Bool) →
    Option (List (Nat × Nat) × (Nat → Bool))
  | [], es, pr => some (es, pr)
  | w :: ws, es, pr =>
    if n ≤ w then ge_undir_inner n cap v ws es pr
    else
      let mn := min v w
      let mx := max v w
      let index := mn * n + mx
      if cap ≤ index then ge_undir_inner n cap v ws es pr
      else if pr index then ge_undir_inner n cap v ws es pr
      else if cap ≤ es.length then none
      else ge_undir_inner n cap v ws (es ++ [(mn, mx)]) (upd pr index true)

/-- Inner neighbour scan of `get_edges` for directed graphs. -/
def ge_dir_inner (n cap v : Nat) :
    List Nat → List (Nat × Nat) → Option (List (Nat × Nat))
  | [], es => some es
  | w :: ws, es =>
    if n ≤ w then ge_dir_inner n cap v ws es
    else if cap ≤ es.length then none
    else ge_dir_inner n cap v ws (es ++ [(v, w)])

/-- Outer vertex loop of `get_edges`, undirected case. -/
def ge_undir_outer (g : Graph) (cap : Nat) :
    List Nat → List (Nat × Nat) → (Nat → Bool) →
    Option (List (Nat × Nat) × (Nat → Bool))
  | [], es, pr => some (es, pr)
  | v :: vs, es, pr =>
    match ge_undir_inner g.n cap v (g.adj v) es pr with
    | none => none
    | some (es', pr') => ge_undir_outer g cap vs es' pr'

/-- Outer vertex loop of `get_edges`, directed case. -/
def ge_dir_outer (g : Graph) (cap : Nat) :
    List Nat → List (Nat × Nat) → Option (List (Nat × Nat))
  | [], es => some es
  | v :: vs, es =>
    match ge_dir_inner g.n cap v (g.adj v) es with
    | none => none
    | some es' => ge_dir_outer g cap vs es'

/-- `get_edges(g, as_tuple, num_edges)` from `part_001` (lines 726-862).
Result models `(returned pointer, *num_edges)`; the unused `as_tuple`
compatibility parameter is dropped.  When no edge is emitted the edge array
is freed and `NULL` is returned with `*num_edges = 0`. -/
def get_edges (g : Graph) : Option (List (Nat × Nat)) × Nat :=
  if g.n = 0 then (none, 0)
  else if SIZE_MAX / 16 < g.n then (none, 0)
  else
    let cap := g.n * g.n
    if cap = 0 ∨ SIZE_MAX / 16 < cap then (none, 0)
    else if g.directed then
      match ge_dir_outer g cap (List.range g.n) [] with
      | none => (none, 0)
      | some es => if es = [] then (none, 0) else (some es, es.length)
    else
      if SIZE_MAX / 1 < cap then (none, 0)
      else
        match ge_undir_outer g cap (List.range g.n) [] (fun _ => false) with
        | none => (none, 0)
        | some (es, _) => if es = [] then (none, 0) else (some es, es.length)

/-! ### Basic lemmas about the store operations -/

@[simp] theorem upd_self {α : Type} (f : Nat → α) (i : Nat) :
    upd f i (f i) = f := by
  funext j; simp only [upd]; split <;> simp_all

@[simp] theorem upd_upd_same {α : Type} (f : Nat → α) (i : Nat) (x y : α) :
    upd (upd f i x) i y = upd f i y := by
  funext j; simp only [upd]; split <;> rfl

theorem remove_first_of_not_mem {l : List Nat} {x : Nat} (h : x ∉ l) :
    remove_first l x = l := by
  induction l with
  | nil => rfl
  | cons a t ih =>
    simp only [List.mem_cons, not_or] at h
    simp [remove_first, Ne.symm h.1, ih h.2]

theorem remove_first_append_not_mem {l : List Nat} {x : Nat} (h : x ∉ l) :
    remove_first (l ++ [x]) x = l := by
  induction l with
  | nil => simp [remove_first]
  | cons a t ih =>
    simp only [List.mem_cons, not_or] at h
    simp [remove_first, Ne.symm h.1, ih h.2]

theorem remove_first_count_same {l : List Nat} {x : Nat} (h : x ∈ l) :
    (remove_first l x).count x + 1 = l.count x := by
  induction l with
  | nil => cases h
  | cons a t ih =>
    by_cases hax : a = x
    · subst hax; simp [remove_first, List.count_cons]
    · have ht : x ∈ t := by
        rcases List.mem_cons.mp h with h1 | h1
        · exact absurd h1.symm hax
        · exact h1
      simp [remove_first, hax, List.count_cons, ih ht, Ne.symm hax]

theorem remove_first_count_other {l : List Nat} {x y : Nat} (h : y ≠ x) :
    (remove_first l x).count y = l.count y := by
  induction l with
  | nil => rfl
  | cons a t ih =>
    by_cases hax : a = x
    · subst hax; simp [remove_first, List.count_cons, Ne.symm h]
    · simp [remove_first, hax, List.count_cons, ih]

theorem remove_first_length {l : List Nat} {x : Nat} (h : x ∈ l) :
    (remove_first l x).length + 1 = l.length := by
  induction l with
  | nil => cases h
  | cons a t ih =>
    by_cases hax : a = x
    · subst hax; simp [remove_first]
    · have ht : x ∈ t := by
        rcases List.mem_cons.mp h with h1 | h1
        · exact absurd h1.symm hax
        · exact h1
      simp [remove_first, hax, ih ht]

/-! ### Claim C5: self-loop insertion on an undirected graph -/

/-- C5, counterexample.  On the undirected single-vertex graph, the call
`add_edge(g, 0, 0)` succeeds but grows vertex 0's adjacency list by two
entries, not one: the undirected branch has no `src == dest` special case,
so the self-loop is inserted from both sides. -/
theorem C5_counterexample :
    (add_edge ⟨1, false, fun _ => []⟩ 0 0 true true).2 = 0 ∧
    ((add_edge ⟨1, false, fun _ => []⟩ 0 0 true true).1.adj 0).length ≠
      ((⟨1, false, fun _ => []⟩ : Graph).adj 0).length + 1 := by
  constructor
  · rfl
  · decide

/-- C5, amended: a successful `add_edge(g, u, u)` on an undirected graph
inserts `u` exactly twice into `u`'s own adjacency list — the length of
`u`'s list grows by exactly two per successful call. -/
theorem C5_theorem (g : Graph) (u : Nat) (ok1 ok2 : Bool)
    (hdir : g.directed = false) (hu : u < g.n)
    (hok : (add_edge g u u ok1 ok2).2 = 0) :
    (add_edge g u u ok1 ok2).1.adj u = g.adj u ++ [u, u] ∧
    ((add_edge g u u ok1 ok2).1.adj u).length = (g.adj u).length + 2 := by
  have hrange : ¬ (g.n ≤ u ∨ g.n ≤ u) := by omega
  unfold add_edge at hok ⊢
  rw [if_neg hrange] at hok ⊢
  simp only [hdir] at hok ⊢
  split_ifs at hok ⊢ <;> simp_all [upd]

/-- Closed witness for `C5_theorem` at the single-vertex graph. -/
theorem C5_witness :
    (⟨1, false, fun _ => []⟩ : Graph).directed = false ∧ 0 < (1 : Nat) ∧
    (add_edge ⟨1, false, fun _ => []⟩ 0 0 true true).1.adj 0 =
      (⟨1, false, fun _ => []⟩ : Graph).adj 0 ++ [0, 0] ∧
    ((add_edge ⟨1, false, fun _ => []⟩ 0 0 true true).1.adj 0).length =
      ((⟨1, false, fun _ => []⟩ : Graph).adj 0).length + 2 := by
  refine ⟨rfl, by decide, ?_⟩
  exact C5_theorem ⟨1, false, fun _ => []⟩ 0 true true rfl (by decide) rfl

theorem remove_first_append_cons {l r : List Nat} {x : Nat} (h : x ∉ l) :
    remove_first (l ++ x :: r) x = l ++ r := by
  induction l with
  | nil => simp [remove_first]
  | cons a t ih =>
    simp only [List.mem_cons, not_or] at h
    simp [remove_first, Ne.symm h.1, ih h.2]

/-- Exhaustive outcome analysis of `add_edge`: success on a directed graph
(one insertion), success on an undirected graph (two insertions), or an
error with the pre-call state restored (rollback included). -/
theorem add_edge_cases (g : Graph) (u v : Nat) (ok1 ok2 : Bool) :
    (add_edge g u v ok1 ok2 =
        ({ g with adj := upd g.adj u (g.adj u ++ [v]) }, 0) ∧
      g.directed = true ∧ u < g.n ∧ v < g.n) ∨
    (add_edge g u v ok1 ok2 =
        ({ g with adj := (upd (upd g.adj u (g.adj u ++ [v])) v
            ((upd g.adj u (g.adj u ++ [v])) v ++ [u])) }, 0) ∧
      g.directed = false ∧ u < g.n ∧ v < g.n) ∨
    ((add_edge g u v ok1 ok2).1 = g ∧ (add_edge g u v ok1 ok2).2 ≠ 0) := by
  unfold add_edge
  dsimp only
  split_ifs with h1 h2 h3 h4 h5 h6
  · right; right; exact ⟨rfl, by simp⟩
  · right; right; exact ⟨rfl, by simp⟩
  · right; right; exact ⟨rfl, by simp⟩
  · right; right
    refine ⟨?_, by simp⟩
    ext j
    · rfl
    · rfl
    · simp only [upd]
      split_ifs with hj
      · subst hj; simp
      · rfl
  · right; right
    refine ⟨?_, by simp⟩
    ext j
    · rfl
    · rfl
    · simp only [upd]
      split_ifs with hj
      · subst hj; simp
      · rfl
  · right; left
    refine ⟨rfl, ?_, by omega, by omega⟩
    revert h4; cases g.directed <;> simp
  · left
    refine ⟨rfl, ?_, by omega, by omega⟩
    revert h4; cases g.directed <;> simp

/-! ### Claim C6: add_edge / remove_edge round trip -/

/-- C6, counterexample.  On a directed graph whose vertex 0 already has
adjacency `[1, 0]`, a successful `add_edge(g, 0, 1)` followed by
`remove_edge(g, 0, 1)` yields adjacency `[0, 1]` for vertex 0: the removal
drops the FIRST occurrence of 1, not the occurrence that was just appended,
so the prior order is not restored. -/
theorem C6_counterexample :
    (add_edge ⟨2, true, fun v => if v = 0 then [1, 0] else []⟩ 0 1 true true).2
        = 0 ∧
    (remove_edge
        (add_edge ⟨2, true, fun v => if v = 0 then [1, 0] else []⟩
          0 1 true true).1 0 1 true true).2 = 0 ∧
    (remove_edge
        (add_edge ⟨2, true, fun v => if v = 0 then [1, 0] else []⟩
          0 1 true true).1 0 1 true true).1.adj 0 ≠
      (⟨2, true, fun v => if v = 0 then [1, 0] else []⟩ : Graph).adj 0 := by
  refine ⟨by decide, by decide, by decide⟩

/-- C6, amended: if the edge is not already present — `v` does not occur in
`u`'s list and, on an undirected graph, `u` does not occur in `v`'s list —
then a successful `add_edge(g, u, v)` followed by `remove_edge(g, u, v)`
(all allocations succeeding) restores every adjacency list exactly. -/
theorem C6_theorem (g g1 : Graph) (u v : Nat)
    (huv : v ∉ g.adj u) (hvu : g.directed = false → u ∉ g.adj v)
    (hadd : add_edge g u v true true = (g1, 0)) :
    remove_edge g1 u v true true = (g, 0) := by
  rcases add_edge_cases g u v true true with ⟨he, hdir, hu, hv⟩ |
    ⟨he, hdir, hu, hv⟩ | ⟨_, hne⟩
  · -- directed success
    rw [hadd] at he
    have hg1 : g1 = { g with adj := upd g.adj u (g.adj u ++ [v]) } := by
      have := congrArg Prod.fst he; simpa using this
    subst hg1
    unfold remove_edge
    have hnr : ¬ (g.n ≤ u ∨ g.n ≤ v) := by omega
    rw [if_neg hnr]
    have hmem : v ∈ upd g.adj u (g.adj u ++ [v]) u := by simp [upd]
    rw [if_pos hmem]
    have hl1 : remove_first (upd g.adj u (g.adj u ++ [v]) u) v = g.adj u := by
      simp only [upd_same]; exact remove_first_append_not_mem huv
    rw [hl1]
    have hc1 : ¬ (true = false ∧ g.adj u ≠ []) := by simp
    rw [if_neg hc1, hdir]
    simp only [Bool.true_eq_false, if_false]
    refine Prod.ext ?_ rfl
    ext j
    · rfl
    · exact hdir.symm
    · simp only [upd]
      split_ifs with hj
      · subst hj; rfl
      · rfl
  · -- undirected success
    rw [hadd] at he
    have hg1 : g1 = { g with adj := (upd (upd g.adj u (g.adj u ++ [v])) v
        ((upd g.adj u (g.adj u ++ [v])) v ++ [u])) } := by
      have := congrArg Prod.fst he; simpa using this
    subst hg1
    unfold remove_edge
    have hnr : ¬ (g.n ≤ u ∨ g.n ≤ v) := by omega
    rw [if_neg hnr]
    by_cases huv' : u = v
    · -- self-loop
      subst huv'
      have hadju : (upd (upd g.adj u (g.adj u ++ [u])) u
          ((upd g.adj u (g.adj u ++ [u])) u ++ [u])) u
          = g.adj u ++ [u] ++ [u] := by
        simp [upd]
      have hmem : u ∈ (upd (upd g.adj u (g.adj u ++ [u])) u
          ((upd g.adj u (g.adj u ++ [u])) u ++ [u])) u := by
        rw [hadju]; simp
      rw [if_pos hmem]
      have hl1 : remove_first ((upd (upd g.adj u (g.adj u ++ [u])) u
          ((upd g.adj u (g.adj u ++ [u])) u ++ [u])) u) u = g.adj u ++ [u] := by
        rw [hadju]
        have h2 : g.adj u ++ [u] ++ [u] = g.adj u ++ u :: [u] := by simp
        rw [h2, remove_first_append_cons huv]
      rw [hl1]
      have hc1 : ¬ (true = false ∧ g.adj u ++ [u] ≠ []) := by simp
      rw [if_neg hc1, hdir]
      simp only [if_true]
      have hadj2 : (upd (upd (upd g.adj u (g.adj u ++ [u])) u
          ((upd g.adj u (g.adj u ++ [u])) u ++ [u])) u (g.adj u ++ [u])) u
          = g.adj u ++ [u] := by simp [upd]
      have hmem2 : u ∈ (upd (upd (upd g.adj u (g.adj u ++ [u])) u
          ((upd g.adj u (g.adj u ++ [u])) u ++ [u])) u (g.adj u ++ [u])) u := by
        rw [hadj2]; simp
      rw [if_pos hmem2]
      have hl2 : remove_first ((upd (upd (upd g.adj u (g.adj u ++ [u])) u
          ((upd g.adj u (g.adj u ++ [u])) u ++ [u])) u (g.adj u ++ [u])) u) u
          = g.adj u := by
        rw [hadj2]; exact remove_first_append_not_mem huv
      rw [hl2]
      have hc2 : ¬ (true = false ∧ g.adj u ≠ []) := by simp
      rw [if_neg hc2]
      refine Prod.ext ?_ rfl
      ext j
      · rfl
      · exact hdir.symm
      · simp only [upd]
        split_ifs with hj
        · subst hj; rfl
        · rfl
    · -- distinct endpoints
      have hvne : v ≠ u := fun h => huv' h.symm
      have hadju : (upd (upd g.adj u (g.adj u ++ [v])) v
          ((upd g.adj u (g.adj u ++ [v])) v ++ [u])) u = g.adj u ++ [v] := by
        simp [upd, huv', hvne]
      have hmem : v ∈ (upd (upd g.adj u (g.adj u ++ [v])) v
          ((upd g.adj u (g.adj u ++ [v])) v ++ [u])) u := by
        rw [hadju]; simp
      rw [if_pos hmem]
      have hl1 : remove_first ((upd (upd g.adj u (g.adj u ++ [v])) v
          ((upd g.adj u (g.adj u ++ [v])) v ++ [u])) u) v = g.adj u := by
        rw [hadju]; exact remove_first_append_not_mem huv
      rw [hl1]
      have hc1 : ¬ (true = false ∧ g.adj u ≠ []) := by simp
      rw [if_neg hc1, hdir]
      simp only [if_true]
      have hadj2 : (upd (upd (upd g.adj u (g.adj u ++ [v])) v
          ((upd g.adj u (g.adj u ++ [v])) v ++ [u])) u (g.adj u)) v
          = g.adj v ++ [u] := by
        simp [upd, hvne]
      have hmem2 : u ∈ (upd (upd (upd g.adj u (g.adj u ++ [v])) v
          ((upd g.adj u (g.adj u ++ [v])) v ++ [u])) u (g.adj u)) v := by
        rw [hadj2]; simp
      rw [if_pos hmem2]
      have hl2 : remove_first ((upd (upd (upd g.adj u (g.adj u ++ [v])) v
          ((upd g.adj u (g.adj u ++ [v])) v ++ [u])) u (g.adj u)) v) u
          = g.adj v := by
        rw [hadj2]; exact remove_first_append_not_mem (hvu hdir)
      rw [hl2]
      have hc2 : ¬ (true = false ∧ g.adj v ≠ []) := by simp
      rw [if_neg hc2]
      refine Prod.ext ?_ rfl
      ext j
      · rfl
      · exact hdir.symm
      · simp only [upd]
        split_ifs with hj1 hj2
        · subst hj1; rfl
        · subst hj2; rfl
        · rfl
  · rw [hadd] at hne; simp at hne

/-- Closed witness for `C6_theorem`: the round trip on the empty undirected
two-vertex graph. -/
theorem C6_witness :
    remove_edge (add_edge ⟨2, false, fun _ => []⟩ 0 1 true true).1 0 1 true true
      = (⟨2, false, fun _ => []⟩, 0) :=
  C6_theorem ⟨2, false, fun _ => []⟩ _ 0 1 (by decide) (fun _ => by decide)
    (Prod.ext rfl (by decide))

/-! ### Claim C7: atomicity of undirected add_edge -/

/-- C7: on an undirected graph with in-range endpoints, `add_edge` either
returns success having inserted both directions (for a self-loop: two copies
into the one list), or returns an error and leaves every adjacency list
exactly as it was (the first insertion is rolled back when the second
cannot be made). -/
theorem C7_theorem (g : Graph) (u v : Nat) (ok1 ok2 : Bool)
    (hdir : g.directed = false) (_hu : u < g.n) (hv : v < g.n) :
    ((add_edge g u v ok1 ok2).2 = 0 ∧
      (∀ w, w ≠ u → w ≠ v → (add_edge g u v ok1 ok2).1.adj w = g.adj w) ∧
      (u ≠ v → (add_edge g u v ok1 ok2).1.adj u = g.adj u ++ [v] ∧
        (add_edge g u v ok1 ok2).1.adj v = g.adj v ++ [u]) ∧
      (u = v → (add_edge g u v ok1 ok2).1.adj u = g.adj u ++ [v, u])) ∨
    ((add_edge g u v ok1 ok2).2 ≠ 0 ∧ (add_edge g u v ok1 ok2).1 = g) := by
  rcases add_edge_cases g u v ok1 ok2 with ⟨_, hd, _, _⟩ |
    ⟨he, _, _, _⟩ | ⟨h1, h2⟩
  · rw [hdir] at hd; cases hd
  · left
    rw [he]
    refine ⟨rfl, ?_, ?_, ?_⟩
    · intro w hwu hwv
      simp [upd, hwu, hwv]
    · intro hne
      have hvu : v ≠ u := fun h => hne h.symm
      constructor
      · simp [upd, hne, hvu]
      · simp [upd, hvu]
    · intro hEq
      subst hEq
      simp [upd]
  · right; exact ⟨h2, h1⟩

/-- Closed witness for `C7_theorem` on the empty undirected two-vertex
graph with both allocations succeeding. -/
theorem C7_witness :
    ((add_edge ⟨2, false, fun _ => []⟩ 0 1 true true).2 = 0 ∧
      (∀ w, w ≠ 0 → w ≠ 1 →
        (add_edge ⟨2, false, fun _ => []⟩ 0 1 true true).1.adj w =
          (⟨2, false, fun _ => []⟩ : Graph).adj w) ∧
      ((0 : Nat) ≠ 1 →
        (add_edge ⟨2, false, fun _ => []⟩ 0 1 true true).1.adj 0 =
          (⟨2, false, fun _ => []⟩ : Graph).adj 0 ++ [1] ∧
        (add_edge ⟨2, false, fun _ => []⟩ 0 1 true true).1.adj 1 =
          (⟨2, false, fun _ => []⟩ : Graph).adj 1 ++ [0]) ∧
      ((0 : Nat) = 1 →
        (add_edge ⟨2, false, fun _ => []⟩ 0 1 true true).1.adj 0 =
          (⟨2, false, fun _ => []⟩ : Graph).adj 0 ++ [1, 0])) ∨
    ((add_edge ⟨2, false, fun _ => []⟩ 0 1 true true).2 ≠ 0 ∧
      (add_edge ⟨2, false, fun _ => []⟩ 0 1 true true).1 =
        ⟨2, false, fun _ => []⟩) :=
  C7_theorem ⟨2, false, fun _ => []⟩ 0 1 true true rfl (by decide) (by decide)

/-! ### Claim C9: symmetry invariant of the undirected store -/

/-- Removing one occurrence from each side of an undirected edge keeps the
occurrence counts symmetric. -/
theorem symcount_remove_both (g : Graph) (hsym : g.SymCount) (u v : Nat)
    (hu : u < g.n) (hv : v < g.n) (h2 : v ∈ g.adj u)
    (h5 : u ∈ upd g.adj u (remove_first (g.adj u) v) v) :
    Graph.SymCount { g with adj :=
      (upd (upd g.adj u (remove_first (g.adj u) v)) v
        (remove_first (upd g.adj u (remove_first (g.adj u) v) v) u)) } := by
  intro a b ha hb hab
  simp only [Graph.n, Graph.adj] at ha hb ⊢
  by_cases huv : u = v
  · rw [← huv] at h5 ⊢
    rw [show (upd g.adj u (remove_first (g.adj u) u)) u
      = remove_first (g.adj u) u from upd_same ..]
    rw [upd_upd_same]
    by_cases hau : a = u
    · have hbu : b ≠ u := fun h => hab (hau.trans h.symm)
      have hCa : upd g.adj u
          (remove_first (remove_first (g.adj u) u) u) a =
          remove_first (remove_first (g.adj u) u) u := by
        rw [hau]; exact upd_same ..
      have hCb : upd g.adj u
          (remove_first (remove_first (g.adj u) u) u) b = g.adj b :=
        upd_other _ _ _ _ hbu
      rw [hCa, hCb, remove_first_count_other hbu,
        remove_first_count_other hbu, ← hau]
      exact hsym a b ha hb hab
    · by_cases hbu : b = u
      · have hCb : upd g.adj u
            (remove_first (remove_first (g.adj u) u) u) b =
            remove_first (remove_first (g.adj u) u) u := by
          rw [hbu]; exact upd_same ..
        have hCa : upd g.adj u
            (remove_first (remove_first (g.adj u) u) u) a = g.adj a :=
          upd_other _ _ _ _ hau
        rw [hCa, hCb, remove_first_count_other hau,
          remove_first_count_other hau, ← hbu]
        exact hsym a b ha hb hab
      · rw [upd_other _ _ _ _ hau, upd_other _ _ _ _ hbu]
        exact hsym a b ha hb hab
  · have hvu : v ≠ u := fun h => huv h.symm
    rw [upd_other _ _ _ _ hvu] at h5 ⊢
    have hmem_vu : u ∈ g.adj v := h5
    have hc1 := remove_first_count_same h2
    have hc2 := remove_first_count_same hmem_vu
    have hco1 := fun w (h : w ≠ v) => @remove_first_count_other (g.adj u) v w h
    have hco2 := fun w (h : w ≠ u) => @remove_first_count_other (g.adj v) u w h
    have hsuv := hsym u v hu hv huv
    have hCu : upd (upd g.adj u (remove_first (g.adj u) v)) v
        (remove_first (g.adj v) u) u = remove_first (g.adj u) v := by
      rw [upd_other _ _ _ _ huv]; exact upd_same ..
    have hCv : upd (upd g.adj u (remove_first (g.adj u) v)) v
        (remove_first (g.adj v) u) v = remove_first (g.adj v) u :=
      upd_same ..
    have hCw : ∀ w, w ≠ u → w ≠ v →
        upd (upd g.adj u (remove_first (g.adj u) v)) v
          (remove_first (g.adj v) u) w = g.adj w := by
      intro w hwu hwv
      rw [upd_other _ _ _ _ hwv, upd_other _ _ _ _ hwu]
    by_cases hau : a = u
    · by_cases hbv : b = v
      · have hCa : upd (upd g.adj u (remove_first (g.adj u) v)) v
            (remove_first (g.adj v) u) a = remove_first (g.adj u) v := by
          rw [hau]; exact hCu
        have hCb : upd (upd g.adj u (remove_first (g.adj u) v)) v
            (remove_first (g.adj v) u) b = remove_first (g.adj v) u := by
          rw [hbv]; exact hCv
        rw [hCa, hCb, hau, hbv]
        omega
      · have hbu : b ≠ u := fun h => hab (hau.trans h.symm)
        have hCa : upd (upd g.adj u (remove_first (g.adj u) v)) v
            (remove_first (g.adj v) u) a = remove_first (g.adj u) v := by
          rw [hau]; exact hCu
        rw [hCa, hCw b hbu hbv, hco1 b hbv, ← hau]
        exact hsym a b ha hb hab
    · by_cases hav : a = v
      · by_cases hbu : b = u
        · have hCa : upd (upd g.adj u (remove_first (g.adj u) v)) v
              (remove_first (g.adj v) u) a = remove_first (g.adj v) u := by
            rw [hav]; exact hCv
          have hCb : upd (upd g.adj u (remove_first (g.adj u) v)) v
              (remove_first (g.adj v) u) b = remove_first (g.adj u) v := by
            rw [hbu]; exact hCu
          rw [hCa, hCb, hav, hbu]
          omega
        · have hbv : b ≠ v := fun h => hab (hav.trans h.symm)
          have hCa : upd (upd g.adj u (remove_first (g.adj u) v)) v
              (remove_first (g.adj v) u) a = remove_first (g.adj v) u := by
            rw [hav]; exact hCv
          rw [hCa, hCw b hbu hbv, hco2 b hbu, ← hav]
          exact hsym a b ha hb hab
      · by_cases hbu : b = u
        · have hCb : upd (upd g.adj u (remove_first (g.adj u) v)) v
              (remove_first (g.adj v) u) b = remove_first (g.adj u) v := by
            rw [hbu]; exact hCu
          rw [hCw a hau hav, hCb, hco1 a hav, ← hbu]
          exact hsym a b ha hb hab
        · by_cases hbv : b = v
          · have hCb : upd (upd g.adj u (remove_first (g.adj u) v)) v
                (remove_first (g.adj v) u) b = remove_first (g.adj v) u := by
              rw [hbv]; exact hCv
            rw [hCw a hau hav, hCb, hco2 a hau, ← hbv]
            exact hsym a b ha hb hab
          · rw [hCw a hau hav, hCw b hbu hbv]
            exact hsym a b ha hb hab

/-- The "mirrored entry missing" branch of `remove_edge` cannot make a
symmetric state asymmetric: for distinct endpoints it cannot occur at all,
and for a self-loop the removal only touches self-occurrences. -/
theorem symcount_remove_missing (g : Graph) (hsym : g.SymCount) (u v : Nat)
    (hu : u < g.n) (hv : v < g.n) (h2 : v ∈ g.adj u)
    (h5 : u ∉ upd g.adj u (remove_first (g.adj u) v) v) :
    Graph.SymCount { g with adj := upd g.adj u (remove_first (g.adj u) v) } := by
  by_cases huv : u = v
  · intro a b ha hb hab
    simp only [Graph.n, Graph.adj] at ha hb ⊢
    rw [← huv]
    by_cases hau : a = u
    · have hbu : b ≠ u := fun h => hab (hau.trans h.symm)
      have hCa : upd g.adj u (remove_first (g.adj u) u) a =
          remove_first (g.adj u) u := by
        rw [hau]; exact upd_same ..
      rw [hCa, upd_other _ _ _ _ hbu, remove_first_count_other hbu, ← hau]
      exact hsym a b ha hb hab
    · by_cases hbu : b = u
      · have hCb : upd g.adj u (remove_first (g.adj u) u) b =
            remove_first (g.adj u) u := by
          rw [hbu]; exact upd_same ..
        rw [upd_other _ _ _ _ hau, hCb, remove_first_count_other hau, ← hbu]
        exact hsym a b ha hb hab
      · rw [upd_other _ _ _ _ hau, upd_other _ _ _ _ hbu]
        exact hsym a b ha hb hab
  · exfalso
    have hvu : v ≠ u := fun h => huv h.symm
    rw [upd_other _ _ _ _ hvu] at h5
    have h1 : 0 < (g.adj u).count v := List.count_pos_iff.mpr h2
    have h3 := hsym u v hu hv huv
    exact h5 (List.count_pos_iff.mp (by omega))

/-- Appending both directions of an edge keeps the occurrence counts
symmetric (covers the self-loop case, which appends twice to one list). -/
theorem symcount_add_both (g : Graph) (hsym : g.SymCount) (u v : Nat) :
    Graph.SymCount { g with adj := (upd (upd g.adj u (g.adj u ++ [v])) v
      ((upd g.adj u (g.adj u ++ [v])) v ++ [u])) } := by
  intro a b ha hb hab
  simp only [Graph.n, Graph.adj] at ha hb ⊢
  by_cases huv : u = v
  · rw [← huv]
    rw [show (upd g.adj u (g.adj u ++ [u])) u = g.adj u ++ [u] from
      upd_same ..]
    rw [upd_upd_same]
    by_cases hau : a = u
    · have hbu : b ≠ u := fun h => hab (hau.trans h.symm)
      have hCa : upd g.adj u (g.adj u ++ [u] ++ [u]) a =
          g.adj u ++ [u] ++ [u] := by
        rw [hau]; exact upd_same ..
      rw [hCa, upd_other _ _ _ _ hbu]
      have hc : List.count b (g.adj u ++ [u] ++ [u]) =
          List.count b (g.adj u) := by
        simp [List.count_append, List.count_cons, hbu]
      rw [hc, ← hau]
      exact hsym a b ha hb hab
    · by_cases hbu : b = u
      · have hCb : upd g.adj u (g.adj u ++ [u] ++ [u]) b =
            g.adj u ++ [u] ++ [u] := by
          rw [hbu]; exact upd_same ..
        rw [upd_other _ _ _ _ hau, hCb]
        have hc : List.count a (g.adj u ++ [u] ++ [u]) =
            List.count a (g.adj u) := by
          simp [List.count_append, List.count_cons, hau]
        rw [hc, ← hbu]
        exact hsym a b ha hb hab
      · rw [upd_other _ _ _ _ hau, upd_other _ _ _ _ hbu]
        exact hsym a b ha hb hab
  · have hvu : v ≠ u := fun h => huv h.symm
    rw [show (upd g.adj u (g.adj u ++ [v])) v = g.adj v from
      upd_other _ _ _ _ hvu]
    have hCu : upd (upd g.adj u (g.adj u ++ [v])) v (g.adj v ++ [u]) u =
        g.adj u ++ [v] := by
      rw [upd_other _ _ _ _ huv]; exact upd_same ..
    have hCv : upd (upd g.adj u (g.adj u ++ [v])) v (g.adj v ++ [u]) v =
        g.adj v ++ [u] := upd_same ..
    have hCw : ∀ w, w ≠ u → w ≠ v →
        upd (upd g.adj u (g.adj u ++ [v])) v (g.adj v ++ [u]) w =
          g.adj w := by
      intro w hwu hwv
      rw [upd_other _ _ _ _ hwv, upd_other _ _ _ _ hwu]
    by_cases hau : a = u
    · by_cases hbv : b = v
      · have hCa : upd (upd g.adj u (g.adj u ++ [v])) v (g.adj v ++ [u]) a =
            g.adj u ++ [v] := by rw [hau]; exact hCu
        have hCb : upd (upd g.adj u (g.adj u ++ [v])) v (g.adj v ++ [u]) b =
            g.adj v ++ [u] := by rw [hbv]; exact hCv
        rw [hCa, hCb, hau, hbv]
        have e1 : List.count v (g.adj u ++ [v]) =
            List.count v (g.adj u) + 1 := by simp [List.count_append]
        have e2 : List.count u (g.adj v ++ [u]) =
            List.count u (g.adj v) + 1 := by simp [List.count_append]
        have := hsym u v (hau ▸ ha) (hbv ▸ hb) huv
        omega
      · have hbu : b ≠ u := fun h => hab (hau.trans h.symm)
        have hCa : upd (upd g.adj u (g.adj u ++ [v])) v (g.adj v ++ [u]) a =
            g.adj u ++ [v] := by rw [hau]; exact hCu
        rw [hCa, hCw b hbu hbv]
        have hc : List.count b (g.adj u ++ [v]) = List.count b (g.adj u) := by
          simp [List.count_append, List.count_cons, hbv]
        rw [hc, ← hau]
        exact hsym a b ha hb hab
    · by_cases hav : a = v
      · by_cases hbu : b = u
        · have hCa : upd (upd g.adj u (g.adj u ++ [v])) v
              (g.adj v ++ [u]) a = g.adj v ++ [u] := by rw [hav]; exact hCv
          have hCb : upd (upd g.adj u (g.adj u ++ [v])) v
              (g.adj v ++ [u]) b = g.adj u ++ [v] := by rw [hbu]; exact hCu
          rw [hCa, hCb, hav, hbu]
          have e1 : List.count u (g.adj v ++ [u]) =
              List.count u (g.adj v) + 1 := by simp [List.count_append]
          have e2 : List.count v (g.adj u ++ [v]) =
              List.count v (g.adj u) + 1 := by simp [List.count_append]
          have := hsym u v (hbu ▸ hb) (hav ▸ ha) huv
          omega
        · have hbv : b ≠ v := fun h => hab (hav.trans h.symm)
          have hCa : upd (upd g.adj u (g.adj u ++ [v])) v
              (g.adj v ++ [u]) a = g.adj v ++ [u] := by rw [hav]; exact hCv
          rw [hCa, hCw b hbu hbv]
          have hc : List.count b (g.adj v ++ [u]) =
              List.count b (g.adj v) := by
            simp [List.count_append, List.count_cons, hbu]
          rw [hc, ← hav]
          exact hsym a b ha hb hab
      · by_cases hbu : b = u
        · have hCb : upd (upd g.adj u (g.adj u ++ [v])) v
              (g.adj v ++ [u]) b = g.adj u ++ [v] := by rw [hbu]; exact hCu
          rw [hCw a hau hav, hCb]
          have hc : List.count a (g.adj u ++ [v]) =
              List.count a (g.adj u) := by
            simp [List.count_append, List.count_cons, hav]
          rw [hc, ← hbu]
          exact hsym a b ha hb hab
        · by_cases hbv : b = v
          · have hCb : upd (upd g.adj u (g.adj u ++ [v])) v
                (g.adj v ++ [u]) b = g.adj v ++ [u] := by rw [hbv]; exact hCv
            rw [hCw a hau hav, hCb]
            have hc : List.count a (g.adj v ++ [u]) =
                List.count a (g.adj v) := by
              simp [List.count_append, List.count_cons, hau]
            rw [hc, ← hbv]
            exact hsym a b ha hb hab
          · rw [hCw a hau hav, hCw b hbu hbv]
            exact hsym a b ha hb hab

/-- With a succeeding src-side shrink, `remove_edge` preserves the
occurrence-count symmetry of an undirected graph in every branch. -/
theorem remove_edge_symcount (g : Graph) (hdir : g.directed = false)
    (hsym : g.SymCount) (u v : Nat) (ok2 : Bool) :
    ((remove_edge g u v true ok2).1).SymCount := by
  unfold remove_edge
  dsimp only
  split_ifs with h1 h2 h3 h4 h5
  · exact hsym
  · simp at h3
  · exact symcount_remove_both g hsym u v (by omega) (by omega) h2 h4
  · exact symcount_remove_both g hsym u v (by omega) (by omega) h2 h4
  · exact symcount_remove_missing g hsym u v (by omega) (by omega) h2 h4
  · exact hsym

/-- C9, counterexample.  On the symmetric undirected graph with
`adj 0 = [1,1]`, `adj 1 = [0,0]`, the call `remove_edge(g, 0, 1)` whose
src-side shrinking `safe_realloc` fails returns the error `-4` AFTER having
removed the src-side occurrence only, leaving `adj 0 = [1]`,
`adj 1 = [0,0]` — an asymmetric state. -/
theorem C9_counterexample :
    (⟨2, false, fun v => if v = 0 then [1, 1] else
        if v = 1 then [0, 0] else []⟩ : Graph).SymCount ∧
    ¬ ((remove_edge ⟨2, false, fun v => if v = 0 then [1, 1] else
        if v = 1 then [0, 0] else []⟩ 0 1 false true).1).SymCount := by
  constructor
  · intro u v hu hv hne
    simp only [Graph.n] at hu hv
    interval_cases u <;> interval_cases v <;> simp_all
  · intro h
    have h01 := h 0 1 (by decide) (by decide) (by decide)
    revert h01
    decide

/-- C9, amended: starting from a symmetric undirected state, every
`add_edge` call (with any allocation outcomes) yields a symmetric state,
and every `remove_edge` call whose src-side shrinking reallocation does not
fail yields a symmetric state. -/
theorem C9_theorem (g : Graph) (hdir : g.directed = false)
    (hsym : g.SymCount) :
    (∀ u v ok1 ok2, ((add_edge g u v ok1 ok2).1).SymCount) ∧
    (∀ u v ok2, ((remove_edge g u v true ok2).1).SymCount) := by
  constructor
  · intro u v ok1 ok2
    rcases add_edge_cases g u v ok1 ok2 with ⟨_, hd, _, _⟩ |
      ⟨he, _, hu, hv⟩ | ⟨h1, _⟩
    · rw [hdir] at hd; cases hd
    · rw [he]; exact symcount_add_both g hsym u v
    · rw [h1]; exact hsym
  · intro u v ok2
    exact remove_edge_symcount g hdir hsym u v ok2

/-- Closed witness for `C9_theorem` on a concrete symmetric state. -/
theorem C9_witness :
    ((add_edge ⟨2, false, fun v => if v = 0 then [1, 1] else
        if v = 1 then [0, 0] else []⟩ 0 1 true true).1).SymCount ∧
    ((remove_edge ⟨2, false, fun v => if v = 0 then [1, 1] else
        if v = 1 then [0, 0] else []⟩ 0 1 true true).1).SymCount := by
  have hs : (⟨2, false, fun v => if v = 0 then [1, 1] else
      if v = 1 then [0, 0] else []⟩ : Graph).SymCount := by
    intro u v hu hv hne
    simp only [Graph.n] at hu hv
    interval_cases u <;> interval_cases v <;> simp_all
  exact ⟨(C9_theorem _ rfl hs).1 0 1 true true, (C9_theorem _ rfl hs).2 0 1 true⟩

/-! ### Claim C10: get_edges on an edgeless graph -/

theorem ge_undir_outer_empty (g : Graph) (cap : Nat) (vs : List Nat)
    (pr : Nat → Bool) (h : ∀ v ∈ vs, g.adj v = []) :
    ge_undir_outer g cap vs [] pr = some ([], pr) := by
  induction vs with
  | nil => rfl
  | cons v t ih =>
    simp only [ge_undir_outer]
    rw [h v (List.mem_cons_self ..)]
    exact ih (fun w hw => h w (List.mem_cons_of_mem _ hw))

theorem ge_dir_outer_empty (g : Graph) (cap : Nat) (vs : List Nat)
    (h : ∀ v ∈ vs, g.adj v = []) :
    ge_dir_outer g cap vs [] = some [] := by
  induction vs with
  | nil => rfl
  | cons v t ih =>
    simp only [ge_dir_outer]
    rw [h v (List.mem_cons_self ..)]
    exact ih (fun w hw => h w (List.mem_cons_of_mem _ hw))

/-- C10: on a valid graph (at least one vertex, within the
`GRAFO_MAX_VERTICES` bound enforced by `create_graph`) whose adjacency
lists are all empty, `get_edges` returns the failure value `NULL` while
setting `*num_edges = 0` — indistinguishable from an error by the returned
pointer alone. -/
theorem C10_theorem (g : Graph) (h1 : 1 ≤ g.n)
    (h2 : g.n ≤ GRAFO_MAX_VERTICES)
    (hempty : ∀ u, u < g.n → g.adj u = []) :
    get_edges g = (none, 0) := by
  have hM : GRAFO_MAX_VERTICES = 10000 := rfl
  have hS : SIZE_MAX / 16 = 1152921504606846975 := by norm_num [SIZE_MAX]
  have hS1 : SIZE_MAX / 1 = SIZE_MAX := by norm_num
  unfold get_edges
  have hn0 : ¬ g.n = 0 := by omega
  rw [if_neg hn0]
  have hb1 : ¬ (SIZE_MAX / 16 < g.n) := by omega
  rw [if_neg hb1]
  have hcap : g.n * g.n ≤ 10000 * 10000 := by
    apply Nat.mul_le_mul <;> omega
  have hb2 : ¬ (g.n * g.n = 0 ∨ SIZE_MAX / 16 < g.n * g.n) := by
    rw [hS]
    rintro (hz | hgt)
    · have := Nat.mul_pos (by omega : 0 < g.n) (by omega : 0 < g.n)
      omega
    · omega
  rw [if_neg hb2]
  have hall : ∀ v ∈ List.range g.n, g.adj v = [] := by
    intro v hv
    exact hempty v (List.mem_range.mp hv)
  have hSfull : SIZE_MAX = 18446744073709551615 := rfl
  by_cases hdir : g.directed
  · rw [if_pos hdir, ge_dir_outer_empty g _ _ hall]
    simp
  · rw [if_neg hdir]
    have hb3 : ¬ (SIZE_MAX / 1 < g.n * g.n) := by omega
    rw [if_neg hb3, ge_undir_outer_empty g _ _ _ hall]
    simp

/-- Closed witness for `C10_theorem` on the one-vertex edgeless graph. -/
theorem C10_witness :
    get_edges ⟨1, false, fun _ => []⟩ = (none, 0) :=
  C10_theorem ⟨1, false, fun _ => []⟩ (by decide) (by decide)
    (fun _ _ => rfl)

/-! ### Shortest-path routines (claim C1)

The three routines are embedded for their return value (the distance); the
optional `out_path`/`out_len` reconstruction, which does not influence the
returned distance, is not modelled.  `int` distances live in
`[0, INT_MAX]` and every addition is guarded, so `Nat` is a faithful
carrier. -/

/-- Pointwise update of an `n × n` matrix stored as a curried function. -/
def upd2 (m : Nat → Nat → Nat) (i j : Nat) (x : Nat) : Nat → Nat → Nat :=
  fun a b => if a = i ∧ b = j then x else m a b

/-- The O(V²) selection scan of `dijkstra_shortest_path`: the unvisited
vertex with the smallest current distance, first found winning ties;
`(INT_MAX, n)` when every unvisited vertex is at `INT_MAX`. -/
def dijkstra_select (n : Nat) (visited : Nat → Bool) (dist : Nat → Nat) :
    Nat × Nat :=
  (List.range n).foldl
    (fun p v => if visited v = false ∧ dist v < p.1 then (dist v, v) else p)
    (INT_MAX, n)

/-- The neighbour relaxation of `dijkstra_shortest_path` (out-of-range
neighbours are skipped with a warning). -/
def dijkstra_relax (n u : Nat) (visited : Nat → Bool) :
    (Nat → Nat) → List Nat → (Nat → Nat)
  | dist, [] => dist
  | dist, v :: vs =>
    if n ≤ v then dijkstra_relax n u visited dist vs
    else if visited v = false ∧ dist u ≠ INT_MAX ∧ dist u + 1 < dist v then
      dijkstra_relax n u visited (upd dist v (dist u + 1)) vs
    else dijkstra_relax n u visited dist vs

/-- The main `for (count = 0; count < n; count++)` loop of
`dijkstra_shortest_path`; breaks when no vertex is selectable or when the
target is selected. -/
def dijkstra_loop (g : Graph) (target : Nat) :
    Nat → (Nat → Nat) → (Nat → Bool) → (Nat → Nat)
  | 0, dist, _ => dist
  | fuel + 1, dist, visited =>
    let p := dijkstra_select g.n visited dist
    if p.2 = g.n ∨ dist p.2 = INT_MAX then dist
    else
      let visited1 := upd visited p.2 true
      if p.2 = target then dist
      else dijkstra_loop g target fuel
        (dijkstra_relax g.n p.2 visited1 dist (g.adj p.2)) visited1

/-- `dijkstra_shortest_path(g, source, target, NULL, NULL)` from `part_001`
(lines 1156-1287), distance only. -/
def dijkstra_shortest_path (g : Graph) (source target : Nat) : Nat :=
  if g.n ≤ source ∨ g.n ≤ target then INT_MAX
  else if g.n = 0 ∨ SIZE_MAX / 4 < g.n then INT_MAX
  else
    dijkstra_loop g target g.n (upd (fun _ => INT_MAX) source 0)
      (fun _ => false) target

/-- Inner edge loop of one Bellman-Ford pass: relax every out-edge of `u`
(skipping out-of-range neighbours), reading the live `dist`. -/
def bf_relax_u (n u : Nat) :
    List Nat → (Nat → Nat) × Bool → (Nat → Nat) × Bool
  | [], s => s
  | v :: vs, (dist, updated) =>
    if n ≤ v then bf_relax_u n u vs (dist, updated)
    else if dist u + 1 < dist v then
      bf_relax_u n u vs (upd dist v (dist u + 1), true)
    else bf_relax_u n u vs (dist, updated)

/-- One full pass of `bellman_ford_shortest_path` over all vertices
(vertices at `INT_MAX` at the moment they are reached are skipped). -/
def bf_pass (g : Graph) :
    List Nat → (Nat → Nat) × Bool → (Nat → Nat) × Bool
  | [], s => s
  | u :: us, (dist, updated) =>
    if dist u = INT_MAX then bf_pass g us (dist, updated)
    else bf_pass g us (bf_relax_u g.n u (g.adj u) (dist, updated))

/-- The `n-1` relaxation rounds of `bellman_ford_shortest_path`, stopping
early after a pass with no update. -/
def bf_loop (g : Graph) : Nat → (Nat → Nat) → (Nat → Nat)
  | 0, dist => dist
  | fuel + 1, dist =>
    let s := bf_pass g (List.range g.n) (dist, false)
    if s.2 = false then s.1 else bf_loop g fuel s.1

/-- `bellman_ford_shortest_path(g, source, target, NULL, NULL)` from
`part_001` (lines 1585-1676), distance only. -/
def bellman_ford_shortest_path (g : Graph) (source target : Nat) : Nat :=
  if g.n ≤ source ∨ g.n ≤ target then INT_MAX
  else if g.n = 0 then INT_MAX
  else (bf_loop g (g.n - 1) (upd (fun _ => INT_MAX) source 0)) target

/-- Unit-weight edge initialisation of row `i` in
`_floyd_warshall_all_pairs`: `dist[i][v] = 1` for every in-range neighbour
`v` — note this OVERWRITES the diagonal `dist[i][i] = 0` when vertex `i`
carries a self-loop. -/
def fw_init_row (n i : Nat) :
    List Nat → (Nat → Nat → Nat) → (Nat → Nat → Nat)
  | [], m => m
  | v :: vs, m =>
    if v < n then fw_init_row n i vs (upd2 m i v 1)
    else fw_init_row n i vs m

/-- Distance-matrix initialisation of `_floyd_warshall_all_pairs`:
`0` on the diagonal, `INT_MAX` elsewhere, then each row's unit-weight
edges. -/
def fw_init (g : Graph) : Nat → Nat → Nat :=
  (List.range g.n).foldl (fun m i => fw_init_row g.n i (g.adj i) m)
    (fun i j => if i = j then 0 else INT_MAX)

/-- The triple loop of `_floyd_warshall_all_pairs`.  The `dist[i][k] ==
INT_MAX` skip reads the state at entry of the `j` loop; the overflow guard
and the relaxation read the live state, as in the C. -/
def fw_main (n : Nat) (m0 : Nat → Nat → Nat) : Nat → Nat → Nat :=
  (List.range n).foldl (fun mk k =>
    (List.range n).foldl (fun mi i =>
      if mi i k = INT_MAX then mi
      else (List.range n).foldl (fun mj j =>
        if mj k j = INT_MAX then mj
        else if INT_MAX - mj k j < mj i k then mj
        else if mj i k + mj k j < mj i j then upd2 mj i j (mj i k + mj k j)
        else mj) mi) mk) m0

/-- `floyd_warshall_shortest_path(g, source, target, NULL, NULL)` from
`part_001` (lines 1539-1569), distance only; the `n > SIZE_MAX /
sizeof(int *)` guard of `_floyd_warshall_all_pairs` is included. -/
def floyd_warshall_shortest_path (g : Graph) (source target : Nat) : Nat :=
  if g.n ≤ source ∨ g.n ≤ target then INT_MAX
  else if g.n = 0 then INT_MAX
  else if g.n = 0 ∨ SIZE_MAX / 8 < g.n then INT_MAX
  else fw_main g.n (fw_init g) source target

/-! ### Claim C1: agreement of the three shortest-path routines -/

/-- C1.  The claimed three-way agreement fails on the one-vertex directed
graph with the single self-loop edge `(0, 0)` at the in-range pair
`source = target = 0`: Dijkstra and Bellman-Ford return distance `0`, but
Floyd-Warshall returns `1`, because `_floyd_warshall_all_pairs` first sets
`dist[0][0] = 0` on the diagonal and then its unit-weight edge
initialisation overwrites it with `dist[0][0] = 1` for the self-loop,
contradicting the code's own diagonal initialisation and the common
documented contract of the three routines. -/
theorem C1_theorem :
    dijkstra_shortest_path ⟨1, true, fun _ => [0]⟩ 0 0 = 0 ∧
    bellman_ford_shortest_path ⟨1, true, fun _ => [0]⟩ 0 0 = 0 ∧
    floyd_warshall_shortest_path ⟨1, true, fun _ => [0]⟩ 0 0 = 1 := by
  refine ⟨?_, ?_, ?_⟩ <;> decide

/-! ### Vertex coloring (claim C8) -/

/-- The `used` scan of `greedy_sequential_coloring`: mark the colors of the
already-colored in-range neighbours (`if (w < n && color[w] >= 0)`). -/
def greedy_used (n : Nat) (color : Nat → Int) :
    List Nat → (Nat → Bool) → (Nat → Bool)
  | [], used => used
  | w :: ws, used =>
    if w < n ∧ 0 ≤ color w then
      greedy_used n color ws (upd used (color w).toNat true)
    else greedy_used n color ws used

/-- The smallest-available-color scan `for (c = 0; c < n; c++) if (!used[c])
break;` — yields `n` when every color below `n` is taken. -/
def least_free (n : Nat) (used : Nat → Bool) : Nat :=
  ((List.range n).find? (fun c => !(used c))).getD n

/-- One iteration of `greedy_sequential_coloring`'s vertex loop: scan the
neighbours' colors, pick the smallest free color, assign it to `v`. -/
def greedy_step (g : Graph) (color : Nat → Int) (v : Nat) : Nat → Int :=
  upd color v
    ((least_free g.n (greedy_used g.n color (g.adj v) (fun _ => false)) :
      Nat) : Int)

/-- `greedy_sequential_coloring`'s vertex loop (the `max_color` bookkeeping
feeds only `out_ncolors` and is omitted). -/
def greedy_colors (g : Graph) : Nat → Int :=
  (List.range g.n).foldl (greedy_step g) (fun _ => -1)

/-- `greedy_sequential_coloring(g, out)` from `part_001` (lines 1311-1370):
`NULL` on an invalid vertex count, otherwise `color[v]` per vertex. -/
def greedy_sequential_coloring (g : Graph) : Option (Nat → Int) :=
  if g.n = 0 ∨ SIZE_MAX / 4 < g.n then none
  else some (greedy_colors g)

/-- Highest-degree start vertex of `dsatur_coloring` (`for (v = 1; ...)
if (degree[v] > degree[first]) first = v`). -/
def dsatur_first (g : Graph) : Nat :=
  (List.range' 1 (g.n - 1)).foldl
    (fun first v =>
      if (g.adj first).length < (g.adj v).length then v else first) 0

/-- Saturation bookkeeping after coloring the first vertex with color 0
(`if (!neighbor_colors[u][0]) { ...; sat_deg[u]++; }`; the C performs no
bounds check on `u` here). -/
def dsatur_mark0 :
    List Nat → (Nat → Nat → Bool) → (Nat → Int) →
    (Nat → Nat → Bool) × (Nat → Int)
  | [], nc, sat => (nc, sat)
  | u :: us, nc, sat =>
    if nc u 0 = false then
      dsatur_mark0 us (upd nc u (upd (nc u) 0 true)) (upd sat u (sat u + 1))
    else dsatur_mark0 us nc sat

/-- Saturation bookkeeping after coloring `candidate` with color `c`
(`if (color[u] == -1 && !neighbor_colors[u][c]) { ...; sat_deg[u]++; }`). -/
def dsatur_mark (c : Nat) (color : Nat → Int) :
    List Nat → (Nat → Nat → Bool) → (Nat → Int) →
    (Nat → Nat → Bool) × (Nat → Int)
  | [], nc, sat => (nc, sat)
  | u :: us, nc, sat =>
    if color u = -1 ∧ nc u c = false then
      dsatur_mark c color us (upd nc u (upd (nc u) c true))
        (upd sat u (sat u + 1))
    else dsatur_mark c color us nc sat

/-- Candidate selection of `dsatur_coloring`: uncolored vertex of maximal
saturation, ties broken by larger raw degree against the current
candidate's degree (`0` while the candidate is still `SIZE_MAX`). -/
def dsatur_select_step (g : Graph) (color : Nat → Int) (sat : Nat → Int)
    (p : Int × Nat) (v : Nat) : Int × Nat :=
  if color v ≠ -1 then p
  else if p.1 < sat v ∨ (sat v = p.1 ∧
      (if p.2 ≠ SIZE_MAX then (g.adj p.2).length else 0) <
        (g.adj v).length) then
    (sat v, v)
  else p

def dsatur_select (g : Graph) (color : Nat → Int) (sat : Nat → Int) :
    Int × Nat :=
  (List.range g.n).foldl (dsatur_select_step g color sat) (-1, SIZE_MAX)

/-- The `used` scan of `dsatur_coloring` for the candidate (the C performs
no bounds check on the neighbour here). -/
def dsatur_used (color : Nat → Int) :
    List Nat → (Nat → Bool) → (Nat → Bool)
  | [], used => used
  | u :: us, used =>
    if color u ≠ -1 then dsatur_used color us (upd used (color u).toNat true)
    else dsatur_used color us used

/-- The main DSATUR iteration (`for (step = 1; step < n; step++)`),
breaking when no uncolored candidate remains. -/
def dsatur_loop (g : Graph) :
    Nat → (Nat → Int) → (Nat → Int) → (Nat → Nat → Bool) → (Nat → Int)
  | 0, color, _, _ => color
  | fuel + 1, color, sat, nc =>
    let p := dsatur_select g color sat
    if p.2 = SIZE_MAX then color
    else
      let c := least_free g.n (dsatur_used color (g.adj p.2) (fun _ => false))
      let color1 := upd color p.2 (c : Int)
      let m := dsatur_mark c color1 (g.adj p.2) nc sat
      dsatur_loop g fuel color1 m.2 m.1

/-- `dsatur_coloring(g, out_colors, out_num_colors)` from `part_001`
(lines 1998-2137): the returned color array (for `n = 0` the routine
returns success with a `NULL` array, modelled as `none`; `max_color`
bookkeeping feeds only `out_num_colors` and is omitted). -/
def dsatur_coloring (g : Graph) : Option (Nat → Int) :=
  if g.n = 0 then none
  else
    let first := dsatur_first g
    let m0 := dsatur_mark0 (g.adj first) (fun _ _ => false) (fun _ => 0)
    some (dsatur_loop g (g.n - 1) (upd (fun _ => -1) first 0) m0.2 m0.1)

/-! ### Properness of the two colorings -/

/-- Prop bundling what both coloring loops maintain: colored vertices are
in range with non-negative colors, and no adjacency edge joins two
equally-colored distinct vertices. -/
def ColoredOK (g : Graph) (color : Nat → Int) : Prop :=
  (∀ w, color w ≠ -1 → w < g.n ∧ 0 ≤ color w) ∧
  (∀ a b, color a ≠ -1 → color b ≠ -1 → a ≠ b → b ∈ g.adj a →
    color a ≠ color b)

theorem least_free_not_used {n : Nat} {used : Nat → Bool}
    (h : ∃ c ∈ List.range n, used c = false) :
    used (least_free n used) = false := by
  unfold least_free
  rcases h with ⟨c, hc, hcf⟩
  cases hfind : (List.range n).find? (fun c => !(used c)) with
  | none =>
    exfalso
    have := List.find?_eq_none.mp hfind c hc
    simp [hcf] at this
  | some d =>
    have := List.find?_some hfind
    simpa using this

theorem exists_free_color (n : Nat) (used : Nat → Bool) (S : Finset Nat)
    (f : Nat → Nat) (hcard : S.card < n)
    (hused : ∀ c, used c = true → ∃ w ∈ S, f w = c) :
    ∃ c ∈ List.range n, used c = false := by
  by_contra hcon
  push_neg at hcon
  have hsub : Finset.range n ⊆ S.image f := by
    intro c hc
    have hcr : c ∈ List.range n := List.mem_range.mpr (Finset.mem_range.mp hc)
    have h1 : used c = true := by
      have h2 := hcon c hcr
      revert h2; cases used c <;> simp
    obtain ⟨w, hw, hfw⟩ := hused c h1
    exact Finset.mem_image.mpr ⟨w, hw, hfw⟩
  have h1 := Finset.card_le_card hsub
  have h2 : (S.image f).card ≤ S.card := Finset.card_image_le
  simp only [Finset.card_range] at h1
  omega

theorem greedy_used_mono (n : Nat) (color : Nat → Int) :
    ∀ (l : List Nat) (used : Nat → Bool) (c : Nat), used c = true →
      greedy_used n color l used c = true := by
  intro l
  induction l with
  | nil => intro _ _ h; exact h
  | cons x xs ih =>
    intro used c h
    unfold greedy_used
    split_ifs with hx
    · apply ih
      by_cases hc : c = (color x).toNat
      · subst hc; simp [upd]
      · rw [upd_other _ _ _ _ hc]; exact h
    · exact ih used c h

theorem greedy_used_mem (n : Nat) (color : Nat → Int) :
    ∀ (l : List Nat) (used : Nat → Bool) (w : Nat), w ∈ l → w < n →
      0 ≤ color w →
      greedy_used n color l used ((color w).toNat) = true := by
  intro l
  induction l with
  | nil => intro _ _ h; cases h
  | cons x xs ih =>
    intro used w hw hwn hcw
    rcases List.mem_cons.mp hw with rfl | hmem
    · unfold greedy_used
      rw [if_pos ⟨hwn, hcw⟩]
      exact greedy_used_mono n color xs _ _ (upd_same ..)
    · unfold greedy_used
      split_ifs with hx
      · exact ih _ w hmem hwn hcw
      · exact ih _ w hmem hwn hcw

theorem greedy_used_sound (n : Nat) (color : Nat → Int) :
    ∀ (l : List Nat) (used : Nat → Bool) (c : Nat),
      greedy_used n color l used c = true →
      used c = true ∨ ∃ w ∈ l, w < n ∧ 0 ≤ color w ∧ (color w).toNat = c := by
  intro l
  induction l with
  | nil => intro _ _ h; exact Or.inl h
  | cons x xs ih =>
    intro used c h
    unfold greedy_used at h
    split_ifs at h with hx
    · rcases ih _ c h with h1 | ⟨w, hw, hp⟩
      · by_cases hc : c = (color x).toNat
        · exact Or.inr ⟨x, List.mem_cons_self .., hx.1, hx.2, hc.symm⟩
        · rw [upd_other _ _ _ _ hc] at h1; exact Or.inl h1
      · exact Or.inr ⟨w, List.mem_cons_of_mem _ hw, hp⟩
    · rcases ih _ c h with h1 | ⟨w, hw, hp⟩
      · exact Or.inl h1
      · exact Or.inr ⟨w, List.mem_cons_of_mem _ hw, hp⟩

theorem dsatur_used_mono (color : Nat → Int) :
    ∀ (l : List Nat) (used : Nat → Bool) (c : Nat), used c = true →
      dsatur_used color l used c = true := by
  intro l
  induction l with
  | nil => intro _ _ h; exact h
  | cons x xs ih =>
    intro used c h
    unfold dsatur_used
    split_ifs with hx
    · apply ih
      by_cases hc : c = (color x).toNat
      · subst hc; simp [upd]
      · rw [upd_other _ _ _ _ hc]; exact h
    · exact ih used c h

theorem dsatur_used_mem (color : Nat → Int) :
    ∀ (l : List Nat) (used : Nat → Bool) (w : Nat), w ∈ l →
      color w ≠ -1 →
      dsatur_used color l used ((color w).toNat) = true := by
  intro l
  induction l with
  | nil => intro _ _ h; cases h
  | cons x xs ih =>
    intro used w hw hcw
    rcases List.mem_cons.mp hw with rfl | hmem
    · unfold dsatur_used
      rw [if_pos hcw]
      exact dsatur_used_mono color xs _ _ (upd_same ..)
    · unfold dsatur_used
      split_ifs with hx
      · exact ih _ w hmem hcw
      · exact ih _ w hmem hcw

theorem dsatur_used_sound (color : Nat → Int) :
    ∀ (l : List Nat) (used : Nat → Bool) (c : Nat),
      dsatur_used color l used c = true →
      used c = true ∨ ∃ w ∈ l, color w ≠ -1 ∧ (color w).toNat = c := by
  intro l
  induction l with
  | nil => intro _ _ h; exact Or.inl h
  | cons x xs ih =>
    intro used c h
    unfold dsatur_used at h
    split_ifs at h with hx
    · rcases ih _ c h with h1 | ⟨w, hw, hp⟩
      · by_cases hc : c = (color x).toNat
        · exact Or.inr ⟨x, List.mem_cons_self .., hx, hc.symm⟩
        · rw [upd_other _ _ _ _ hc] at h1; exact Or.inl h1
      · exact Or.inr ⟨w, List.mem_cons_of_mem _ hw, hp⟩
    · rcases ih _ c h with h1 | ⟨w, hw, hp⟩
      · exact Or.inl h1
      · exact Or.inr ⟨w, List.mem_cons_of_mem _ hw, hp⟩

/-- Assigning a color that no colored neighbour of the (uncolored,
in-range) vertex carries preserves `ColoredOK`. -/
theorem coloring_step_ok (g : Graph) (hsym : g.Sym)
    (color : Nat → Int) (v : Nat) (hv : v < g.n)
    (hok : ColoredOK g color) (c : Nat)
    (hcfree : ∀ w ∈ g.adj v, color w ≠ -1 → (color w).toNat ≠ c) :
    ColoredOK g (upd color v ((c : Nat) : Int)) := by
  obtain ⟨hrange, hprop⟩ := hok
  constructor
  · intro w hw
    by_cases hwv : w = v
    · refine ⟨hwv ▸ hv, ?_⟩
      rw [hwv, upd_same]
      exact Int.natCast_nonneg c
    · rw [upd_other _ _ _ _ hwv] at hw ⊢
      exact hrange w hw
  · intro a b hca hcb hab hadj
    by_cases hav : a = v <;> by_cases hbv : b = v
    · exact absurd (hav.trans hbv.symm) hab
    · -- a = v freshly colored, b previously colored
      rw [hav, upd_same]
      rw [upd_other _ _ _ _ hbv] at hcb ⊢
      have hbadj : b ∈ g.adj v := hav ▸ hadj
      have h1 := hcfree b hbadj hcb
      have h2 := (hrange b hcb).2
      intro hEq
      apply h1
      omega
    · -- b = v freshly colored, a previously colored
      rw [hbv, upd_same]
      rw [upd_other _ _ _ _ hav] at hca ⊢
      have haadj : a ∈ g.adj v := hsym a v (hbv ▸ hadj)
      have h1 := hcfree a haadj hca
      have h2 := (hrange a hca).2
      intro hEq
      apply h1
      omega
    · rw [upd_other _ _ _ _ hav] at hca ⊢
      rw [upd_other _ _ _ _ hbv] at hcb
      rw [upd_other _ _ _ _ hbv]
      exact hprop a b hca hcb hab hadj

theorem colored_card_lt (g : Graph) (color : Nat → Int) (v : Nat)
    (hv : v < g.n) (hvc : color v = -1) :
    ((Finset.range g.n).filter (fun w => color w ≠ -1)).card < g.n := by
  have hss : (Finset.range g.n).filter (fun w => color w ≠ -1) ⊂
      Finset.range g.n := by
    refine ⟨Finset.filter_subset _ _, ?_⟩
    intro hsub
    have h1 := hsub (Finset.mem_range.mpr hv)
    exact (Finset.mem_filter.mp h1).2 hvc
  simpa using Finset.card_lt_card hss

/-- The color chosen by the greedy `used`/scan pair is not used by any
colored neighbour. -/
theorem greedy_step_free (g : Graph) (color : Nat → Int) (v : Nat)
    (hv : v < g.n) (hvc : color v = -1)
    (_hrange : ∀ w, color w ≠ -1 → w < g.n ∧ 0 ≤ color w) :
    greedy_used g.n color (g.adj v) (fun _ => false)
      (least_free g.n (greedy_used g.n color (g.adj v) (fun _ => false)))
      = false := by
  apply least_free_not_used
  apply exists_free_color g.n _
    ((Finset.range g.n).filter (fun w => color w ≠ -1))
    (fun w => (color w).toNat) (colored_card_lt g color v hv hvc)
  intro c hc
  rcases greedy_used_sound g.n color (g.adj v) _ c hc with h1 |
    ⟨w, _, hwn, hwc, hwt⟩
  · simp at h1
  · refine ⟨w, Finset.mem_filter.mpr ⟨Finset.mem_range.mpr hwn, ?_⟩, hwt⟩
    intro h; rw [h] at hwc; omega

/-- The color chosen by the DSATUR `used`/scan pair is not used by any
colored neighbour. -/
theorem dsatur_step_free (g : Graph) (color : Nat → Int) (v : Nat)
    (hv : v < g.n) (hvc : color v = -1)
    (hrange : ∀ w, color w ≠ -1 → w < g.n ∧ 0 ≤ color w) :
    dsatur_used color (g.adj v) (fun _ => false)
      (least_free g.n (dsatur_used color (g.adj v) (fun _ => false)))
      = false := by
  apply least_free_not_used
  apply exists_free_color g.n _
    ((Finset.range g.n).filter (fun w => color w ≠ -1))
    (fun w => (color w).toNat) (colored_card_lt g color v hv hvc)
  intro c hc
  rcases dsatur_used_sound color (g.adj v) _ c hc with h1 | ⟨w, _, hwc, hwt⟩
  · simp at h1
  · exact ⟨w, Finset.mem_filter.mpr
      ⟨Finset.mem_range.mpr (hrange w hwc).1, hwc⟩, hwt⟩

theorem greedy_fold_ok (g : Graph) (hsym : g.Sym) :
    ∀ (l : List Nat) (color : Nat → Int),
      (∀ w ∈ l, w < g.n) → l.Nodup →
      (∀ w ∈ l, color w = -1) →
      ColoredOK g color →
      ColoredOK g (l.foldl (greedy_step g) color) := by
  intro l
  induction l with
  | nil => intro color _ _ _ h; exact h
  | cons v vs ih =>
    intro color hlt hnd hunc hok
    have hv : v < g.n := hlt v (List.mem_cons_self ..)
    have hvc : color v = -1 := hunc v (List.mem_cons_self ..)
    simp only [List.foldl_cons]
    apply ih
    · intro w hw; exact hlt w (List.mem_cons_of_mem _ hw)
    · exact List.Nodup.of_cons hnd
    · intro w hw
      have hwv : w ≠ v := by
        rintro rfl; exact (List.nodup_cons.mp hnd).1 hw
      unfold greedy_step
      rw [upd_other _ _ _ _ hwv]
      exact hunc w (List.mem_cons_of_mem _ hw)
    · unfold greedy_step
      apply coloring_step_ok g hsym color v hv hok
      intro w hw hwc hEq
      have h1 := greedy_used_mem g.n color (g.adj v) (fun _ => false) w hw
        (hok.1 w hwc).1 (hok.1 w hwc).2
      rw [hEq] at h1
      rw [greedy_step_free g color v hv hvc hok.1] at h1
      cases h1

theorem greedy_fold_all (g : Graph) :
    ∀ (l : List Nat) (color : Nat → Int) (w : Nat),
      (w ∈ l ∨ color w ≠ -1) →
      (l.foldl (greedy_step g) color) w ≠ -1 := by
  intro l
  induction l with
  | nil =>
    intro color w hw
    rcases hw with h | h
    · cases h
    · exact h
  | cons v vs ih =>
    intro color w hw
    simp only [List.foldl_cons]
    apply ih
    rcases hw with h | h
    · rcases List.mem_cons.mp h with rfl | hmem
      · right
        unfold greedy_step
        rw [upd_same]
        omega
      · left; exact hmem
    · right
      unfold greedy_step
      by_cases hwv : w = v
      · rw [hwv, upd_same]; omega
      · rw [upd_other _ _ _ _ hwv]; exact h

/-- The DSATUR selection scan yields `SIZE_MAX` or an in-range uncolored
vertex. -/
theorem dsatur_select_spec (g : Graph) (color : Nat → Int)
    (sat : Nat → Int) :
    (dsatur_select g color sat).2 = SIZE_MAX ∨
    ((dsatur_select g color sat).2 < g.n ∧
      color (dsatur_select g color sat).2 = -1) := by
  unfold dsatur_select
  have haux : ∀ (l : List Nat) (p : Int × Nat), (∀ v ∈ l, v < g.n) →
      (p.2 = SIZE_MAX ∨ (p.2 < g.n ∧ color p.2 = -1)) →
      ((l.foldl (dsatur_select_step g color sat) p).2 = SIZE_MAX ∨
        ((l.foldl (dsatur_select_step g color sat) p).2 < g.n ∧
          color ((l.foldl (dsatur_select_step g color sat) p).2) = -1)) := by
    intro l
    induction l with
    | nil => intro p _ hp; exact hp
    | cons v vs ih =>
      intro p hlt hp
      simp only [List.foldl_cons]
      apply ih
      · intro w hw; exact hlt w (List.mem_cons_of_mem _ hw)
      · unfold dsatur_select_step
        split_ifs with h1 h2 h3 <;>
          first
            | exact hp
            | (right
               refine ⟨hlt v (List.mem_cons_self ..), ?_⟩
               revert h1
               by_cases h : color v = -1 <;> simp [h])
  exact haux (List.range g.n) (-1, SIZE_MAX)
    (fun v hv => List.mem_range.mp hv) (Or.inl rfl)

/-- If some in-range vertex is uncolored and saturation counts are
non-negative, the DSATUR selection cannot come back empty (the vertex
count is within the `create_graph` bound, so no vertex collides with the
`SIZE_MAX` sentinel). -/
theorem dsatur_select_finds (g : Graph) (color : Nat → Int)
    (sat : Nat → Int) (hnmax : g.n ≤ GRAFO_MAX_VERTICES)
    (hsat : ∀ w, 0 ≤ sat w)
    (hex : ∃ w, w < g.n ∧ color w = -1) :
    (dsatur_select g color sat).2 ≠ SIZE_MAX := by
  unfold dsatur_select
  have haux : ∀ (l : List Nat) (p : Int × Nat), (∀ v ∈ l, v < g.n) →
      (p.2 = SIZE_MAX → p.1 = -1) →
      ((l.foldl (dsatur_select_step g color sat) p).2 = SIZE_MAX) →
      p.2 = SIZE_MAX ∧ ∀ w ∈ l, color w ≠ -1 := by
    intro l
    induction l with
    | nil =>
      intro p _ _ h
      exact ⟨h, fun w hw => absurd hw (List.not_mem_nil w)⟩
    | cons v vs ih =>
      intro p hlt hq hres
      simp only [List.foldl_cons] at hres
      unfold dsatur_select_step at hres
      by_cases hcv : color v = -1
      · by_cases hpmax : p.2 = SIZE_MAX
        · -- the scan must pick v here, so the final candidate is a vertex
          have hcond : p.1 < sat v ∨ (sat v = p.1 ∧
              (if p.2 ≠ SIZE_MAX then (g.adj p.2).length else 0) <
                (g.adj v).length) := by
            left
            rw [hq hpmax]
            have := hsat v
            omega
          rw [if_neg (by simpa using hcv), if_pos hcond] at hres
          have h1 := ih (sat v, v) (fun w hw =>
            hlt w (List.mem_cons_of_mem _ hw)) (by
              intro h
              exfalso
              have hvn := hlt v (List.mem_cons_self ..)
              have : v < SIZE_MAX := by
                have : g.n ≤ 10000 := hnmax
                have hS : (10000 : Nat) < SIZE_MAX := by decide
                omega
              simp only at h
              omega) hres
          have hvn := hlt v (List.mem_cons_self ..)
          have hvS : v < SIZE_MAX := by
            have : g.n ≤ 10000 := hnmax
            have hS : (10000 : Nat) < SIZE_MAX := by decide
            omega
          exact absurd h1.1 (by simp only; omega)
        · -- a candidate already exists; whatever the step does, the
          -- candidate stays a vertex
          split_ifs at hres with h1 h2
          · exact absurd hcv (by simpa using h1)
          · have h3 := ih (sat v, v) (fun w hw =>
              hlt w (List.mem_cons_of_mem _ hw)) (by
                intro h
                exfalso
                have hvn := hlt v (List.mem_cons_self ..)
                have hvS : v < SIZE_MAX := by
                  have : g.n ≤ 10000 := hnmax
                  have hS : (10000 : Nat) < SIZE_MAX := by decide
                  omega
                simp only at h
                omega) hres
            have hvn := hlt v (List.mem_cons_self ..)
            have hvS : v < SIZE_MAX := by
              have : g.n ≤ 10000 := hnmax
              have hS : (10000 : Nat) < SIZE_MAX := by decide
              omega
            exact absurd h3.1 (by simp only; omega)
          · have h3 := ih p (fun w hw =>
              hlt w (List.mem_cons_of_mem _ hw)) hq hres
            exact absurd h3.1 hpmax
      · rw [if_pos (by simpa using hcv)] at hres
        have h1 := ih p (fun w hw => hlt w (List.mem_cons_of_mem _ hw))
          hq hres
        refine ⟨h1.1, ?_⟩
        intro w hw
        rcases List.mem_cons.mp hw with rfl | hmem
        · exact hcv
        · exact h1.2 w hmem
  intro hmax
  obtain ⟨w, hwlt, hwc⟩ := hex
  have h1 := haux (List.range g.n) (-1, SIZE_MAX)
    (fun v hv => List.mem_range.mp hv) (fun _ => rfl) hmax
  exact (h1.2 w (List.mem_range.mpr hwlt)) hwc

theorem dsatur_mark_sat_nonneg (c : Nat) (color : Nat → Int) :
    ∀ (l : List Nat) (nc : Nat → Nat → Bool) (sat : Nat → Int),
      (∀ w, 0 ≤ sat w) →
      ∀ w, 0 ≤ (dsatur_mark c color l nc sat).2 w := by
  intro l
  induction l with
  | nil => intro _ sat h w; exact h w
  | cons u us ih =>
    intro nc sat h w
    unfold dsatur_mark
    split_ifs with h1
    · apply ih
      intro x
      by_cases hx : x = u
      · rw [hx, upd_same]; have := h u; omega
      · rw [upd_other _ _ _ _ hx]; exact h x
    · exact ih nc sat h w

theorem dsatur_mark0_sat_nonneg :
    ∀ (l : List Nat) (nc : Nat → Nat → Bool) (sat : Nat → Int),
      (∀ w, 0 ≤ sat w) →
      ∀ w, 0 ≤ (dsatur_mark0 l nc sat).2 w := by
  intro l
  induction l with
  | nil => intro _ sat h w; exact h w
  | cons u us ih =>
    intro nc sat h w
    unfold dsatur_mark0
    split_ifs with h1
    · apply ih
      intro x
      by_cases hx : x = u
      · rw [hx, upd_same]; have := h u; omega
      · rw [upd_other _ _ _ _ hx]; exact h x
    · exact ih nc sat h w

/-- The DSATUR main loop preserves `ColoredOK` for any fuel, saturation
counters and neighbour-color table. -/
theorem dsatur_loop_ok (g : Graph) (hsym : g.Sym) :
    ∀ (fuel : Nat) (color : Nat → Int) (sat : Nat → Int)
      (nc : Nat → Nat → Bool), ColoredOK g color →
      ColoredOK g (dsatur_loop g fuel color sat nc) := by
  intro fuel
  induction fuel with
  | zero => intro color sat nc h; exact h
  | succ fuel ih =>
    intro color sat nc hok
    unfold dsatur_loop
    dsimp only
    by_cases hbreak : (dsatur_select g color sat).2 = SIZE_MAX
    · rw [if_pos hbreak]; exact hok
    · rw [if_neg hbreak]
      rcases dsatur_select_spec g color sat with h | ⟨hclt, hcunc⟩
      · exact absurd h hbreak
      · apply ih
        apply coloring_step_ok g hsym color _ hclt hok
        intro w hw hwc hEq
        have h1 := dsatur_used_mem color
          (g.adj (dsatur_select g color sat).2) (fun _ => false) w hw hwc
        rw [hEq] at h1
        rw [dsatur_step_free g color _ hclt hcunc hok.1] at h1
        cases h1

theorem dsatur_loop_keeps (g : Graph) :
    ∀ (fuel : Nat) (color : Nat → Int) (sat : Nat → Int)
      (nc : Nat → Nat → Bool) (w : Nat), color w ≠ -1 →
      dsatur_loop g fuel color sat nc w ≠ -1 := by
  intro fuel
  induction fuel with
  | zero => intro color _ _ w h; exact h
  | succ fuel ih =>
    intro color sat nc w h
    unfold dsatur_loop
    dsimp only
    by_cases hbreak : (dsatur_select g color sat).2 = SIZE_MAX
    · rw [if_pos hbreak]; exact h
    · rw [if_neg hbreak]
      apply ih
      by_cases hwc : w = (dsatur_select g color sat).2
      · rw [hwc, upd_same]; omega
      · rw [upd_other _ _ _ _ hwc]; exact h

/-- With enough fuel for the remaining uncolored vertices, the DSATUR main
loop colors every in-range vertex. -/
theorem dsatur_loop_all (g : Graph) (hnmax : g.n ≤ GRAFO_MAX_VERTICES) :
    ∀ (fuel : Nat) (color : Nat → Int) (sat : Nat → Int)
      (nc : Nat → Nat → Bool),
      (∀ w, 0 ≤ sat w) →
      ((Finset.range g.n).filter (fun w => color w = -1)).card ≤ fuel →
      ∀ w, w < g.n → dsatur_loop g fuel color sat nc w ≠ -1 := by
  intro fuel
  induction fuel with
  | zero =>
    intro color sat nc _ hcard w hw
    have hwc : color w ≠ -1 := by
      intro h
      have hmem : w ∈ (Finset.range g.n).filter (fun w => color w = -1) :=
        Finset.mem_filter.mpr ⟨Finset.mem_range.mpr hw, h⟩
      have := Finset.card_pos.mpr ⟨w, hmem⟩
      omega
    exact hwc
  | succ fuel ih =>
    intro color sat nc hsat hcard w hw
    unfold dsatur_loop
    dsimp only
    by_cases hbreak : (dsatur_select g color sat).2 = SIZE_MAX
    · rw [if_pos hbreak]
      intro hwc
      exact dsatur_select_finds g color sat hnmax hsat ⟨w, hw, hwc⟩ hbreak
    · rw [if_neg hbreak]
      rcases dsatur_select_spec g color sat with h | ⟨hclt, hcunc⟩
      · exact absurd h hbreak
      · apply ih
        · exact dsatur_mark_sat_nonneg _ _ _ _ _ hsat
        · have hfe : (Finset.range g.n).filter (fun x =>
              upd color (dsatur_select g color sat).2
                ((least_free g.n (dsatur_used color
                  (g.adj (dsatur_select g color sat).2)
                  (fun _ => false)) : Nat) : Int) x = -1) =
              ((Finset.range g.n).filter (fun x => color x = -1)).erase
                (dsatur_select g color sat).2 := by
            ext x
            simp only [Finset.mem_filter, Finset.mem_erase,
              Finset.mem_range]
            by_cases hx : x = (dsatur_select g color sat).2
            · rw [hx, upd_same]
              constructor
              · intro h1; exfalso; omega
              · rintro ⟨h1, _⟩; exact absurd rfl h1
            · rw [upd_other _ _ _ _ hx]
              constructor
              · rintro ⟨h1, h2⟩; exact ⟨hx, h1, h2⟩
              · rintro ⟨_, h1, h2⟩; exact ⟨h1, h2⟩
          rw [hfe]
          have hmem : (dsatur_select g color sat).2 ∈
              (Finset.range g.n).filter (fun x => color x = -1) :=
            Finset.mem_filter.mpr ⟨Finset.mem_range.mpr hclt, hcunc⟩
          rw [Finset.card_erase_of_mem hmem]
          have := Finset.card_pos.mpr ⟨_, hmem⟩
          omega
        · exact hw

theorem dsatur_first_lt (g : Graph) (h0 : 0 < g.n) : dsatur_first g < g.n := by
  unfold dsatur_first
  have haux : ∀ (l : List Nat) (acc : Nat), (∀ v ∈ l, v < g.n) →
      acc < g.n →
      (l.foldl (fun first v =>
        if (g.adj first).length < (g.adj v).length then v else first)
        acc) < g.n := by
    intro l
    induction l with
    | nil => intro acc _ h; exact h
    | cons v vs ih =>
      intro acc hlt hacc
      simp only [List.foldl_cons]
      apply ih
      · intro w hw; exact hlt w (List.mem_cons_of_mem _ hw)
      · split_ifs
        · exact hlt v (List.mem_cons_self ..)
        · exact hacc
  apply haux
  · intro v hv
    have := List.mem_range'_1.mp hv
    omega
  · exact h0

/-! ### Claim C8: properness of the two colorings -/

/-- C8, counterexample.  On the directed graph with the single adjacency
edge `0 → 1` (valid entries), both colorings give vertices 0 and 1 the
same color 0: the neighbour scans only look at a vertex's own list, so an
edge recorded on one side only is never seen from the other side. -/
theorem C8_counterexample :
    (1 : Nat) ∈ (⟨2, true, fun x => if x = 0 then [1] else []⟩ :
      Graph).adj 0 ∧
    (greedy_sequential_coloring
        ⟨2, true, fun x => if x = 0 then [1] else []⟩).map
      (fun f => (f 0, f 1)) = some (0, 0) ∧
    (dsatur_coloring ⟨2, true, fun x => if x = 0 then [1] else []⟩).map
      (fun f => (f 0, f 1)) = some (0, 0) := by
  refine ⟨by decide, by decide, by decide⟩

/-- C8, amended: on every graph with valid adjacency entries whose
adjacency is symmetric (in particular every undirected graph built by
`add_edge`) and within the `create_graph` vertex bound, any color
assignment returned by `greedy_sequential_coloring` or `dsatur_coloring`
is a proper coloring: two distinct vertices joined by an adjacency edge
receive different colors. -/
theorem C8_theorem (g : Graph) (hwf : g.WF) (hsym : g.Sym)
    (hnmax : g.n ≤ GRAFO_MAX_VERTICES)
    (u v : Nat) (hu : u < g.n) (huv : u ≠ v) (hadj : v ∈ g.adj u) :
    (∀ colors, greedy_sequential_coloring g = some colors →
      colors u ≠ colors v) ∧
    (∀ colors, dsatur_coloring g = some colors → colors u ≠ colors v) := by
  have hvn : v < g.n := hwf u hu v hadj
  constructor
  · intro colors hc
    unfold greedy_sequential_coloring at hc
    split_ifs at hc with h0
    have hcc : colors = greedy_colors g := (Option.some.inj hc).symm
    subst hcc
    have hok := greedy_fold_ok g hsym (List.range g.n) (fun _ => -1)
      (fun w hw => List.mem_range.mp hw) (List.nodup_range _)
      (fun _ _ => rfl)
      ⟨fun w hw => absurd rfl hw, fun a b ha _ _ _ => absurd rfl ha⟩
    have hall := fun w (hw : w < g.n) =>
      greedy_fold_all g (List.range g.n) (fun _ => -1) w
        (Or.inl (List.mem_range.mpr hw))
    exact hok.2 u v (hall u hu) (hall v hvn) huv hadj
  · intro colors hc
    unfold dsatur_coloring at hc
    split_ifs at hc with h0
    · have h0' : 0 < g.n := by omega
      have hflt := dsatur_first_lt g h0'
      have hok0 : ColoredOK g (upd (fun _ => -1) (dsatur_first g) 0) := by
        constructor
        · intro w hw
          by_cases hwf' : w = dsatur_first g
          · rw [hwf'] at hw ⊢
            rw [upd_same]
            exact ⟨hflt, le_refl 0⟩
          · rw [upd_other _ _ _ _ hwf'] at hw
            exact absurd rfl hw
        · intro a b ha hb hab _
          by_cases haf : a = dsatur_first g
          · by_cases hbf : b = dsatur_first g
            · exact absurd (haf.trans hbf.symm) hab
            · rw [upd_other _ _ _ _ hbf] at hb
              exact absurd rfl hb
          · rw [upd_other _ _ _ _ haf] at ha
            exact absurd rfl ha
      dsimp only at hc
      have hcc : colors = dsatur_loop g (g.n - 1)
          (upd (fun _ => -1) (dsatur_first g) 0)
          (dsatur_mark0 (g.adj (dsatur_first g)) (fun _ _ => false)
            (fun _ => 0)).2
          (dsatur_mark0 (g.adj (dsatur_first g)) (fun _ _ => false)
            (fun _ => 0)).1 := (Option.some.inj hc).symm
      subst hcc
      have hok := dsatur_loop_ok g hsym (g.n - 1)
        (upd (fun _ => -1) (dsatur_first g) 0)
        (dsatur_mark0 (g.adj (dsatur_first g)) (fun _ _ => false)
          (fun _ => 0)).2
        (dsatur_mark0 (g.adj (dsatur_first g)) (fun _ _ => false)
          (fun _ => 0)).1 hok0
      have hsat0 : ∀ w, 0 ≤ (dsatur_mark0 (g.adj (dsatur_first g))
          (fun _ _ => false) (fun _ => 0)).2 w :=
        dsatur_mark0_sat_nonneg _ _ _ (fun _ => le_refl 0)
      have hcard : ((Finset.range g.n).filter (fun w =>
          upd (fun _ => (-1 : Int)) (dsatur_first g) 0 w = -1)).card ≤
          g.n - 1 := by
        have hfe : (Finset.range g.n).filter (fun w =>
            upd (fun _ => (-1 : Int)) (dsatur_first g) 0 w = -1) =
            (Finset.range g.n).erase (dsatur_first g) := by
          ext x
          simp only [Finset.mem_filter, Finset.mem_erase, Finset.mem_range]
          by_cases hx : x = dsatur_first g
          · rw [hx, upd_same]
            constructor
            · rintro ⟨_, h⟩; cases h
            · rintro ⟨h, _⟩; exact absurd rfl h
          · rw [upd_other _ _ _ _ hx]
            exact ⟨fun h => ⟨hx, h.1⟩, fun h => ⟨h.2, rfl⟩⟩
        rw [hfe, Finset.card_erase_of_mem
          (Finset.mem_range.mpr hflt)]
        simp
      have hall := fun w (hw : w < g.n) =>
        dsatur_loop_all g hnmax (g.n - 1)
          (upd (fun _ => -1) (dsatur_first g) 0)
          (dsatur_mark0 (g.adj (dsatur_first g)) (fun _ _ => false)
            (fun _ => 0)).2
          (dsatur_mark0 (g.adj (dsatur_first g)) (fun _ _ => false)
            (fun _ => 0)).1 hsat0 hcard w hw
      exact hok.2 u v (hall u hu) (hall v hvn) huv hadj

/-- Closed witness for `C8_theorem` on the undirected single-edge graph. -/
theorem C8_witness :
    (∀ colors, greedy_sequential_coloring
        ⟨2, false, fun x => if x = 0 then [1] else
          if x = 1 then [0] else []⟩ = some colors →
      colors 0 ≠ colors 1) ∧
    (∀ colors, dsatur_coloring
        ⟨2, false, fun x => if x = 0 then [1] else
          if x = 1 then [0] else []⟩ = some colors →
      colors 0 ≠ colors 1) := by
  apply C8_theorem
  · intro u hu w hw
    simp only [Graph.n] at hu
    interval_cases u <;> simp_all
  · intro a b hab
    by_cases h0 : a = 0
    · subst h0
      simp only [Graph.adj] at hab ⊢
      simp at hab
      simp [hab]
    · by_cases h1 : a = 1
      · subst h1
        simp only [Graph.adj] at hab ⊢
        simp at hab
        simp [hab]
      · simp only [Graph.adj] at hab
        simp [h0, h1] at hab
  · decide
  · decide
  · decide
  · decide

/-! ### Topological sort (claim C4)

`size_t in_degree[]` is modelled with exact integers (`Int`); the loop
invariant keeps every cell non-negative and far below `2^64`, so the model
agrees with the C `size_t` arithmetic. -/

/-- The in-degree accumulation loops of `topological_sort` (one increment
per adjacency entry). -/
def kahn_indeg (g : Graph) : Nat → Nat :=
  (List.range g.n).foldl
    (fun ind u => (g.adj u).foldl (fun ind v => upd ind v (ind v + 1)) ind)
    (fun _ => 0)

/-- Neighbour processing of one popped vertex `u`:
`if (--in_degree[v] == 0) queue[back++] = v;`. -/
def kahn_dec : List Nat → (Nat → Int) → List Nat → (Nat → Int) × List Nat
  | [], ind, acc => (ind, acc)
  | v :: vs, ind, acc =>
    if ind v - 1 = 0 then kahn_dec vs (upd ind v (ind v - 1)) (acc ++ [v])
    else kahn_dec vs (upd ind v (ind v - 1)) acc

/-- The `while (front < back)` loop of `topological_sort`.  Each vertex is
enqueued at most once, so `n` pops of fuel always suffice (proved in
`kahn_loop_spec`). -/
def kahn_loop (g : Graph) : Nat → (Nat → Int) → List Nat → List Nat →
    List Nat
  | 0, _, _, order => order
  | fuel + 1, ind, queue, order =>
    match queue with
    | [] => order
    | u :: rest =>
      let s := kahn_dec (g.adj u) ind []
      kahn_loop g fuel s.1 (rest ++ s.2) (order ++ [u])

/-- `topological_sort(g)` from `part_001` (lines 2488-2552): NULL for an
undirected or empty graph, for an out-of-range adjacency entry met while
accumulating in-degrees, or when fewer than `n` vertices get popped
(cycle); otherwise the popped order. -/
def topological_sort (g : Graph) : Option (List Nat) :=
  if g.directed = false then none
  else if g.n = 0 then none
  else if (List.range g.n).any (fun u => (g.adj u).any (fun v => g.n ≤ v))
    then none
  else
    let order := kahn_loop g g.n (fun v => ((kahn_indeg g v : Nat) : Int))
      ((List.range g.n).filter (fun v => kahn_indeg g v = 0)) []
    if order.length ≠ g.n then none else some order

/-- Total in-degree of `v` contributed by the sources listed in `l`. -/
def kahn_sum (g : Graph) (l : List Nat) (v : Nat) : Nat :=
  (l.map (fun u => (g.adj u).count v)).sum

theorem kahn_indeg_inner :
    ∀ (l : List Nat) (ind : Nat → Nat) (v : Nat),
      (l.foldl (fun ind v => upd ind v (ind v + 1)) ind) v =
        ind v + l.count v := by
  intro l
  induction l with
  | nil => intro ind v; simp
  | cons a t ih =>
    intro ind v
    simp only [List.foldl_cons]
    rw [ih]
    by_cases hv : v = a
    · subst hv
      rw [upd_same, List.count_cons_self]
      omega
    · rw [upd_other _ _ _ _ hv, List.count_cons_of_ne hv]

theorem kahn_indeg_eq_sum (g : Graph) (v : Nat) :
    kahn_indeg g v = kahn_sum g (List.range g.n) v := by
  unfold kahn_indeg kahn_sum
  have haux : ∀ (ls : List Nat) (ind : Nat → Nat),
      (ls.foldl (fun ind u =>
        (g.adj u).foldl (fun ind v => upd ind v (ind v + 1)) ind) ind) v =
      ind v + (ls.map (fun u => (g.adj u).count v)).sum := by
    intro ls
    induction ls with
    | nil => intro ind; simp
    | cons u us ih =>
      intro ind
      simp only [List.foldl_cons, List.map_cons, List.sum_cons]
      rw [ih, kahn_indeg_inner]
      omega
  rw [haux]
  omega

theorem kahn_sum_append (g : Graph) (l1 l2 : List Nat) (v : Nat) :
    kahn_sum g (l1 ++ l2) v = kahn_sum g l1 v + kahn_sum g l2 v := by
  unfold kahn_sum
  rw [List.map_append, List.sum_append]

theorem kahn_sum_singleton (g : Graph) (u v : Nat) :
    kahn_sum g [u] v = (g.adj u).count v := by
  unfold kahn_sum
  simp

/-- Sum over a duplicate-free in-range source list is at most the total. -/
theorem kahn_sum_le_total (g : Graph) (l : List Nat) (v : Nat)
    (hnd : l.Nodup) (hlt : ∀ x ∈ l, x < g.n) :
    kahn_sum g l v ≤ kahn_sum g (List.range g.n) v := by
  unfold kahn_sum
  have h1 : (l.map (fun u => (g.adj u).count v)).sum =
      l.toFinset.sum (fun u => (g.adj u).count v) :=
    (List.sum_toFinset _ hnd).symm
  have hrange : (List.range g.n).toFinset = Finset.range g.n := by
    ext x; simp
  have h2 : ((List.range g.n).map (fun u => (g.adj u).count v)).sum =
      (Finset.range g.n).sum (fun u => (g.adj u).count v) := by
    rw [← hrange]
    exact (List.sum_toFinset _ (List.nodup_range _)).symm
  rw [h1, h2]
  apply Finset.sum_le_sum_of_subset
  intro x hx
  exact Finset.mem_range.mpr (hlt x (List.mem_toFinset.mp hx))

/-- Value component of `kahn_dec`: every listed neighbour is decremented
once per occurrence. -/
theorem kahn_dec_ind :
    ∀ (l : List Nat) (ind : Nat → Int) (acc : List Nat) (v : Nat),
      (kahn_dec l ind acc).1 v = ind v - (l.count v : Int) := by
  intro l
  induction l with
  | nil => intro ind acc v; simp [kahn_dec]
  | cons a t ih =>
    intro ind acc v
    unfold kahn_dec
    by_cases hv : v = a
    · subst hv
      rw [List.count_cons_self]
      split_ifs <;> rw [ih, upd_same] <;> push_cast <;> ring
    · rw [List.count_cons_of_ne hv]
      split_ifs <;> rw [ih, upd_other _ _ _ _ hv]

/-- Enqueue component of `kahn_dec`: `v` is newly enqueued iff its counter
passes through zero, i.e. `1 ≤ ind v ≤ count`. -/
theorem kahn_dec_mem :
    ∀ (l : List Nat) (ind : Nat → Int) (acc : List Nat) (v : Nat),
      v ∈ (kahn_dec l ind acc).2 ↔
        v ∈ acc ∨ (v ∈ l ∧ 1 ≤ ind v ∧ ind v ≤ (l.count v : Int)) := by
  intro l
  induction l with
  | nil => intro ind acc v; simp [kahn_dec]
  | cons a t ih =>
    intro ind acc v
    unfold kahn_dec
    by_cases hv : v = a
    · subst hv
      rw [List.count_cons_self]
      split_ifs with h1
      · constructor
        · intro _
          exact Or.inr ⟨List.mem_cons_self _ _, by omega, by
            push_cast; omega⟩
        · intro _
          rw [ih]
          exact Or.inl (List.mem_append.mpr (Or.inr (List.mem_singleton.mpr
            rfl)))
      · rw [ih, upd_same]
        constructor
        · rintro (h | ⟨_, h3, h4⟩)
          · exact Or.inl h
          · exact Or.inr ⟨List.mem_cons_self _ _, by omega, by
              push_cast at h4 ⊢; omega⟩
        · rintro (h | ⟨_, h3, h4⟩)
          · exact Or.inl h
          · push_cast at h4
            have hm : v ∈ t := List.count_pos_iff.mp (by omega)
            exact Or.inr ⟨hm, by omega, by omega⟩
    · rw [List.count_cons_of_ne hv]
      have hupd : upd ind a (ind a - 1) v = ind v := upd_other _ _ _ _ hv
      split_ifs with h1
      · rw [ih, hupd]
        constructor
        · rintro (h | ⟨h2, h3, h4⟩)
          · rcases List.mem_append.mp h with h0 | h0
            · exact Or.inl h0
            · exact absurd (List.mem_singleton.mp h0) hv
          · exact Or.inr ⟨List.mem_cons_of_mem _ h2, h3, h4⟩
        · rintro (h | ⟨h2, h3, h4⟩)
          · exact Or.inl (List.mem_append.mpr (Or.inl h))
          · rcases List.mem_cons.mp h2 with h0 | h0
            · exact absurd h0 hv
            · exact Or.inr ⟨h0, h3, h4⟩
      · rw [ih, hupd]
        constructor
        · rintro (h | ⟨h2, h3, h4⟩)
          · exact Or.inl h
          · exact Or.inr ⟨List.mem_cons_of_mem _ h2, h3, h4⟩
        · rintro (h | ⟨h2, h3, h4⟩)
          · exact Or.inl h
          · rcases List.mem_cons.mp h2 with h0 | h0
            · exact absurd h0 hv
            · exact Or.inr ⟨h0, h3, h4⟩

/-- The newly-enqueued list of `kahn_dec` has no duplicates (a vertex's
counter passes through zero at most once). -/
theorem kahn_dec_nodup :
    ∀ (l : List Nat) (ind : Nat → Int) (acc : List Nat), acc.Nodup →
      (∀ v ∈ acc, ind v ≤ 0) → (kahn_dec l ind acc).2.Nodup := by
  intro l
  induction l with
  | nil => intro ind acc h _; exact h
  | cons a t ih =>
    intro ind acc hnd hle
    unfold kahn_dec
    split_ifs with h1
    · apply ih
      · rw [List.nodup_append]
        refine ⟨hnd, List.nodup_singleton a, ?_⟩
        intro x hx hxa
        rw [List.mem_singleton] at hxa
        subst hxa
        have := hle x hx
        omega
      · intro v hv
        rcases List.mem_append.mp hv with h2 | h2
        · by_cases hva : v = a
          · subst hva; rw [upd_same]; omega
          · rw [upd_other _ _ _ _ hva]; exact hle v h2
        · rw [List.mem_singleton] at h2
          subst h2
          rw [upd_same]; omega
    · apply ih _ _ hnd
      intro v hv
      by_cases hva : v = a
      · subst hva; rw [upd_same]; have := hle v hv; omega
      · rw [upd_other _ _ _ _ hva]; exact hle v hv

/-- A duplicate-free list of `n` naturals below `n` contains them all. -/
theorem nodup_full_range {l : List Nat} {n : Nat} (hnd : l.Nodup)
    (hlt : ∀ x ∈ l, x < n) (hlen : l.length = n) :
    ∀ v, v < n → v ∈ l := by
  intro v hv
  have hsub : l.toFinset ⊆ Finset.range n := by
    intro x hx
    exact Finset.mem_range.mpr (hlt x (List.mem_toFinset.mp hx))
  have hcard : (Finset.range n).card ≤ l.toFinset.card := by
    rw [List.toFinset_card_of_nodup hnd, hlen, Finset.card_range]
  have heq : l.toFinset = Finset.range n :=
    Finset.eq_of_subset_of_card_le hsub hcard
  exact List.mem_toFinset.mp (heq ▸ Finset.mem_range.mpr hv)

/-- Loop invariant of the Kahn loop: counters record the in-degree from
not-yet-popped sources, popped/queued vertices are distinct and in range,
a vertex has been enqueued exactly when all its in-edges come from popped
sources, and every popped vertex's in-range in-neighbours were popped
strictly earlier. -/
def KahnInv (g : Graph) (ind : Nat → Int) (queue order : List Nat) :
    Prop :=
  (∀ v, ind v = (kahn_sum g (List.range g.n) v : Int) -
    (kahn_sum g order v : Int)) ∧
  (order ++ queue).Nodup ∧
  (∀ v ∈ order ++ queue, v < g.n) ∧
  (∀ v, v < g.n →
    ((v ∈ order ∨ v ∈ queue) ↔
      kahn_sum g order v = kahn_sum g (List.range g.n) v)) ∧
  (∀ i (h : i < order.length) (a : Nat), a < g.n →
    order.get ⟨i, h⟩ ∈ g.adj a → a ∈ order.take i)

/-- What the Kahn loop guarantees about its result: distinct in-range
entries, in-neighbours popped first, and any vertex left out still has an
in-edge from outside the result. -/
def KahnOut (g : Graph) (res : List Nat) : Prop :=
  res.Nodup ∧ (∀ v ∈ res, v < g.n) ∧
  (∀ i (h : i < res.length) (a : Nat), a < g.n →
    res.get ⟨i, h⟩ ∈ g.adj a → a ∈ res.take i) ∧
  (∀ v, v < g.n → v ∉ res →
    kahn_sum g res v ≠ kahn_sum g (List.range g.n) v)

theorem kahn_loop_spec (g : Graph) (hwf : g.WF) :
    ∀ (fuel : Nat) (ind : Nat → Int) (queue order : List Nat),
      KahnInv g ind queue order →
      fuel + order.length = g.n →
      KahnOut g (kahn_loop g fuel ind queue order) := by
  intro fuel
  induction fuel with
  | zero =>
    intro ind queue order hinv hfuel
    obtain ⟨_, hnd, hbnd, _, hord⟩ := hinv
    have hndo : order.Nodup := (List.nodup_append.mp hnd).1
    have hbo : ∀ x ∈ order, x < g.n := fun x hx =>
      hbnd x (List.mem_append.mpr (Or.inl hx))
    have hlen : order.length = g.n := by omega
    refine ⟨hndo, hbo, hord, ?_⟩
    intro v hv hnmem
    exact absurd (nodup_full_range hndo hbo hlen v hv) hnmem
  | succ fuel ih =>
    intro ind queue order hinv hfuel
    obtain ⟨hA, hnd, hbnd, hC, hord⟩ := hinv
    rcases queue with _ | ⟨u, rest⟩
    · refine ⟨(List.nodup_append.mp hnd).1, ?_, hord, ?_⟩
      · intro x hx
        exact hbnd x (List.mem_append.mpr (Or.inl hx))
      · intro v hv hnmem
        intro hS
        have := (hC v hv).mpr hS
        rcases this with h | h
        · exact hnmem h
        · exact absurd h (List.not_mem_nil v)
    · have hstep : kahn_loop g (fuel + 1) ind (u :: rest) order =
          kahn_loop g fuel (kahn_dec (g.adj u) ind []).1
            (rest ++ (kahn_dec (g.adj u) ind []).2) (order ++ [u]) := rfl
      rw [hstep]
      have hu_mem : u ∈ order ++ u :: rest :=
        List.mem_append.mpr (Or.inr (List.mem_cons_self _ _))
      have hu_lt : u < g.n := hbnd u hu_mem
      have hdisj : order.Disjoint (u :: rest) :=
        (List.nodup_append.mp hnd).2.2
      have hndo : order.Nodup := (List.nodup_append.mp hnd).1
      have hu_no : u ∉ order := fun h =>
        hdisj h (List.mem_cons_self _ _)
      have hbo : ∀ x ∈ order, x < g.n := fun x hx =>
        hbnd x (List.mem_append.mpr (Or.inl hx))
      -- the at-most-total bound for the popped prefix extended by one
      have hle_ext : ∀ (w v : Nat), w < g.n → w ∉ order →
          kahn_sum g order v + (g.adj w).count v ≤
            kahn_sum g (List.range g.n) v := by
        intro w v hw hwno
        have h1 : (order ++ [w]).Nodup := by
          rw [List.nodup_append]
          exact ⟨hndo, List.nodup_singleton w, fun x hx hxw =>
            hwno ((List.mem_singleton.mp hxw) ▸ hx)⟩
        have h2 : ∀ x ∈ order ++ [w], x < g.n := by
          intro x hx
          rcases List.mem_append.mp hx with h | h
          · exact hbo x h
          · exact (List.mem_singleton.mp h) ▸ hw
        have := kahn_sum_le_total g (order ++ [w]) v h1 h2
        rw [kahn_sum_append, kahn_sum_singleton] at this
        exact this
      -- a vertex already popped or enqueued receives no in-edge from u
      have hkey0 : ∀ v, v < g.n → (v ∈ order ∨ v ∈ u :: rest) →
          (g.adj u).count v = 0 := by
        intro v hv hvQ
        have hS : kahn_sum g order v = kahn_sum g (List.range g.n) v :=
          (hC v hv).mp hvQ
        have := hle_ext u v hu_lt hu_no
        omega
      have hnew_mem : ∀ v, v ∈ (kahn_dec (g.adj u) ind []).2 ↔
          (v ∈ g.adj u ∧ 1 ≤ ind v ∧
            ind v ≤ ((g.adj u).count v : Int)) := by
        intro v
        rw [kahn_dec_mem]
        simp
      have hnew_nodup : (kahn_dec (g.adj u) ind []).2.Nodup :=
        kahn_dec_nodup _ _ [] List.nodup_nil (by simp)
      have hnew_lt : ∀ v ∈ (kahn_dec (g.adj u) ind []).2, v < g.n := by
        intro v hv
        exact hwf u hu_lt v ((hnew_mem v).mp hv).1
      have hnew_notQ : ∀ v ∈ (kahn_dec (g.adj u) ind []).2,
          v ∉ order ∧ v ∉ u :: rest := by
        intro v hv
        obtain ⟨_, h1, _⟩ := (hnew_mem v).mp hv
        have hvlt := hnew_lt v hv
        by_contra hcon
        have hvQ : v ∈ order ∨ v ∈ u :: rest := by tauto
        have hS := (hC v hvlt).mp hvQ
        have := hA v
        omega
      -- the new combined list is duplicate-free
      have hnd1 : ((order ++ [u]) ++
          (rest ++ (kahn_dec (g.adj u) ind []).2)).Nodup := by
        have heq : (order ++ [u]) ++
            (rest ++ (kahn_dec (g.adj u) ind []).2) =
            (order ++ u :: rest) ++ (kahn_dec (g.adj u) ind []).2 := by
          simp
        rw [heq, List.nodup_append]
        refine ⟨hnd, hnew_nodup, ?_⟩
        intro x hx hx2
        obtain ⟨h1, h2⟩ := hnew_notQ x hx2
        rcases List.mem_append.mp hx with h | h
        · exact h1 h
        · exact h2 h
      refine ih (kahn_dec (g.adj u) ind []).1
        (rest ++ (kahn_dec (g.adj u) ind []).2) (order ++ [u])
        ⟨?_, hnd1, ?_, ?_, ?_⟩ ?_
      · intro v
        rw [kahn_dec_ind, kahn_sum_append, kahn_sum_singleton, hA v]
        push_cast
        ring
      · intro v hv
        rcases List.mem_append.mp hv with h | h
        · rcases List.mem_append.mp h with h2 | h2
          · exact hbo v h2
          · exact (List.mem_singleton.mp h2) ▸ hu_lt
        · rcases List.mem_append.mp h with h2 | h2
          · exact hbnd v (List.mem_append.mpr
              (Or.inr (List.mem_cons_of_mem _ h2)))
          · exact hnew_lt v h2
      · intro v hv
        rw [kahn_sum_append, kahn_sum_singleton]
        by_cases hvQ : v ∈ order ∨ v ∈ u :: rest
        · have hS := (hC v hv).mp hvQ
          have hcnt := hkey0 v hv hvQ
          constructor
          · intro _; omega
          · intro _
            rcases hvQ with h | h
            · exact Or.inl (List.mem_append.mpr (Or.inl h))
            · rcases List.mem_cons.mp h with h2 | h2
              · exact Or.inl (List.mem_append.mpr
                  (Or.inr (List.mem_singleton.mpr h2)))
              · exact Or.inr (List.mem_append.mpr (Or.inl h2))
        · push_neg at hvQ
          obtain ⟨hvo, hvq⟩ := hvQ
          have hvu : v ≠ u := fun h =>
            hvq (h ▸ List.mem_cons_self _ _)
          have hvr : v ∉ rest := fun h =>
            hvq (List.mem_cons_of_mem _ h)
          have hSne : kahn_sum g order v ≠
              kahn_sum g (List.range g.n) v := by
            intro h
            rcases (hC v hv).mpr h with h2 | h2
            · exact hvo h2
            · exact hvq h2
          have hSle : kahn_sum g order v ≤
              kahn_sum g (List.range g.n) v :=
            kahn_sum_le_total g order v hndo hbo
          have hind_pos : 1 ≤ ind v := by
            have := hA v; omega
          have hle2 := hle_ext u v hu_lt hu_no
          constructor
          · intro hmem
            rcases hmem with h | h
            · rcases List.mem_append.mp h with h2 | h2
              · exact absurd h2 hvo
              · exact absurd (List.mem_singleton.mp h2) hvu
            · rcases List.mem_append.mp h with h2 | h2
              · exact absurd h2 hvr
              · obtain ⟨_, _, h5⟩ := (hnew_mem v).mp h2
                have := hA v
                omega
          · intro hS1
            right
            apply List.mem_append.mpr
            right
            rw [hnew_mem]
            have hApos := hA v
            have hcpos : 0 < (g.adj u).count v := by omega
            exact ⟨List.count_pos_iff.mp hcpos, hind_pos, by omega⟩
      · intro i h a ha hadj
        by_cases hi : i < order.length
        · rw [List.get_append i hi] at hadj
          rw [List.take_append_of_le_length (Nat.le_of_lt hi)]
          exact hord i hi a ha hadj
        · have hieq : i = order.length := by
            have := h
            simp only [List.length_append, List.length_singleton] at this
            omega
          subst hieq
          have hget : (order ++ [u]).get ⟨order.length, h⟩ = u := by
            have := List.getElem_concat_length order u
            simpa using this
          rw [hget] at hadj
          rw [List.take_left]
          by_contra hano
          have hcnt : 0 < (g.adj a).count u :=
            List.count_pos_iff.mpr hadj
          have hS : kahn_sum g order u = kahn_sum g (List.range g.n) u :=
            (hC u hu_lt).mp (Or.inr (List.mem_cons_self _ _))
          have := hle_ext a u ha hano
          omega
      · simp only [List.length_append, List.length_singleton]
        omega

theorem indexOf_lt_of_mem_take :
    ∀ (l : List Nat) (i a : Nat), a ∈ l.take i → l.indexOf a < i := by
  intro l
  induction l with
  | nil => intro i a h; simp at h
  | cons x t ih =>
    intro i a h
    cases i with
    | zero => simp at h
    | succ i =>
      rw [List.take_succ_cons] at h
      rcases List.mem_cons.mp h with h0 | h0
      · subst h0
        rw [List.indexOf_cons_self]
        omega
      · by_cases hax : x = a
        · rw [List.indexOf_cons_eq _ hax]; omega
        · rw [List.indexOf_cons_ne _ hax]
          have := ih i a h0
          omega

theorem kahn_sum_eq_finset (g : Graph) (l : List Nat) (v : Nat)
    (hnd : l.Nodup) :
    kahn_sum g l v = l.toFinset.sum (fun u => (g.adj u).count v) :=
  (List.sum_toFinset _ hnd).symm

theorem kahn_total_eq_finset (g : Graph) (v : Nat) :
    kahn_sum g (List.range g.n) v =
      (Finset.range g.n).sum (fun u => (g.adj u).count v) := by
  have hrange : (List.range g.n).toFinset = Finset.range g.n := by
    ext x; simp
  rw [kahn_sum_eq_finset g _ v (List.nodup_range _), hrange]

/-- If every vertex of a set closed under "has an in-neighbour in the set"
is in range, the graph has a directed cycle (pigeonhole on an infinite
predecessor walk). -/
theorem kahn_pred_cycle (g : Graph) (P : Nat → Prop)
    (hsub : ∀ w, P w → w < g.n)
    (hstep : ∀ w, P w → ∃ u, P u ∧ w ∈ g.adj u)
    (v0 : Nat) (h0 : P v0) :
    ∃ v, v < g.n ∧ Relation.TransGen (fun a b => b ∈ g.adj a) v v := by
  let nxt : {w : Nat // P w} → {w : Nat // P w} := fun w =>
    ⟨Classical.choose (hstep w.1 w.2),
      (Classical.choose_spec (hstep w.1 w.2)).1⟩
  have hedge : ∀ x : {w : Nat // P w}, x.1 ∈ g.adj (nxt x).1 := fun x =>
    (Classical.choose_spec (hstep x.1 x.2)).2
  have hchain : ∀ (d : Nat) (x : {w : Nat // P w}),
      Relation.TransGen (fun a b => b ∈ g.adj a) (nxt^[d + 1] x).1 x.1 := by
    intro d
    induction d with
    | zero =>
      intro x
      refine Relation.TransGen.single ?_
      rw [Function.iterate_one]
      exact hedge x
    | succ d ihd =>
      intro x
      have h1 : (nxt^[d + 1] x).1 ∈ g.adj (nxt^[d + 2] x).1 := by
        rw [Function.iterate_succ_apply' nxt (d + 1) x]
        exact hedge (nxt^[d + 1] x)
      exact Relation.TransGen.head h1 (ihd x)
  have haux : ∀ a b : Nat, a < b →
      (nxt^[a] ⟨v0, h0⟩).1 = (nxt^[b] ⟨v0, h0⟩).1 →
      ∃ v, v < g.n ∧ Relation.TransGen (fun a b => b ∈ g.adj a) v v := by
    intro a b hab heq
    have h2 : nxt^[b] ⟨v0, h0⟩ = nxt^[b - a - 1 + 1] (nxt^[a] ⟨v0, h0⟩) := by
      rw [← Function.iterate_add_apply]
      congr 1
      omega
    have hcyc := hchain (b - a - 1) (nxt^[a] ⟨v0, h0⟩)
    rw [← h2] at hcyc
    rw [← heq] at hcyc
    exact ⟨_, hsub _ (nxt^[a] ⟨v0, h0⟩).2, hcyc⟩
  have hmap : ∀ k ∈ Finset.range (g.n + 1),
      (nxt^[k] ⟨v0, h0⟩).1 ∈ Finset.range g.n := fun k _ =>
    Finset.mem_range.mpr (hsub _ (nxt^[k] ⟨v0, h0⟩).2)
  have hcard : (Finset.range g.n).card < (Finset.range (g.n + 1)).card := by
    simp
  obtain ⟨i, _, j, _, hij, heq⟩ :=
    Finset.exists_ne_map_eq_of_card_lt_of_maps_to hcard hmap
  rcases Nat.lt_or_ge i j with hlt | hge
  · exact haux i j hlt heq
  · have hlt2 : j < i := by omega
    exact haux j i hlt2 heq.symm

/-- A complete ordering satisfying the earlier-in-neighbours property
rules out directed cycles among in-range vertices. -/
theorem kahn_sorted_no_cycle (g : Graph) (hwf : g.WF) (res : List Nat)
    (hD : ∀ i (h : i < res.length) (a : Nat), a < g.n →
      res.get ⟨i, h⟩ ∈ g.adj a → a ∈ res.take i)
    (hall : ∀ w, w < g.n → w ∈ res) :
    ∀ v, v < g.n → ¬ Relation.TransGen (fun a b => b ∈ g.adj a) v v := by
  have hbefore : ∀ a b, a < g.n → b ∈ g.adj a →
      res.indexOf a < res.indexOf b := by
    intro a b ha hb
    have hblt : b < g.n := hwf a ha b hb
    have hj : res.indexOf b < res.length :=
      List.indexOf_lt_length.mpr (hall b hblt)
    have hgj : res.get ⟨res.indexOf b, hj⟩ = b := by
      rw [List.get_eq_getElem]
      exact List.getElem_indexOf hj
    have htake : a ∈ res.take (res.indexOf b) := by
      refine hD _ hj a ha ?_
      rw [hgj]
      exact hb
    exact indexOf_lt_of_mem_take res _ a htake
  have haux : ∀ a b, Relation.TransGen (fun x y => y ∈ g.adj x) a b →
      a < g.n → b < g.n ∧ res.indexOf a < res.indexOf b := by
    intro a b h
    induction h with
    | single h1 => intro ha; exact ⟨hwf a ha _ h1, hbefore a _ ha h1⟩
    | tail _ h2 ihh =>
      intro ha
      obtain ⟨hc, hlt⟩ := ihh ha
      exact ⟨hwf _ hc _ h2, hlt.trans (hbefore _ _ hc h2)⟩
  intro v hv hcyc
  have := (haux v v hcyc hv).2
  omega

/-- C4: for every non-empty directed graph with in-range adjacency
entries, `topological_sort` returns NULL iff the graph has a directed
cycle, and a returned order lists every vertex once with each edge's
source strictly before its destination. -/
theorem C4_theorem (g : Graph) (hdir : g.directed = true) (hn : 0 < g.n)
    (hwf : g.WF) :
    (topological_sort g = none ↔
      ∃ v, v < g.n ∧ Relation.TransGen (fun a b => b ∈ g.adj a) v v) ∧
    (∀ order, topological_sort g = some order →
      order.length = g.n ∧
      ∀ u, u < g.n → ∀ v ∈ g.adj u, order.indexOf u < order.indexOf v) := by
  have hempty : kahn_sum g [] = fun _ => 0 := rfl
  have hinit : KahnInv g (fun v => ((kahn_indeg g v : Nat) : Int))
      ((List.range g.n).filter (fun v => kahn_indeg g v = 0)) [] := by
    refine ⟨?_, ?_, ?_, ?_, ?_⟩
    · intro v
      show ((kahn_indeg g v : Nat) : Int) = _
      rw [kahn_indeg_eq_sum, congrFun hempty v]
      push_cast
      ring
    · simp only [List.nil_append]
      exact List.Nodup.filter _ (List.nodup_range _)
    · intro v hv
      simp only [List.nil_append] at hv
      exact List.mem_range.mp (List.mem_filter.mp hv).1
    · intro v hv
      rw [congrFun hempty v]
      constructor
      · rintro (h | h)
        · exact absurd h (List.not_mem_nil v)
        · have h2 : kahn_indeg g v = 0 := by
            simpa using (List.mem_filter.mp h).2
          rw [kahn_indeg_eq_sum] at h2
          omega
      · intro h
        right
        refine List.mem_filter.mpr ⟨List.mem_range.mpr hv, ?_⟩
        have h2 : kahn_indeg g v = 0 := by
          rw [kahn_indeg_eq_sum]; omega
        simpa using h2
    · intro i h
      simp at h
  have hout : KahnOut g (kahn_loop g g.n
      (fun v => ((kahn_indeg g v : Nat) : Int))
      ((List.range g.n).filter (fun v => kahn_indeg g v = 0)) []) :=
    kahn_loop_spec g hwf g.n _ _ [] hinit (by simp)
  obtain ⟨hnd, hbnd, hD, hc⟩ := hout
  have hvalid : ¬ (((List.range g.n).any
      fun u => (g.adj u).any fun v => g.n ≤ v) = true) := by
    intro hbad
    rw [List.any_eq_true] at hbad
    obtain ⟨u, hu, hbad2⟩ := hbad
    rw [List.any_eq_true] at hbad2
    obtain ⟨v, hv, hbad3⟩ := hbad2
    exact absurd (hwf u (List.mem_range.mp hu) v hv)
      (Nat.not_lt.mpr (by simpa using hbad3))
  have heq_ts : topological_sort g =
      if (kahn_loop g g.n (fun v => ((kahn_indeg g v : Nat) : Int))
        ((List.range g.n).filter (fun v => kahn_indeg g v = 0)) []).length
        ≠ g.n
      then none
      else some (kahn_loop g g.n (fun v => ((kahn_indeg g v : Nat) : Int))
        ((List.range g.n).filter (fun v => kahn_indeg g v = 0)) []) := by
    unfold topological_sort
    rw [if_neg (by rw [hdir]; exact fun h => Bool.noConfusion h),
      if_neg (by omega), if_neg hvalid]
  have hlen_le : (kahn_loop g g.n (fun v => ((kahn_indeg g v : Nat) : Int))
      ((List.range g.n).filter (fun v => kahn_indeg g v = 0)) []).length
      ≤ g.n := by
    have h1 := List.toFinset_card_of_nodup hnd
    have h2 : (kahn_loop g g.n (fun v => ((kahn_indeg g v : Nat) : Int))
        ((List.range g.n).filter (fun v => kahn_indeg g v = 0))
        []).toFinset ⊆ Finset.range g.n := by
      intro x hx
      exact Finset.mem_range.mpr (hbnd x (List.mem_toFinset.mp hx))
    have h3 := Finset.card_le_card h2
    rw [h1, Finset.card_range] at h3
    exact h3
  constructor
  · constructor
    · intro hnone
      rw [heq_ts] at hnone
      by_cases hl : (kahn_loop g g.n
          (fun v => ((kahn_indeg g v : Nat) : Int))
          ((List.range g.n).filter (fun v => kahn_indeg g v = 0))
          []).length ≠ g.n
      · -- some vertex was never popped; walk predecessors to a cycle
        have hex : ∃ v0, v0 < g.n ∧ v0 ∉ kahn_loop g g.n
            (fun v => ((kahn_indeg g v : Nat) : Int))
            ((List.range g.n).filter (fun v => kahn_indeg g v = 0)) [] := by
          by_contra hcon
          push_neg at hcon
          have hsup : Finset.range g.n ⊆ (kahn_loop g g.n
              (fun v => ((kahn_indeg g v : Nat) : Int))
              ((List.range g.n).filter (fun v => kahn_indeg g v = 0))
              []).toFinset := by
            intro x hx
            exact List.mem_toFinset.mpr (hcon x (Finset.mem_range.mp hx))
          have h4 := Finset.card_le_card hsup
          rw [Finset.card_range, List.toFinset_card_of_nodup hnd] at h4
          omega
        obtain ⟨v0, hv0, hv0n⟩ := hex
        refine kahn_pred_cycle g
          (fun w => w < g.n ∧ w ∉ kahn_loop g g.n
            (fun v => ((kahn_indeg g v : Nat) : Int))
            ((List.range g.n).filter (fun v => kahn_indeg g v = 0)) [])
          (fun w hw => hw.1) ?_ v0 ⟨hv0, hv0n⟩
        rintro w ⟨hw1, hw2⟩
        by_contra hcon
        push_neg at hcon
        apply hc w hw1 hw2
        have hsub : (kahn_loop g g.n
            (fun v => ((kahn_indeg g v : Nat) : Int))
            ((List.range g.n).filter (fun v => kahn_indeg g v = 0))
            []).toFinset ⊆ Finset.range g.n := by
          intro x hx
          exact Finset.mem_range.mpr (hbnd x (List.mem_toFinset.mp hx))
        have hsplit : (Finset.sum (Finset.range g.n \ (kahn_loop g g.n
              (fun v => ((kahn_indeg g v : Nat) : Int))
              ((List.range g.n).filter (fun v => kahn_indeg g v = 0))
              []).toFinset) (fun u => (g.adj u).count w)) +
            Finset.sum ((kahn_loop g g.n
              (fun v => ((kahn_indeg g v : Nat) : Int))
              ((List.range g.n).filter (fun v => kahn_indeg g v = 0))
              []).toFinset) (fun u => (g.adj u).count w) =
            Finset.sum (Finset.range g.n) (fun u => (g.adj u).count w) :=
          Finset.sum_sdiff hsub
        have hzero : Finset.sum (Finset.range g.n \ (kahn_loop g g.n
            (fun v => ((kahn_indeg g v : Nat) : Int))
            ((List.range g.n).filter (fun v => kahn_indeg g v = 0))
            []).toFinset) (fun u => (g.adj u).count w) = 0 := by
          apply Finset.sum_eq_zero
          intro u hu
          obtain ⟨hu1, hu2⟩ := Finset.mem_sdiff.mp hu
          apply List.count_eq_zero.mpr
          exact hcon u ⟨Finset.mem_range.mp hu1,
            fun h => hu2 (List.mem_toFinset.mpr h)⟩
        rw [kahn_sum_eq_finset g _ w hnd, kahn_total_eq_finset]
        omega
      · rw [if_neg hl] at hnone
        exact absurd hnone (Option.some_ne_none _)
    · intro hcyc
      rw [heq_ts]
      by_cases hl : (kahn_loop g g.n
          (fun v => ((kahn_indeg g v : Nat) : Int))
          ((List.range g.n).filter (fun v => kahn_indeg g v = 0))
          []).length ≠ g.n
      · rw [if_pos hl]
      · exfalso
        push_neg at hl
        obtain ⟨v, hv, hvc⟩ := hcyc
        exact kahn_sorted_no_cycle g hwf _ hD
          (nodup_full_range hnd hbnd hl) v hv hvc
  · intro order hsome
    rw [heq_ts] at hsome
    by_cases hl : (kahn_loop g g.n
        (fun v => ((kahn_indeg g v : Nat) : Int))
        ((List.range g.n).filter (fun v => kahn_indeg g v = 0))
        []).length ≠ g.n
    · rw [if_pos hl] at hsome
      exact absurd hsome (by simp)
    · rw [if_neg hl] at hsome
      push_neg at hl
      have horder : order = kahn_loop g g.n
          (fun v => ((kahn_indeg g v : Nat) : Int))
          ((List.range g.n).filter (fun v => kahn_indeg g v = 0)) [] :=
        (Option.some.inj hsome).symm
      rw [← horder] at hnd hbnd hD hl
      refine ⟨hl, ?_⟩
      intro u hu v hv
      have hvlt : v < g.n := hwf u hu v hv
      have hall := nodup_full_range hnd hbnd hl
      have hj : order.indexOf v < order.length :=
        List.indexOf_lt_length.mpr (hall v hvlt)
      have hgj : order.get ⟨order.indexOf v, hj⟩ = v := by
        rw [List.get_eq_getElem]
        exact List.getElem_indexOf hj
      have htake : u ∈ order.take (order.indexOf v) := by
        refine hD _ hj u hu ?_
        rw [hgj]
        exact hv
      exact indexOf_lt_of_mem_take order _ u htake

/-- C4 witness: the directed two-vertex graph with the single edge
`0 → 1` satisfies every hypothesis of `C4_theorem`, which then yields the
cycle characterisation and the ordering property for it. -/
theorem C4_witness :
    ((⟨2, true, fun i => if i = 0 then [1] else []⟩ : Graph).directed
        = true) ∧
    (0 < (⟨2, true, fun i => if i = 0 then [1] else []⟩ : Graph).n) ∧
    (⟨2, true, fun i => if i = 0 then [1] else []⟩ : Graph).WF ∧
    ((topological_sort ⟨2, true, fun i => if i = 0 then [1] else []⟩
        = none ↔
      ∃ v, v < (⟨2, true, fun i => if i = 0 then [1] else []⟩ : Graph).n ∧
        Relation.TransGen
          (fun a b => b ∈
            (⟨2, true, fun i => if i = 0 then [1] else []⟩ : Graph).adj a)
          v v) ∧
    (∀ order,
      topological_sort ⟨2, true, fun i => if i = 0 then [1] else []⟩
        = some order →
      order.length =
        (⟨2, true, fun i => if i = 0 then [1] else []⟩ : Graph).n ∧
      ∀ u, u < (⟨2, true, fun i => if i = 0 then [1] else []⟩ : Graph).n →
        ∀ v ∈ (⟨2, true, fun i => if i = 0 then [1] else []⟩ : Graph).adj u,
          order.indexOf u < order.indexOf v)) := by
  refine ⟨rfl, by decide, ?_, C4_theorem _ rfl (by decide) ?_⟩ <;>
    (intro u hu w hw
     simp only [Graph.n] at hu
     interval_cases u <;> simp_all)

/-! ### Edmonds-Karp max flow and min cut (claim C2)

`edmonds_karp_max_flow` (lines 2158-2270) and step 1 of `min_cut`
(lines 2325-2389) contain the verbatim same augmenting loop, so both are
modelled through one core (`ek_core`).  `int` capacities and residuals are
exact `Int`s (the only overflow the code checks, `max_flow`, is modelled by
the same guard; allocation is assumed to succeed).  The outer loop runs on
`INT_MAX + 2` fuel: every successful iteration increases `max_flow` by the
positive `path_flow` while the guard keeps `max_flow ≤ INT_MAX`, so the
fuel is never exhausted and the model exits exactly where the C loop
does. -/

/-- Pointwise update of an `Int` matrix. -/
def updI2 (m : Nat → Nat → Int) (i j : Nat) (x : Int) : Nat → Nat → Int :=
  fun a b => if a = i ∧ b = j then x else m a b

@[simp] theorem updI2_same (m : Nat → Nat → Int) (i j : Nat) (x : Int) :
    updI2 m i j x i j = x := by simp [updI2]

theorem updI2_other (m : Nat → Nat → Int) (i j a b : Nat) (x : Int)
    (h : ¬(a = i ∧ b = j)) : updI2 m i j x a b = m a b := by
  simp [updI2, h]

/-- Neighbour scan of the augmenting-path BFS: marks and enqueues fresh
vertices with positive residual, stopping as soon as the sink is
reached (`found = true`). -/
def ek_scan (res : Nat → Nat → Int) (sink u : Nat) :
    List Nat → (Nat → Bool) → (Nat → Int) → List Nat →
    (Nat → Bool) × (Nat → Int) × List Nat × Bool
  | [], vis, par, acc => (vis, par, acc, false)
  | v :: vs, vis, par, acc =>
    if vis v = false ∧ 0 < res u v then
      if v = sink then (vis, upd par v (u : Int), acc, true)
      else ek_scan res sink u vs (upd vis v true) (upd par v (u : Int))
        (acc ++ [v])
    else ek_scan res sink u vs vis par acc

/-- The `while (front < back)` BFS of the augmenting search; returns the
parent array and whether the sink was reached. -/
def ek_bfs (g : Graph) (res : Nat → Nat → Int) (sink : Nat) :
    Nat → List Nat → (Nat → Bool) → (Nat → Int) → (Nat → Int) × Bool
  | 0, _, _, par => (par, false)
  | fuel + 1, queue, vis, par =>
    match queue with
    | [] => (par, false)
    | u :: rest =>
      let s := ek_scan res sink u (g.adj u) vis par []
      if s.2.2.2 then (s.2.1, true)
      else ek_bfs g res sink fuel (rest ++ s.2.2.1) s.1 s.2.1

/-- `for (v = sink; v != source; v = (size_t)parent[v])` computing the
bottleneck capacity, starting from `INT_MAX`. -/
def ek_path_min (par : Nat → Int) (res : Nat → Nat → Int) (source : Nat) :
    Nat → Nat → Int → Int
  | 0, _, acc => acc
  | fuel + 1, v, acc =>
    if v = source then acc
    else
      ek_path_min par res source fuel (par v).toNat
        (if res (par v).toNat v < acc then res (par v).toNat v else acc)

/-- The residual update walk along the parent path. -/
def ek_augment (par : Nat → Int) (source : Nat) (pf : Int) :
    Nat → Nat → (Nat → Nat → Int) → Nat → Nat → Int
  | 0, _, res => res
  | fuel + 1, v, res =>
    if v = source then res
    else
      ek_augment par source pf fuel (par v).toNat
        (updI2 (updI2 res (par v).toNat v (res (par v).toNat v - pf))
          v (par v).toNat
          ((updI2 res (par v).toNat v (res (par v).toNat v - pf))
            v (par v).toNat + pf))

/-- The shared `while (1)` augmenting loop.  Returns
`(max_flow, residual, aborted)`; `aborted` is the
`max_flow > INT_MAX - path_flow` early `return -1`. -/
def ek_loop (g : Graph) (source sink : Nat) :
    Nat → (Nat → Nat → Int) → Int → Int × (Nat → Nat → Int) × Bool
  | 0, res, mf => (mf, res, false)
  | fuel + 1, res, mf =>
    let b := ek_bfs g res sink g.n [source]
      (upd (fun _ => false) source true) (fun _ => -1)
    if b.2 = false then (mf, res, false)
    else
      let pf := ek_path_min b.1 res source g.n sink (INT_MAX : Int)
      let res2 := ek_augment b.1 source pf g.n sink res
      if (INT_MAX : Int) - pf < mf then (-1, res2, true)
      else ek_loop g source sink fuel res2 (mf + pf)

/-- The common part of `edmonds_karp_max_flow` and `min_cut`: the
augmenting loop started on the capacity matrix with zero flow. -/
def ek_core (g : Graph) (cap : Nat → Nat → Int) (source sink : Nat) :
    Int × (Nat → Nat → Int) × Bool :=
  ek_loop g source sink (INT_MAX + 2) (fun u v => cap u v) 0

/-- `edmonds_karp_max_flow(g, capacity, source, sink)` from `part_001`
(lines 2158-2270), allocation assumed to succeed. -/
def edmonds_karp_max_flow (g : Graph) (cap : Nat → Nat → Int)
    (source sink : Nat) : Int :=
  if g.n ≤ source ∨ g.n ≤ sink ∨ source = sink then -1
  else
    let c := ek_core g cap source sink
    if c.2.2 then -1 else c.1

/-- Neighbour scan of the residual-reachability BFS of `min_cut`
(step 2). -/
def mc_bfs_scan (res : Nat → Nat → Int) (u : Nat) :
    List Nat → (Nat → Bool) → List Nat → (Nat → Bool) × List Nat
  | [], reach, acc => (reach, acc)
  | v :: vs, reach, acc =>
    if reach v = false ∧ 0 < res u v then
      mc_bfs_scan res u vs (upd reach v true) (acc ++ [v])
    else mc_bfs_scan res u vs reach acc

/-- The residual-reachability BFS of `min_cut` (step 2). -/
def mc_bfs (g : Graph) (res : Nat → Nat → Int) :
    Nat → List Nat → (Nat → Bool) → Nat → Bool
  | 0, _, reach => reach
  | fuel + 1, queue, reach =>
    match queue with
    | [] => reach
    | u :: rest =>
      let s := mc_bfs_scan res u (g.adj u) reach []
      mc_bfs g res fuel (rest ++ s.2) s.1

/-- The cut-collection double loop of `min_cut` (step 3): for each
reachable `u`, one `(u, v)` entry per adjacency occurrence with
unreachable `v` and positive original capacity. -/
def mc_collect (g : Graph) (cap : Nat → Nat → Int) (reach : Nat → Bool) :
    List (Nat × Nat) :=
  (List.range g.n).foldl
    (fun acc u =>
      if reach u = true then
        acc ++ ((g.adj u).filter
          (fun v => !reach v && decide (0 < cap u v))).map (fun v => (u, v))
      else acc) []

/-- `min_cut(g, capacity, source, sink, out_cut, out_ncut)` from
`part_001` (lines 2286-2468), allocation assumed to succeed: the returned
value together with the reported cut list (`NULL`/empty and value `-1` on
the error and overflow paths). -/
def min_cut (g : Graph) (cap : Nat → Nat → Int) (source sink : Nat) :
    Int × List (Nat × Nat) :=
  if g.n ≤ source ∨ g.n ≤ sink ∨ source = sink then (-1, [])
  else
    let c := ek_core g cap source sink
    if c.2.2 then (-1, [])
    else
      let reach := mc_bfs g c.2.1 g.n [source]
        (upd (fun _ => false) source true)
      (c.1, mc_collect g cap reach)

/-- One step in the final residual graph: an adjacency edge with positive
residual capacity. -/
def mc_step (g : Graph) (res : Nat → Nat → Int) (a b : Nat) : Prop :=
  b ∈ g.adj a ∧ 0 < res a b

theorem mc_scan_reach (res : Nat → Nat → Int) (u : Nat) :
    ∀ (l : List Nat) (reach : Nat → Bool) (acc : List Nat) (v : Nat),
      (mc_bfs_scan res u l reach acc).1 v = true ↔
        reach v = true ∨ (v ∈ l ∧ 0 < res u v) := by
  intro l
  induction l with
  | nil => intro reach acc v; simp [mc_bfs_scan]
  | cons a t ih =>
    intro reach acc v
    unfold mc_bfs_scan
    split_ifs with h1
    · rw [ih]
      by_cases hv : v = a
      · subst hv
        rw [upd_same]
        constructor
        · intro _; exact Or.inr ⟨List.mem_cons_self _ _, h1.2⟩
        · intro _; exact Or.inl rfl
      · rw [upd_other _ _ _ _ hv]
        constructor
        · rintro (h | ⟨h2, h3⟩)
          · exact Or.inl h
          · exact Or.inr ⟨List.mem_cons_of_mem _ h2, h3⟩
        · rintro (h | ⟨h2, h3⟩)
          · exact Or.inl h
          · rcases List.mem_cons.mp h2 with h4 | h4
            · exact absurd h4 hv
            · exact Or.inr ⟨h4, h3⟩
    · rw [ih]
      constructor
      · rintro (h | ⟨h2, h3⟩)
        · exact Or.inl h
        · exact Or.inr ⟨List.mem_cons_of_mem _ h2, h3⟩
      · rintro (h | ⟨h2, h3⟩)
        · exact Or.inl h
        · rcases List.mem_cons.mp h2 with h4 | h4
          · subst h4
            by_cases hr : reach v = true
            · exact Or.inl hr
            · exact absurd ⟨Bool.eq_false_iff.mpr
                (fun h => hr (by rw [h])), h3⟩ h1
          · exact Or.inr ⟨h4, h3⟩

theorem mc_scan_mem (res : Nat → Nat → Int) (u : Nat) :
    ∀ (l : List Nat) (reach : Nat → Bool) (acc : List Nat) (v : Nat),
      v ∈ (mc_bfs_scan res u l reach acc).2 ↔
        v ∈ acc ∨ (reach v = false ∧ v ∈ l ∧ 0 < res u v) := by
  intro l
  induction l with
  | nil => intro reach acc v; simp [mc_bfs_scan]
  | cons a t ih =>
    intro reach acc v
    unfold mc_bfs_scan
    split_ifs with h1
    · rw [ih]
      by_cases hv : v = a
      · subst hv
        rw [upd_same]
        constructor
        · rintro (h | ⟨h2, _⟩)
          · rcases List.mem_append.mp h with h3 | h3
            · exact Or.inl h3
            · exact Or.inr ⟨h1.1, List.mem_cons_self _ _, h1.2⟩
          · exact absurd h2 (by simp)
        · rintro (h | _)
          · exact Or.inl (List.mem_append.mpr (Or.inl h))
          · exact Or.inl (List.mem_append.mpr (Or.inr (by simp)))
      · rw [upd_other _ _ _ _ hv]
        constructor
        · rintro (h | ⟨h2, h3, h4⟩)
          · rcases List.mem_append.mp h with h3 | h3
            · exact Or.inl h3
            · exact absurd (List.mem_singleton.mp h3) hv
          · exact Or.inr ⟨h2, List.mem_cons_of_mem _ h3, h4⟩
        · rintro (h | ⟨h2, h3, h4⟩)
          · exact Or.inl (List.mem_append.mpr (Or.inl h))
          · rcases List.mem_cons.mp h3 with h5 | h5
            · exact absurd h5 hv
            · exact Or.inr ⟨h2, h5, h4⟩
    · rw [ih]
      constructor
      · rintro (h | ⟨h2, h3, h4⟩)
        · exact Or.inl h
        · exact Or.inr ⟨h2, List.mem_cons_of_mem _ h3, h4⟩
      · rintro (h | ⟨h2, h3, h4⟩)
        · exact Or.inl h
        · rcases List.mem_cons.mp h3 with h5 | h5
          · subst h5
            exact absurd ⟨h2, h4⟩ h1
          · exact Or.inr ⟨h2, h5, h4⟩

theorem mc_scan_nodup (res : Nat → Nat → Int) (u : Nat) :
    ∀ (l : List Nat) (reach : Nat → Bool) (acc : List Nat), acc.Nodup →
      (∀ v ∈ acc, reach v = true) → (mc_bfs_scan res u l reach acc).2.Nodup := by
  intro l
  induction l with
  | nil => intro reach acc h _; exact h
  | cons a t ih =>
    intro reach acc hnd hacc
    unfold mc_bfs_scan
    split_ifs with h1
    · apply ih
      · rw [List.nodup_append]
        refine ⟨hnd, List.nodup_singleton a, ?_⟩
        intro x hx hxa
        rw [List.mem_singleton] at hxa
        subst hxa
        rw [hacc x hx] at h1
        exact absurd h1.1 (by simp)
      · intro v hv
        rcases List.mem_append.mp hv with h2 | h2
        · by_cases hva : v = a
          · subst hva; exact upd_same _ _ _
          · rw [upd_other _ _ _ _ hva]; exact hacc v h2
        · rw [List.mem_singleton] at h2
          subst h2
          exact upd_same _ _ _
    · exact ih reach acc hnd hacc

theorem mc_bfs_spec (g : Graph) (hwf : g.WF) (res : Nat → Nat → Int)
    (source : Nat) :
    ∀ (fuel : Nat) (queue : List Nat) (reach : Nat → Bool),
      queue.Nodup →
      (∀ v ∈ queue, reach v = true) →
      (∀ v, reach v = true → v < g.n) →
      (∀ v, reach v = true →
        Relation.ReflTransGen (mc_step g res) source v) →
      (∀ u, reach u = true → u ∉ queue →
        ∀ v ∈ g.adj u, 0 < res u v → reach v = true) →
      queue.length +
        ((Finset.range g.n).filter (fun v => reach v = false)).card ≤
        fuel →
      (∀ v, reach v = true → mc_bfs g res fuel queue reach v = true) ∧
      (∀ v, mc_bfs g res fuel queue reach v = true →
        Relation.ReflTransGen (mc_step g res) source v) ∧
      (∀ u, mc_bfs g res fuel queue reach u = true →
        ∀ v ∈ g.adj u, 0 < res u v →
          mc_bfs g res fuel queue reach v = true) ∧
      (∀ v, mc_bfs g res fuel queue reach v = true → v < g.n) := by
  intro fuel
  induction fuel with
  | zero =>
    intro queue reach _ _ hlt0 hsound hclose hcard
    have hq : queue = [] := by
      cases queue with
      | nil => rfl
      | cons a t => simp at hcard
    subst hq
    exact ⟨fun v hv => hv, hsound,
      fun u hu v hv hpos => hclose u hu (List.not_mem_nil u) v hv hpos, hlt0⟩
  | succ fuel ih =>
    intro queue reach hnd hq hlt hsound hclose hcard
    rcases queue with _ | ⟨u, rest⟩
    · exact ⟨fun v hv => hv, hsound,
        fun u hu v hv hpos => hclose u hu (List.not_mem_nil u) v hv hpos,
        hlt⟩
    · have hstep : mc_bfs g res (fuel + 1) (u :: rest) reach =
          mc_bfs g res fuel (rest ++ (mc_bfs_scan res u (g.adj u) reach []).2)
            (mc_bfs_scan res u (g.adj u) reach []).1 := rfl
      rw [hstep]
      have hu_reach : reach u = true := hq u (List.mem_cons_self _ _)
      have hu_lt : u < g.n := hlt u hu_reach
      have hs_reach : ∀ v, (mc_bfs_scan res u (g.adj u) reach []).1 v = true
          ↔ reach v = true ∨ (v ∈ g.adj u ∧ 0 < res u v) :=
        fun v => mc_scan_reach res u (g.adj u) reach [] v
      have hs_mem : ∀ v, v ∈ (mc_bfs_scan res u (g.adj u) reach []).2 ↔
          reach v = false ∧ v ∈ g.adj u ∧ 0 < res u v := by
        intro v
        rw [mc_scan_mem]
        simp
      have hs_nodup : (mc_bfs_scan res u (g.adj u) reach []).2.Nodup :=
        mc_scan_nodup res u (g.adj u) reach [] List.nodup_nil (by simp)
      have hrest_nd : rest.Nodup := (List.nodup_cons.mp hnd).2
      have hu_rest : u ∉ rest := (List.nodup_cons.mp hnd).1
      -- pointwise description of the updated marking
      have hpt : ∀ x, ((mc_bfs_scan res u (g.adj u) reach []).1 x = false) ↔
          (reach x = false ∧ x ∉ (mc_bfs_scan res u (g.adj u) reach []).2) := by
        intro x
        constructor
        · intro h
          have hnt : ¬ ((mc_bfs_scan res u (g.adj u) reach []).1 x = true) :=
            by rw [h]; simp
          rw [hs_reach] at hnt
          push_neg at hnt
          obtain ⟨hr, hnp⟩ := hnt
          have hrf : reach x = false := by
            cases hx : reach x with
            | false => rfl
            | true => exact absurd hx hr
          refine ⟨hrf, fun hmem => ?_⟩
          obtain ⟨_, h2, h3⟩ := (hs_mem x).mp hmem
          exact absurd h3 (not_lt.mpr (hnp h2))
        · rintro ⟨hrf, hnmem⟩
          cases hx : (mc_bfs_scan res u (g.adj u) reach []).1 x with
          | false => rfl
          | true =>
            rcases (hs_reach x).mp hx with h | ⟨h2, h3⟩
            · rw [h] at hrf; exact absurd hrf (by simp)
            · exact absurd ((hs_mem x).mpr ⟨hrf, h2, h3⟩) hnmem
      have happly := ih (rest ++ (mc_bfs_scan res u (g.adj u) reach []).2)
        (mc_bfs_scan res u (g.adj u) reach []).1
        ?_ ?_ ?_ ?_ ?_ ?_
      · obtain ⟨hmono2, hsound2, hclose2, hlt2⟩ := happly
        refine ⟨?_, hsound2, hclose2, hlt2⟩
        intro v hv
        exact hmono2 v ((hs_reach v).mpr (Or.inl hv))
      · rw [List.nodup_append]
        refine ⟨hrest_nd, hs_nodup, ?_⟩
        intro x hx hx2
        have h1 := (hs_mem x).mp hx2
        rw [hq x (List.mem_cons_of_mem _ hx)] at h1
        exact absurd h1.1 (by simp)
      · intro v hv
        rcases List.mem_append.mp hv with h | h
        · exact (hs_reach v).mpr (Or.inl (hq v (List.mem_cons_of_mem _ h)))
        · obtain ⟨_, h2, h3⟩ := (hs_mem v).mp h
          exact (hs_reach v).mpr (Or.inr ⟨h2, h3⟩)
      · intro v hv
        rcases (hs_reach v).mp hv with h | ⟨h2, _⟩
        · exact hlt v h
        · exact hwf u hu_lt v h2
      · intro v hv
        rcases (hs_reach v).mp hv with h | ⟨h2, h3⟩
        · exact hsound v h
        · exact Relation.ReflTransGen.tail (hsound u hu_reach) ⟨h2, h3⟩
      · intro w hw hwq v hv hpos
        by_cases hwu : w = u
        · subst hwu
          exact (hs_reach v).mpr (Or.inr ⟨hv, hpos⟩)
        · rcases (hs_reach w).mp hw with h | ⟨h2, h3⟩
          · have hwold : w ∉ u :: rest := by
              intro hmem
              rcases List.mem_cons.mp hmem with h4 | h4
              · exact hwu h4
              · exact hwq (List.mem_append.mpr (Or.inl h4))
            exact (hs_reach v).mpr
              (Or.inl (hclose w h hwold v hv hpos))
          · by_cases hwt : reach w = true
            · have hwold : w ∉ u :: rest := by
                intro hmem
                rcases List.mem_cons.mp hmem with h4 | h4
                · exact hwu h4
                · exact hwq (List.mem_append.mpr (Or.inl h4))
              exact (hs_reach v).mpr
                (Or.inl (hclose w hwt hwold v hv hpos))
            · exfalso
              apply hwq
              apply List.mem_append.mpr
              right
              rw [hs_mem]
              have hwff : reach w = false := by
                cases hx : reach w with
                | false => rfl
                | true => exact absurd hx hwt
              exact ⟨hwff, h2, h3⟩
      · have hsubF : (mc_bfs_scan res u (g.adj u) reach []).2.toFinset ⊆
            (Finset.range g.n).filter (fun v => reach v = false) := by
          intro x hx
          obtain ⟨h1, h2, _⟩ := (hs_mem x).mp (List.mem_toFinset.mp hx)
          exact Finset.mem_filter.mpr
            ⟨Finset.mem_range.mpr (hwf u hu_lt x h2), h1⟩
        have hsetF : (Finset.range g.n).filter
            (fun v => (mc_bfs_scan res u (g.adj u) reach []).1 v = false) =
            ((Finset.range g.n).filter (fun v => reach v = false)) \
              (mc_bfs_scan res u (g.adj u) reach []).2.toFinset := by
          ext x
          simp only [Finset.mem_filter, Finset.mem_sdiff, List.mem_toFinset]
          constructor
          · rintro ⟨h1, h2⟩
            obtain ⟨h3, h4⟩ := (hpt x).mp h2
            exact ⟨⟨h1, h3⟩, h4⟩
          · rintro ⟨⟨h1, h3⟩, h4⟩
            exact ⟨h1, (hpt x).mpr ⟨h3, h4⟩⟩
        have hcard2 : ((Finset.range g.n).filter
            (fun v => (mc_bfs_scan res u (g.adj u) reach []).1 v = false)).card
            = ((Finset.range g.n).filter (fun v => reach v = false)).card -
              (mc_bfs_scan res u (g.adj u) reach []).2.length := by
          rw [hsetF, Finset.card_sdiff hsubF,
            List.toFinset_card_of_nodup hs_nodup]
        have hlen_le : (mc_bfs_scan res u (g.adj u) reach []).2.length ≤
            ((Finset.range g.n).filter (fun v => reach v = false)).card := by
          calc (mc_bfs_scan res u (g.adj u) reach []).2.length
              = (mc_bfs_scan res u (g.adj u) reach []).2.toFinset.card :=
                (List.toFinset_card_of_nodup hs_nodup).symm
            _ ≤ _ := Finset.card_le_card hsubF
        simp only [List.length_append, List.length_cons] at hcard ⊢
        omega

/-- The `min_cut` reachability BFS marks exactly the vertices reachable
from the source along positive-residual adjacency edges. -/
theorem min_cut_reach_iff (g : Graph) (hwf : g.WF)
    (res : Nat → Nat → Int) (s : Nat) (hs : s < g.n) :
    ∀ v, (mc_bfs g res g.n [s] (upd (fun _ => false) s true) v = true ↔
      Relation.ReflTransGen (mc_step g res) s v) ∧
      (mc_bfs g res g.n [s] (upd (fun _ => false) s true) v = true →
        v < g.n) := by
  have hfilter : (Finset.range g.n).filter
      (fun v => upd (fun _ => false) s true v = false) =
      (Finset.range g.n).erase s := by
    ext x
    simp only [Finset.mem_filter, Finset.mem_erase, upd]
    constructor
    · rintro ⟨h1, h2⟩
      refine ⟨?_, h1⟩
      intro hxs
      rw [if_pos hxs] at h2
      exact absurd h2 (by simp)
    · rintro ⟨h1, h2⟩
      refine ⟨h2, ?_⟩
      rw [if_neg h1]
  have hspec := mc_bfs_spec g hwf res s g.n [s]
    (upd (fun _ => false) s true)
    (List.nodup_singleton s)
    (by
      intro v hv
      rw [List.mem_singleton] at hv
      subst hv
      exact upd_same _ _ _)
    (by
      intro v hv
      by_cases hvs : v = s
      · subst hvs; exact hs
      · rw [upd_other _ _ _ _ hvs] at hv
        exact absurd hv (by simp))
    (by
      intro v hv
      by_cases hvs : v = s
      · subst hvs; exact Relation.ReflTransGen.refl
      · rw [upd_other _ _ _ _ hvs] at hv
        exact absurd hv (by simp))
    (by
      intro u hu huq
      by_cases hus : u = s
      · subst hus
        exact absurd (List.mem_singleton.mpr rfl) huq
      · rw [upd_other _ _ _ _ hus] at hu
        exact absurd hu (by simp))
    (by
      rw [hfilter, Finset.card_erase_of_mem (Finset.mem_range.mpr hs),
        Finset.card_range]
      simp only [List.length_singleton]
      omega)
  obtain ⟨hmono, hsound, hclose, hlt⟩ := hspec
  intro v
  refine ⟨⟨hsound v, ?_⟩, hlt v⟩
  intro h
  induction h with
  | refl => exact hmono s (upd_same _ _ _)
  | tail _ hbc ih => exact hclose _ ih _ hbc.1 hbc.2

/-- Membership in the collected cut list of `min_cut`. -/
theorem mc_collect_mem (g : Graph) (cap : Nat → Nat → Int)
    (reach : Nat → Bool) (a b : Nat) :
    (a, b) ∈ mc_collect g cap reach ↔
      a < g.n ∧ reach a = true ∧ b ∈ g.adj a ∧
        reach b = false ∧ 0 < cap a b := by
  have haux : ∀ (ls : List Nat) (acc : List (Nat × Nat)),
      ((a, b) ∈ ls.foldl
        (fun acc u =>
          if reach u = true then
            acc ++ ((g.adj u).filter
              (fun v => !reach v && decide (0 < cap u v))).map
              (fun v => (u, v))
          else acc) acc ↔
      (a, b) ∈ acc ∨ (a ∈ ls ∧ reach a = true ∧ b ∈ g.adj a ∧
        reach b = false ∧ 0 < cap a b)) := by
    intro ls
    induction ls with
    | nil => intro acc; simp
    | cons u us ih =>
      intro acc
      rw [List.foldl_cons, ih]
      by_cases hru : reach u = true
      · rw [if_pos hru]
        simp only [List.mem_append, List.mem_map, List.mem_filter,
          Bool.and_eq_true, Bool.not_eq_true', decide_eq_true_eq,
          Prod.mk.injEq, List.mem_cons]
        constructor
        · rintro ((hacc | ⟨v, ⟨hv1, hv2, hv3⟩, rfl, rfl⟩) | ⟨h1, h2⟩)
          · exact Or.inl hacc
          · exact Or.inr ⟨Or.inl rfl, hru, hv1, hv2, hv3⟩
          · exact Or.inr ⟨Or.inr h1, h2⟩
        · rintro (hacc | ⟨(rfl | h1), h2, h3, h4, h5⟩)
          · exact Or.inl (Or.inl hacc)
          · exact Or.inl (Or.inr ⟨b, ⟨h3, h4, h5⟩, rfl, rfl⟩)
          · exact Or.inr ⟨h1, h2, h3, h4, h5⟩
      · rw [if_neg hru]
        constructor
        · rintro (hacc | ⟨h1, h2⟩)
          · exact Or.inl hacc
          · exact Or.inr ⟨List.mem_cons_of_mem _ h1, h2⟩
        · rintro (hacc | ⟨h1, h2, h3⟩)
          · exact Or.inl hacc
          · rcases List.mem_cons.mp h1 with h4 | h4
            · subst h4; exact absurd h2 hru
            · exact Or.inr ⟨h4, h2, h3⟩
  unfold mc_collect
  rw [haux]
  simp only [List.not_mem_nil, false_or, List.mem_range]

/-- Two unit-capacity-INT_MAX parallel paths `0 → 1 → 3` and `0 → 2 → 3`:
the second augmentation trips the `max_flow > INT_MAX - path_flow` abort of
both flow routines. -/
def mcX : Graph :=
  ⟨4, true, fun u => if u = 0 then [1, 2] else if u = 1 then [3] else
    if u = 2 then [3] else []⟩

/-- Capacity matrix for `mcX`: `INT_MAX` on its four edges, `0`
elsewhere. -/
def mcXcap : Nat → Nat → Int := fun u v =>
  if (u = 0 ∧ v = 1) ∨ (u = 0 ∧ v = 2) ∨ (u = 1 ∧ v = 3) ∨ (u = 2 ∧ v = 3)
  then (INT_MAX : Int) else 0

/-- C2 counterexample: on `mcX` (which satisfies every hypothesis of the
claim — valid adjacency, non-negative capacities, in-range distinct
endpoints) the accumulated flow `2 * INT_MAX` overflows, `min_cut` takes
the early `return -1` and reports an EMPTY cut list, yet the adjacency
edge `(0, 1)` has its source residual-reachable, its target not, and
positive capacity — so the reported set is not the claimed crossing
set. -/
theorem C2_counterexample :
    mcX.WF ∧ (0 : Nat) < mcX.n ∧ (3 : Nat) < mcX.n ∧ (0 : Nat) ≠ 3 ∧
    (∀ u, u < mcX.n → ∀ v, v < mcX.n → 0 ≤ mcXcap u v) ∧
    (min_cut mcX mcXcap 0 3).2 = [] ∧
    Relation.ReflTransGen (mc_step mcX (ek_core mcX mcXcap 0 3).2.1) 0 0 ∧
    ¬ Relation.ReflTransGen (mc_step mcX (ek_core mcX mcXcap 0 3).2.1) 0 1 ∧
    0 < mcXcap 0 1 ∧ 1 ∈ mcX.adj 0 := by
  have hwf : mcX.WF := by
    intro u hu w hw
    simp only [mcX, Graph.n] at hu
    interval_cases u <;> simp_all [mcX] <;> omega
  refine ⟨hwf, by decide, by decide, by decide, by decide, by decide,
    Relation.ReflTransGen.refl, ?_, by decide, by decide⟩
  intro h
  have hmarked := ((min_cut_reach_iff mcX hwf
    (ek_core mcX mcXcap 0 3).2.1 0 (by decide)) 1).1.mpr h
  have hfalse : mc_bfs mcX (ek_core mcX mcXcap 0 3).2.1 mcX.n [0]
      (upd (fun _ => false) 0 true) 1 = false := by decide
  rw [hfalse] at hmarked
  exact Bool.noConfusion hmarked

/-- C2 (amended): for in-range distinct endpoints on a graph with valid
adjacency entries and a non-negative capacity matrix, `min_cut` always
returns the same value as `edmonds_karp_max_flow`; and whenever the
overflow abort does not fire, the reported cut list contains exactly the
adjacency edges `(u, v)` with `u` residual-reachable from the source, `v`
not, and positive original capacity. -/
theorem C2_theorem (g : Graph) (cap : Nat → Nat → Int) (source sink : Nat)
    (hwf : g.WF) (hs : source < g.n) (ht : sink < g.n)
    (hst : source ≠ sink)
    (_hnn : ∀ u, u < g.n → ∀ v, v < g.n → 0 ≤ cap u v) :
    (min_cut g cap source sink).1 =
      edmonds_karp_max_flow g cap source sink ∧
    ((ek_core g cap source sink).2.2 = false →
      ∀ u v, ((u, v) ∈ (min_cut g cap source sink).2 ↔
        (Relation.ReflTransGen
            (mc_step g (ek_core g cap source sink).2.1) source u ∧
          ¬ Relation.ReflTransGen
            (mc_step g (ek_core g cap source sink).2.1) source v ∧
          0 < cap u v ∧ v ∈ g.adj u))) := by
  have hcond : ¬(g.n ≤ source ∨ g.n ≤ sink ∨ source = sink) := by
    push_neg
    exact ⟨hs, ht, hst⟩
  constructor
  · unfold min_cut edmonds_karp_max_flow
    rw [if_neg hcond, if_neg hcond]
    dsimp only
    split_ifs with habort
    · rfl
    · rfl
  · intro hnoab u v
    have hmc : min_cut g cap source sink =
        ((ek_core g cap source sink).1,
          mc_collect g cap (mc_bfs g (ek_core g cap source sink).2.1 g.n
            [source] (upd (fun _ => false) source true))) := by
      unfold min_cut
      rw [if_neg hcond]
      dsimp only
      rw [if_neg (by rw [hnoab]; exact fun h => Bool.noConfusion h)]
    rw [hmc]
    dsimp only
    rw [mc_collect_mem]
    have hriff := min_cut_reach_iff g hwf
      (ek_core g cap source sink).2.1 source hs
    constructor
    · rintro ⟨hu1, hu2, hv1, hv2, hc⟩
      refine ⟨((hriff u).1).mp hu2, ?_, hc, hv1⟩
      intro hS
      have h3 := ((hriff v).1).mpr hS
      rw [hv2] at h3
      exact Bool.noConfusion h3
    · rintro ⟨hSu, hSv, hc, hadj⟩
      have hu2 := ((hriff u).1).mpr hSu
      have hu1 : u < g.n := (hriff u).2 hu2
      have hv2 : mc_bfs g (ek_core g cap source sink).2.1 g.n
          [source] (upd (fun _ => false) source true) v = false := by
        cases hx : mc_bfs g (ek_core g cap source sink).2.1 g.n
            [source] (upd (fun _ => false) source true) v with
        | false => rfl
        | true => exact absurd (((hriff v).1).mp hx) hSv
      exact ⟨hu1, hu2, hadj, hv2, hc⟩

/-- One-edge graph for the C2 witness. -/
def ekW : Graph := ⟨2, true, fun u => if u = 0 then [1] else []⟩

/-- Capacity matrix for `ekW`: capacity 1 on the edge `0 → 1`. -/
def ekWcap : Nat → Nat → Int := fun u v => if u = 0 ∧ v = 1 then 1 else 0

/-- C2 witness: the one-edge unit-capacity graph satisfies every
hypothesis of `C2_theorem` and its overflow abort does not fire, so the
value equality and the cut characterisation hold there. -/
theorem C2_witness :
    ekW.WF ∧ (0 : Nat) < ekW.n ∧ (1 : Nat) < ekW.n ∧ (0 : Nat) ≠ 1 ∧
    (∀ u, u < ekW.n → ∀ v, v < ekW.n → 0 ≤ ekWcap u v) ∧
    ((min_cut ekW ekWcap 0 1).1 = edmonds_karp_max_flow ekW ekWcap 0 1 ∧
    ((ek_core ekW ekWcap 0 1).2.2 = false →
      ∀ u v, ((u, v) ∈ (min_cut ekW ekWcap 0 1).2 ↔
        (Relation.ReflTransGen
            (mc_step ekW (ek_core ekW ekWcap 0 1).2.1) 0 u ∧
          ¬ Relation.ReflTransGen
            (mc_step ekW (ek_core ekW ekWcap 0 1).2.1) 0 v ∧
          0 < ekWcap u v ∧ v ∈ ekW.adj u)))) := by
  have hwf : ekW.WF := by
    intro u hu w hw
    simp only [ekW, Graph.n] at hu
    interval_cases u <;> simp_all [ekW]
  exact ⟨hwf, by decide, by decide, by decide, by decide,
    C2_theorem ekW ekWcap 0 1 hwf (by decide) (by decide) (by decide)
      (by decide)⟩

/-! ### Kruskal MST (claim C3)

Union-find with path compression and union by rank, from `ds_find` /
`ds_union`.  `ds_find`'s C recursion terminates because ranks strictly
increase along parent chains; the model gives it `n` fuel, which the rank
argument (`ufRoot_exists`) shows is never exhausted on invariant-satisfying
states.  All extracted edges carry weight 1, so `edge_cmp` compares equal
on every pair and `qsort` applies some permutation of the extracted list;
the model keeps the extraction order (the claim's observables — success,
accepted count, total weight — are invariant under reordering, as the
proof never uses the order). -/

/-- `ds_find` (lines 1708-1713): full path compression; returns the new
parent array and the root. -/
def ds_find : Nat → (Nat → Nat) → Nat → (Nat → Nat) × Nat
  | 0, par, x => (par, par x)
  | fuel + 1, par, x =>
    if par x = x then (par, x)
    else
      let r := ds_find fuel par (par x)
      (upd r.1 x r.2, r.2)

/-- `ds_union` (lines 1714-1729): find both roots (with compression), then
link by rank. -/
def ds_union (fuel : Nat) (par : Nat → Nat) (rank : Nat → Nat)
    (x y : Nat) : (Nat → Nat) × (Nat → Nat) :=
  let f1 := ds_find fuel par x
  let f2 := ds_find fuel f1.1 y
  if f1.2 = f2.2 then (f2.1, rank)
  else if rank f1.2 < rank f2.2 then (upd f2.1 f1.2 f2.2, rank)
  else if rank f2.2 < rank f1.2 then (upd f2.1 f2.2 f1.2, rank)
  else (upd f2.1 f2.2 f1.2, upd rank f1.2 (rank f1.2 + 1))

/-- Edge extraction of `kruskal_mst` (step 1): one `(u, v)` entry per
adjacency occurrence, skipping `u > v` pairs on undirected graphs. -/
def kruskal_edges (g : Graph) : List (Nat × Nat) :=
  (List.range g.n).foldl
    (fun acc u =>
      acc ++ ((g.adj u).filter
        (fun v => !(!g.directed && decide (v < u)))).map (fun v => (u, v)))
    []

/-- The accepting loop of `kruskal_mst` (step 4). -/
def kruskal_loop (n : Nat) :
    List (Nat × Nat) → (Nat → Nat) → (Nat → Nat) → List (Nat × Nat) →
    (Nat → Nat) × (Nat → Nat) × List (Nat × Nat)
  | [], par, rank, mst => (par, rank, mst)
  | e :: es, par, rank, mst =>
    if mst.length < n - 1 then
      let f1 := ds_find n par e.1
      let f2 := ds_find n f1.1 e.2
      if f1.2 ≠ f2.2 then
        let u := ds_union n f2.1 rank e.1 e.2
        kruskal_loop n es u.1 u.2 (mst ++ [e])
      else kruskal_loop n es f2.1 rank mst
    else (par, rank, mst)

/-- `kruskal_mst(g, out_edges, out_nedges)` from `part_001`
(lines 1749-1828), allocation assumed to succeed: returns the total
weight (or `-1`), the exposed edge array (empty on the error paths, where
`*out_edges` stays NULL) and `*out_nedges`. -/
def kruskal_mst (g : Graph) : Int × List (Nat × Nat) × Nat :=
  if g.n = 0 then (-1, [], 0)
  else
    let r := kruskal_loop g.n (kruskal_edges g) (fun x => x) (fun _ => 0) []
    if r.2.2.length ≠ g.n - 1 then (-1, [], 0)
    else ((r.2.2.length : Int), r.2.2, r.2.2.length)

/-- `r` is the root at the end of `x`'s parent chain. -/
def rootOfRel (par : Nat → Nat) (x r : Nat) : Prop :=
  ∃ k, par^[k] x = r ∧ par r = r

/-- `a` and `b` lie in the same union-find class. -/
def sameRoot (par : Nat → Nat) (a b : Nat) : Prop :=
  ∃ r, rootOfRel par a r ∧ rootOfRel par b r

/-- The union-find invariant: parents stay in range and ranks strictly
increase along non-trivial parent links. -/
def UFInv (n : Nat) (par : Nat → Nat) (rank : Nat → Nat) : Prop :=
  (∀ x, x < n → par x < n) ∧
  (∀ x, x < n → par x ≠ x → rank x < rank (par x))

/-- Vertices joined by the accepted edge list, as an undirected
reachability relation. -/
def Joined (mst : List (Nat × Nat)) (a b : Nat) : Prop :=
  Relation.ReflTransGen (fun p q => (p, q) ∈ mst ∨ (q, p) ∈ mst) a b

/-- Undirected adjacency step: an edge stored on either side, restricted
to the `n` adjacency lists the graph owns. -/
def ukstep (g : Graph) (a b : Nat) : Prop :=
  (a < g.n ∧ b ∈ g.adj a) ∨ (b < g.n ∧ a ∈ g.adj b)

/-- The graph-theoretic connectivity of a non-empty undirected graph:
every in-range vertex is reachable from vertex 0. -/
def UConnected (g : Graph) : Prop :=
  ∀ v, v < g.n → Relation.ReflTransGen (ukstep g) 0 v

/-- Membership in the extracted edge list. -/
theorem kruskal_edges_mem (g : Graph) (a b : Nat) :
    (a, b) ∈ kruskal_edges g ↔
      a < g.n ∧ b ∈ g.adj a ∧ ¬(g.directed = false ∧ b < a) := by
  have haux : ∀ (ls : List Nat) (acc : List (Nat × Nat)),
      ((a, b) ∈ ls.foldl
        (fun acc u =>
          acc ++ ((g.adj u).filter
            (fun v => !(!g.directed && decide (v < u)))).map
            (fun v => (u, v))) acc ↔
      (a, b) ∈ acc ∨ (a ∈ ls ∧ b ∈ g.adj a ∧
        ¬(g.directed = false ∧ b < a))) := by
    intro ls
    induction ls with
    | nil => intro acc; simp
    | cons u us ih =>
      intro acc
      rw [List.foldl_cons, ih]
      simp only [List.mem_append, List.mem_map, List.mem_filter,
        Bool.not_eq_true', Bool.and_eq_true, Bool.not_eq_true,
        Prod.mk.injEq, List.mem_cons]
      constructor
      · rintro ((hacc | ⟨v, ⟨hv1, hv2⟩, rfl, rfl⟩) | ⟨h1, h2⟩)
        · exact Or.inl hacc
        · refine Or.inr ⟨Or.inl rfl, hv1, ?_⟩
          rintro ⟨hd, hlt⟩
          rw [Bool.and_eq_false_iff] at hv2
          rcases hv2 with h3 | h3
          · rw [hd] at h3
            simp at h3
          · rw [decide_eq_false_iff_not] at h3
            exact h3 hlt
        · exact Or.inr ⟨Or.inr h1, h2⟩
      · rintro (hacc | ⟨(rfl | h1), h2, h3⟩)
        · exact Or.inl (Or.inl hacc)
        · refine Or.inl (Or.inr ⟨b, ⟨h2, ?_⟩, rfl, rfl⟩)
          rw [Bool.and_eq_false_iff]
          cases hd : g.directed with
          | true => left; simp [hd]
          | false =>
            right
            rw [decide_eq_false_iff_not]
            intro hlt
            exact h3 ⟨hd, hlt⟩
        · exact Or.inr ⟨h1, h2, h3⟩
  unfold kruskal_edges
  rw [haux]
  simp only [List.not_mem_nil, false_or, List.mem_range]

theorem iter_fix (par : Nat → Nat) (r : Nat) (h : par r = r) :
    ∀ k, par^[k] r = r := by
  intro k
  induction k with
  | zero => rfl
  | succ k ih => rw [Function.iterate_succ_apply, h, ih]

theorem rootOf_unique (par : Nat → Nat) (y r1 r2 : Nat)
    (h1 : rootOfRel par y r1) (h2 : rootOfRel par y r2) : r1 = r2 := by
  obtain ⟨k1, e1, hr1⟩ := h1
  obtain ⟨k2, e2, hr2⟩ := h2
  rcases Nat.le_total k1 k2 with h | h
  · have : par^[k2] y = r1 := by
      have heq : k2 - k1 + k1 = k2 := by omega
      rw [← heq, Function.iterate_add_apply, e1, iter_fix par r1 hr1]
    rw [this] at e2
    exact e2
  · have : par^[k1] y = r2 := by
      have heq : k1 - k2 + k2 = k1 := by omega
      rw [← heq, Function.iterate_add_apply, e2, iter_fix par r2 hr2]
    rw [this] at e1
    exact e1.symm

theorem rootOf_of_step (par : Nat → Nat) (x r : Nat)
    (h : rootOfRel par (par x) r) : rootOfRel par x r := by
  obtain ⟨k, e, hr⟩ := h
  exact ⟨k + 1, by rw [Function.iterate_succ_apply]; exact e, hr⟩

theorem rootOf_root (par : Nat → Nat) (r : Nat) (h : par r = r) :
    rootOfRel par r r := ⟨0, rfl, h⟩

/-- Rerouting `x` straight to its own root keeps every chain's root. -/
theorem rootOf_compress (p : Nat → Nat) (x rt : Nat)
    (hxr : rootOfRel p x rt) :
    ∀ y r, rootOfRel (upd p x rt) y r ↔ rootOfRel p y r := by
  by_cases hpx : p x = x
  · have hrtx : rt = x :=
      rootOf_unique p x rt x hxr (rootOf_root p x hpx)
    subst hrtx
    have : upd p rt rt = p := by
      funext z
      by_cases hz : z = rt
      · subst hz; rw [upd_same, hpx]
      · exact upd_other _ _ _ _ hz
    rw [this]
    exact fun y r => Iff.rfl
  · have hrtne : rt ≠ x := by
      intro h
      subst h
      exact hpx hxr.choose_spec.2
    have hfwd : ∀ k y r, (upd p x rt)^[k] y = r →
        (upd p x rt) r = r → rootOfRel p y r := by
      intro k
      induction k with
      | zero =>
        intro y r he hroot
        rw [Function.iterate_zero_apply] at he
        subst he
        have hyx : y ≠ x := by
          intro h
          subst h
          rw [upd_same] at hroot
          exact hrtne hroot
        rw [upd_other _ _ _ _ hyx] at hroot
        exact ⟨0, rfl, hroot⟩
      | succ k ihk =>
        intro y r he hroot
        rw [Function.iterate_succ_apply] at he
        by_cases hyx : y = x
        · subst hyx
          rw [upd_same] at he
          have h1 : rootOfRel p rt r := ihk rt r he hroot
          have h2 : r = rt :=
            rootOf_unique p rt r rt h1
              (rootOf_root p rt hxr.choose_spec.2)
          rw [h2]
          exact hxr
        · rw [upd_other _ _ _ _ hyx] at he
          exact rootOf_of_step p y r (ihk (p y) r he hroot)
    have hbwd : ∀ k y r, p^[k] y = r → p r = r →
        rootOfRel (upd p x rt) y r := by
      intro k
      induction k with
      | zero =>
        intro y r he hroot
        rw [Function.iterate_zero_apply] at he
        subst he
        have hyx : y ≠ x := by
          intro h
          subst h
          exact hpx hroot
        exact ⟨0, rfl, by rw [upd_other _ _ _ _ hyx]; exact hroot⟩
      | succ k ihk =>
        intro y r he hroot
        rw [Function.iterate_succ_apply] at he
        by_cases hyx : y = x
        · subst hyx
          have hr : r = rt :=
            rootOf_unique p y r rt
              (rootOf_of_step p y r ⟨k, he, hroot⟩) hxr
          subst hr
          refine ⟨1, ?_, ?_⟩
          · rw [Function.iterate_one, upd_same]
          · rw [upd_other _ _ _ _ (Ne.symm (fun h => hrtne h.symm))]
            exact hxr.choose_spec.2
        · have h1 := ihk (p y) r he hroot
          obtain ⟨j, hj, hjr⟩ := h1
          exact ⟨j + 1, by
            rw [Function.iterate_succ_apply, upd_other _ _ _ _ hyx]
            exact hj, hjr⟩
    intro y r
    constructor
    · rintro ⟨k, he, hroot⟩
      exact hfwd k y r he hroot
    · rintro ⟨k, he, hroot⟩
      exact hbwd k y r he hroot

/-- Linking root `r1` under root `r2` reroutes exactly the `r1` class. -/
theorem rootOf_link (p : Nat → Nat) (r1 r2 : Nat) (h1 : p r1 = r1)
    (h2 : p r2 = r2) (hne : r1 ≠ r2) :
    ∀ y r, rootOfRel (upd p r1 r2) y r ↔
      ((rootOfRel p y r ∧ r ≠ r1) ∨ (rootOfRel p y r1 ∧ r = r2)) := by
  have hfwd : ∀ k y r, (upd p r1 r2)^[k] y = r → (upd p r1 r2) r = r →
      ((rootOfRel p y r ∧ r ≠ r1) ∨ (rootOfRel p y r1 ∧ r = r2)) := by
    intro k
    induction k with
    | zero =>
      intro y r he hroot
      rw [Function.iterate_zero_apply] at he
      subst he
      have hyr1 : y ≠ r1 := by
        intro h
        subst h
        rw [upd_same] at hroot
        exact hne hroot.symm
      rw [upd_other _ _ _ _ hyr1] at hroot
      exact Or.inl ⟨⟨0, rfl, hroot⟩, hyr1⟩
    | succ k ihk =>
      intro y r he hroot
      rw [Function.iterate_succ_apply] at he
      by_cases hyr1 : y = r1
      · subst hyr1
        rw [upd_same] at he
        have hiter : (upd p y r2)^[k] r2 = r2 := by
          apply iter_fix
          rw [upd_other _ _ _ _ (Ne.symm hne)]
          exact h2
        rw [hiter] at he
        subst he
        exact Or.inr ⟨rootOf_root p y h1, rfl⟩
      · rw [upd_other _ _ _ _ hyr1] at he
        rcases ihk (p y) r he hroot with ⟨h3, h4⟩ | ⟨h3, h4⟩
        · exact Or.inl ⟨rootOf_of_step p y r h3, h4⟩
        · exact Or.inr ⟨rootOf_of_step p y r1 h3, h4⟩
  have hbwd1 : ∀ k y r, p^[k] y = r → p r = r → r ≠ r1 →
      rootOfRel (upd p r1 r2) y r := by
    intro k
    induction k with
    | zero =>
      intro y r he hroot hner1
      subst he
      exact ⟨0, rfl, by rw [upd_other _ _ _ _ hner1]; exact hroot⟩
    | succ k ihk =>
      intro y r he hroot hner1
      rw [Function.iterate_succ_apply] at he
      by_cases hyr1 : y = r1
      · subst hyr1
        rw [h1] at he
        have : r = y := by
          rw [← he]
          exact (iter_fix p y h1 k).symm ▸ rfl
        exact absurd this.symm (by
          intro hh
          exact hner1 (by rw [← hh]))
      · obtain ⟨j, hj, hjr⟩ := ihk (p y) r he hroot hner1
        exact ⟨j + 1, by
          rw [Function.iterate_succ_apply, upd_other _ _ _ _ hyr1]
          exact hj, hjr⟩
  have hbwd2 : ∀ k y, p^[k] y = r1 → rootOfRel (upd p r1 r2) y r2 := by
    intro k
    induction k with
    | zero =>
      intro y he
      rw [Function.iterate_zero_apply] at he
      subst he
      refine ⟨1, ?_, ?_⟩
      · rw [Function.iterate_one, upd_same]
      · rw [upd_other _ _ _ _ (Ne.symm hne)]
        exact h2
    | succ k ihk =>
      intro y he
      rw [Function.iterate_succ_apply] at he
      by_cases hyr1 : y = r1
      · subst hyr1
        refine ⟨1, ?_, ?_⟩
        · rw [Function.iterate_one, upd_same]
        · rw [upd_other _ _ _ _ (Ne.symm hne)]
          exact h2
      · obtain ⟨j, hj, hjr⟩ := ihk (p y) he
        exact ⟨j + 1, by
          rw [Function.iterate_succ_apply, upd_other _ _ _ _ hyr1]
          exact hj, hjr⟩
  intro y r
  constructor
  · rintro ⟨k, he, hroot⟩
    exact hfwd k y r he hroot
  · rintro (⟨⟨k, he, hroot⟩, hner1⟩ | ⟨⟨k, he, _⟩, rfl⟩)
    · exact hbwd1 k y r he hroot hner1
    · exact hbwd2 k y he

theorem iter_lt {n : Nat} {par : Nat → Nat} {rank : Nat → Nat}
    (hinv : UFInv n par rank) {x : Nat} (hx : x < n) :
    ∀ k, par^[k] x < n := by
  intro k
  induction k with
  | zero => exact hx
  | succ k ih =>
    rw [Function.iterate_succ_apply']
    exact hinv.1 _ ih

/-- Under the invariant every in-range vertex has a root: along a rootless
chain ranks rise strictly, so `n + 1` iterates cannot fit in `n`
vertices. -/
theorem ufRoot_exists {n : Nat} {par : Nat → Nat} {rank : Nat → Nat}
    (hinv : UFInv n par rank) {x : Nat} (hx : x < n) :
    ∃ r, rootOfRel par x r := by
  by_contra hcon
  push_neg at hcon
  have hnoroot : ∀ k, par (par^[k] x) ≠ par^[k] x := by
    intro k h
    exact absurd ⟨k, rfl, h⟩ (hcon _)
  have hmono : ∀ i j, i < j → rank (par^[i] x) < rank (par^[j] x) := by
    intro i j hij
    induction j with
    | zero => omega
    | succ j ihj =>
      have hstep : rank (par^[j] x) < rank (par^[j + 1] x) := by
        rw [Function.iterate_succ_apply']
        exact hinv.2 _ (iter_lt hinv hx j) (hnoroot j)
      rcases Nat.lt_or_ge i j with h | h
      · exact (ihj h).trans hstep
      · have : i = j := by omega
        subst this
        exact hstep
  have hmap : ∀ k ∈ Finset.range (n + 1), par^[k] x ∈ Finset.range n :=
    fun k _ => Finset.mem_range.mpr (iter_lt hinv hx k)
  have hcard : (Finset.range n).card < (Finset.range (n + 1)).card := by
    simp
  obtain ⟨i, _, j, _, hij, heq⟩ :=
    Finset.exists_ne_map_eq_of_card_lt_of_maps_to hcard hmap
  rcases Nat.lt_or_ge i j with h | h
  · have := hmono i j h
    rw [heq] at this
    omega
  · have hji : j < i := by omega
    have := hmono j i hji
    rw [heq] at this
    omega

/-- Ranks strictly increase from a vertex to its (distinct) root. -/
theorem rank_lt_root {n : Nat} {par : Nat → Nat} {rank : Nat → Nat}
    (hinv : UFInv n par rank) :
    ∀ k x rt, x < n → par^[k] x = rt → par rt = rt → x ≠ rt →
      rank x < rank rt := by
  intro k
  induction k with
  | zero =>
    intro x rt hx he _ hne
    exact absurd he hne
  | succ k ihk =>
    intro x rt hx he hroot hne
    rw [Function.iterate_succ_apply] at he
    by_cases hpx : par x = x
    · rw [hpx] at he
      exact absurd (ihk x rt hx he hroot hne) (by
        intro _
        exact hne (by
          have : par^[k] x = rt := he
          -- x is a fixpoint, so every iterate is x
          rw [iter_fix par x hpx k] at this
          exact this))
    · have h1 : rank x < rank (par x) := hinv.2 x hx hpx
      by_cases hpxrt : par x = rt
      · rw [hpxrt] at h1
        exact h1
      · exact h1.trans (ihk (par x) rt (hinv.1 x hx) he hroot hpxrt)

theorem sameRoot_refl {n : Nat} {par : Nat → Nat} {rank : Nat → Nat}
    (hinv : UFInv n par rank) {x : Nat} (hx : x < n) :
    sameRoot par x x := by
  obtain ⟨r, hr⟩ := ufRoot_exists hinv hx
  exact ⟨r, hr, hr⟩

theorem sameRoot_symm {par : Nat → Nat} {a b : Nat}
    (h : sameRoot par a b) : sameRoot par b a := by
  obtain ⟨r, h1, h2⟩ := h
  exact ⟨r, h2, h1⟩

theorem sameRoot_trans {par : Nat → Nat} {a b c : Nat}
    (h1 : sameRoot par a b) (h2 : sameRoot par b c) : sameRoot par a c := by
  obtain ⟨r1, ha, hb⟩ := h1
  obtain ⟨r2, hb2, hc⟩ := h2
  rw [rootOf_unique par b r1 r2 hb hb2] at ha
  exact ⟨r2, ha, hc⟩

/-- Specification of `ds_find` with fuel exceeding the steps-to-root:
returns the root, keeps every vertex's root, keeps the invariant and the
root set. -/
theorem ds_find_spec {n : Nat} {rank : Nat → Nat} :
    ∀ (fuel : Nat) (par : Nat → Nat) (x k r : Nat),
      UFInv n par rank → x < n →
      par^[k] x = r → par r = r → k < fuel →
      (rootOfRel par x ((ds_find fuel par x).2) ∧
       (∀ y rr, rootOfRel (ds_find fuel par x).1 y rr ↔
          rootOfRel par y rr) ∧
       UFInv n (ds_find fuel par x).1 rank ∧
       (∀ v, (ds_find fuel par x).1 v = v ↔ par v = v)) := by
  intro fuel
  induction fuel with
  | zero =>
    intro par x k r _ _ _ _ hk
    omega
  | succ fuel ih =>
    intro par x k r hinv hx he hroot hk
    by_cases hpx : par x = x
    · have hres : ds_find (fuel + 1) par x = (par, x) := by
        unfold ds_find
        rw [if_pos hpx]
      rw [hres]
      exact ⟨rootOf_root par x hpx, fun y rr => Iff.rfl, hinv,
        fun v => Iff.rfl⟩
    · have hres0 : ds_find (fuel + 1) par x =
          if par x = x then (par, x)
          else (upd (ds_find fuel par (par x)).1 x
            (ds_find fuel par (par x)).2, (ds_find fuel par (par x)).2) :=
        rfl
      have hres : ds_find (fuel + 1) par x =
          (upd (ds_find fuel par (par x)).1 x (ds_find fuel par (par x)).2,
            (ds_find fuel par (par x)).2) := by
        rw [hres0, if_neg hpx]
      have hk1 : 1 ≤ k := by
        rcases Nat.eq_zero_or_pos k with h | h
        · subst h
          rw [Function.iterate_zero_apply] at he
          subst he
          exact absurd hroot hpx
        · exact h
      have he2 : par^[k - 1] (par x) = r := by
        have : par^[k - 1] (par x) = par^[k - 1 + 1] x := by
          rw [Function.iterate_succ_apply]
        rw [this]
        have hkk : k - 1 + 1 = k := by omega
        rw [hkk]
        exact he
      obtain ⟨hroot1, hpres, hinv1, hrootset⟩ :=
        ih par (par x) (k - 1) r hinv (hinv.1 x hx) he2 hroot (by omega)
      rw [hres]
      dsimp only
      have hxroot : rootOfRel par x (ds_find fuel par (par x)).2 :=
        rootOf_of_step par x _ hroot1
      have hxroot1 : rootOfRel (ds_find fuel par (par x)).1 x
          (ds_find fuel par (par x)).2 :=
        (hpres x _).mpr hxroot
      have hcomp := rootOf_compress (ds_find fuel par (par x)).1 x
        (ds_find fuel par (par x)).2 hxroot1
      have hr2root : par (ds_find fuel par (par x)).2 =
          (ds_find fuel par (par x)).2 := hxroot.choose_spec.2
      have hr2lt : (ds_find fuel par (par x)).2 < n := by
        obtain ⟨j, hj, _⟩ := hxroot
        rw [← hj]
        exact iter_lt hinv hx j
      have hxner : x ≠ (ds_find fuel par (par x)).2 := by
        intro h
        rw [← h] at hr2root
        exact hpx hr2root
      refine ⟨hxroot, ?_, ?_, ?_⟩
      · intro y rr
        rw [hcomp y rr, hpres y rr]
      · constructor
        · intro z hz
          by_cases hzx : z = x
          · subst hzx
            rw [upd_same]
            exact hr2lt
          · rw [upd_other _ _ _ _ hzx]
            exact hinv1.1 z hz
        · intro z hz hzne
          by_cases hzx : z = x
          · subst hzx
            rw [upd_same]
            obtain ⟨j, hj, _⟩ := hxroot
            exact rank_lt_root hinv j z _ hz hj hr2root hxner
          · rw [upd_other _ _ _ _ hzx] at hzne ⊢
            exact hinv1.2 z hz hzne
      · intro v
        by_cases hvx : v = x
        · subst hvx
          rw [upd_same]
          constructor
          · intro h
            exact absurd h.symm hxner
          · intro h
            exact absurd h hpx
        · rw [upd_other _ _ _ _ hvx]
          exact hrootset v

/-- The root is reached in fewer than `n` steps (the iterates up to the
first root have strictly increasing ranks, hence are distinct). -/
theorem ufRoot_exists_small {n : Nat} {par : Nat → Nat}
    {rank : Nat → Nat} (hinv : UFInv n par rank) {x : Nat} (hx : x < n) :
    ∃ r k, par^[k] x = r ∧ par r = r ∧ k < n := by
  obtain ⟨r, k0, he0, hroot⟩ := ufRoot_exists hinv hx
  have hex : ∃ k, par^[k] x = r := ⟨k0, he0⟩
  classical
  refine ⟨r, Nat.find hex, Nat.find_spec hex, hroot, ?_⟩
  have hnr : ∀ j, j < Nat.find hex → par (par^[j] x) ≠ par^[j] x := by
    intro j hj hfix
    have : rootOfRel par x (par^[j] x) := ⟨j, rfl, hfix⟩
    have hrr : par^[j] x = r :=
      rootOf_unique par x _ r this ⟨Nat.find hex, Nat.find_spec hex, hroot⟩
    exact Nat.find_min hex hj hrr
  have hmono : ∀ i j, i < j → j ≤ Nat.find hex →
      rank (par^[i] x) < rank (par^[j] x) := by
    intro i j hij hj
    induction j with
    | zero => omega
    | succ j ihj =>
      have hstep : rank (par^[j] x) < rank (par^[j + 1] x) := by
        rw [Function.iterate_succ_apply']
        exact hinv.2 _ (iter_lt hinv hx j) (hnr j (by omega))
      rcases Nat.lt_or_ge i j with h | h
      · exact (ihj h (by omega)).trans hstep
      · have : i = j := by omega
        subst this
        exact hstep
  by_contra hcon
  push_neg at hcon
  have hmap : ∀ k ∈ Finset.range (n + 1), par^[k] x ∈ Finset.range n :=
    fun k _ => Finset.mem_range.mpr (iter_lt hinv hx k)
  have hcard : (Finset.range n).card < (Finset.range (n + 1)).card := by
    simp
  obtain ⟨i, hi, j, hj, hij, heq⟩ :=
    Finset.exists_ne_map_eq_of_card_lt_of_maps_to hcard hmap
  rw [Finset.mem_range] at hi hj
  rcases Nat.lt_or_ge i j with h | h
  · have := hmono i j h (by omega)
    rw [heq] at this
    omega
  · have hji : j < i := by omega
    have := hmono j i hji (by omega)
    rw [heq] at this
    omega

/-- Linking two distinct roots merges exactly their two classes. -/
theorem link_sameRoot (p : Nat → Nat) (r1 r2 : Nat) (h1 : p r1 = r1)
    (h2 : p r2 = r2) (hne : r1 ≠ r2) :
    ∀ a b, sameRoot (upd p r1 r2) a b ↔
      (sameRoot p a b ∨ (rootOfRel p a r1 ∧ rootOfRel p b r2) ∨
        (rootOfRel p a r2 ∧ rootOfRel p b r1)) := by
  intro a b
  constructor
  · rintro ⟨r, ha, hb⟩
    rw [rootOf_link p r1 r2 h1 h2 hne] at ha hb
    rcases ha with ⟨ha', hner⟩ | ⟨ha', rfl⟩
    · rcases hb with ⟨hb', _⟩ | ⟨hb', rfl⟩
      · exact Or.inl ⟨r, ha', hb'⟩
      · exact Or.inr (Or.inr ⟨ha', hb'⟩)
    · rcases hb with ⟨hb', hner⟩ | ⟨hb', _⟩
      · exact Or.inr (Or.inl ⟨ha', hb'⟩)
      · exact Or.inl ⟨r1, ha', hb'⟩
  · rintro (⟨r, ha, hb⟩ | ⟨ha, hb⟩ | ⟨ha, hb⟩)
    · by_cases hrr : r = r1
      · subst hrr
        refine ⟨r2, ?_, ?_⟩
        · rw [rootOf_link p r r2 h1 h2 hne]
          exact Or.inr ⟨ha, rfl⟩
        · rw [rootOf_link p r r2 h1 h2 hne]
          exact Or.inr ⟨hb, rfl⟩
      · refine ⟨r, ?_, ?_⟩
        · rw [rootOf_link p r1 r2 h1 h2 hne]
          exact Or.inl ⟨ha, hrr⟩
        · rw [rootOf_link p r1 r2 h1 h2 hne]
          exact Or.inl ⟨hb, hrr⟩
    · refine ⟨r2, ?_, ?_⟩
      · rw [rootOf_link p r1 r2 h1 h2 hne]
        exact Or.inr ⟨ha, rfl⟩
      · rw [rootOf_link p r1 r2 h1 h2 hne]
        exact Or.inl ⟨hb, Ne.symm hne⟩
    · refine ⟨r2, ?_, ?_⟩
      · rw [rootOf_link p r1 r2 h1 h2 hne]
        exact Or.inl ⟨ha, Ne.symm hne⟩
      · rw [rootOf_link p r1 r2 h1 h2 hne]
        exact Or.inr ⟨hb, rfl⟩

/-- Specification of `ds_union`: invariant preservation, class merging,
and the effect on the set of roots. -/
theorem ds_union_spec {n : Nat} {par : Nat → Nat} {rank : Nat → Nat}
    (hinv : UFInv n par rank) {x y : Nat} (hx : x < n) (hy : y < n) :
    UFInv n (ds_union n par rank x y).1 (ds_union n par rank x y).2 ∧
    (∀ a b, sameRoot (ds_union n par rank x y).1 a b ↔
      (sameRoot par a b ∨ (sameRoot par a x ∧ sameRoot par b y) ∨
        (sameRoot par a y ∧ sameRoot par b x))) ∧
    (sameRoot par x y →
      ∀ v, ((ds_union n par rank x y).1 v = v ↔ par v = v)) ∧
    (¬ sameRoot par x y → ∃ rd, rd < n ∧ par rd = rd ∧
      (∀ v, ((ds_union n par rank x y).1 v = v ↔
        (par v = v ∧ v ≠ rd)))) := by
  obtain ⟨rx, kx, hex, hrx, hkx⟩ := ufRoot_exists_small hinv hx
  obtain ⟨hf1root, hf1pres, hf1inv, hf1sets⟩ :=
    ds_find_spec n par x kx rx hinv hx hex hrx hkx
  obtain ⟨ry, ky, hey, hry, hky⟩ := ufRoot_exists_small hf1inv hy
  obtain ⟨hf2root, hf2pres, hf2inv, hf2sets⟩ :=
    ds_find_spec n (ds_find n par x).1 y ky ry hf1inv hy hey hry hky
  have hxroot : rootOfRel par x (ds_find n par x).2 := hf1root
  have hyroot : rootOfRel par y
      (ds_find n (ds_find n par x).1 y).2 :=
    (hf1pres y _).mp hf2root
  have hpres : ∀ v rr,
      rootOfRel (ds_find n (ds_find n par x).1 y).1 v rr ↔
        rootOfRel par v rr := by
    intro v rr
    rw [hf2pres v rr, hf1pres v rr]
  have hsets : ∀ v,
      ((ds_find n (ds_find n par x).1 y).1 v = v ↔ par v = v) := by
    intro v
    rw [hf2sets v, hf1sets v]
  have hsame : ∀ a b,
      (sameRoot (ds_find n (ds_find n par x).1 y).1 a b ↔
        sameRoot par a b) := by
    intro a b
    constructor
    · rintro ⟨r, h1, h2⟩
      exact ⟨r, (hpres a r).mp h1, (hpres b r).mp h2⟩
    · rintro ⟨r, h1, h2⟩
      exact ⟨r, (hpres a r).mpr h1, (hpres b r).mpr h2⟩
  have hrxroot : par (ds_find n par x).2 = (ds_find n par x).2 :=
    hxroot.choose_spec.2
  have hryroot : par (ds_find n (ds_find n par x).1 y).2 =
      (ds_find n (ds_find n par x).1 y).2 :=
    hyroot.choose_spec.2
  have hrxlt : (ds_find n par x).2 < n := by
    obtain ⟨j, hj, _⟩ := hxroot
    rw [← hj]
    exact iter_lt hinv hx j
  have hrylt : (ds_find n (ds_find n par x).1 y).2 < n := by
    obtain ⟨j, hj, _⟩ := hyroot
    rw [← hj]
    exact iter_lt hinv hy j
  have hrelx : ∀ a, (rootOfRel par a (ds_find n par x).2 ↔
      sameRoot par a x) := by
    intro a
    constructor
    · intro h
      exact ⟨_, h, hxroot⟩
    · rintro ⟨r, h1, h2⟩
      rw [rootOf_unique par x r _ h2 hxroot] at h1
      exact h1
  have hrely : ∀ a, (rootOfRel par a
      (ds_find n (ds_find n par x).1 y).2 ↔ sameRoot par a y) := by
    intro a
    constructor
    · intro h
      exact ⟨_, h, hyroot⟩
    · rintro ⟨r, h1, h2⟩
      rw [rootOf_unique par y r _ h2 hyroot] at h1
      exact h1
  have hdef : ds_union n par rank x y =
      (if (ds_find n par x).2 = (ds_find n (ds_find n par x).1 y).2 then
        ((ds_find n (ds_find n par x).1 y).1, rank)
      else if rank (ds_find n par x).2 <
          rank (ds_find n (ds_find n par x).1 y).2 then
        (upd (ds_find n (ds_find n par x).1 y).1 (ds_find n par x).2
          (ds_find n (ds_find n par x).1 y).2, rank)
      else if rank (ds_find n (ds_find n par x).1 y).2 <
          rank (ds_find n par x).2 then
        (upd (ds_find n (ds_find n par x).1 y).1
          (ds_find n (ds_find n par x).1 y).2 (ds_find n par x).2, rank)
      else
        (upd (ds_find n (ds_find n par x).1 y).1
          (ds_find n (ds_find n par x).1 y).2 (ds_find n par x).2,
          upd rank (ds_find n par x).2 (rank (ds_find n par x).2 + 1))) :=
    rfl
  by_cases heq : (ds_find n par x).2 = (ds_find n (ds_find n par x).1 y).2
  · rw [hdef, if_pos heq]
    have hxy : sameRoot par x y := by
      refine ⟨(ds_find n par x).2, ?_, ?_⟩
      · obtain ⟨r, h⟩ := hrelx x
        exact (hrelx x).mpr (sameRoot_refl hinv hx)
      · rw [heq]
        exact hyroot
    refine ⟨hf2inv, ?_, fun _ v => hsets v, fun hcon => absurd hxy hcon⟩
    intro a b
    rw [hsame a b]
    constructor
    · intro h
      exact Or.inl h
    · rintro (h | ⟨h1, h2⟩ | ⟨h1, h2⟩)
      · exact h
      · exact sameRoot_trans (sameRoot_trans h1 hxy) (sameRoot_symm h2)
      · exact sameRoot_trans
          (sameRoot_trans h1 (sameRoot_symm hxy)) (sameRoot_symm h2)
  · have hnxy : ¬ sameRoot par x y := by
      rintro ⟨r, h1, h2⟩
      apply heq
      rw [rootOf_unique par x _ r hxroot h1]
      rw [rootOf_unique par y r _ h2 hyroot]
    have hroots2 : (ds_find n (ds_find n par x).1 y).1
        (ds_find n par x).2 = (ds_find n par x).2 :=
      (hsets _).mpr hrxroot
    have hroots3 : (ds_find n (ds_find n par x).1 y).1
        (ds_find n (ds_find n par x).1 y).2 =
        (ds_find n (ds_find n par x).1 y).2 :=
      (hsets _).mpr hryroot
    -- shared facts for all three linking branches
    have hmerge : ∀ (rA rB : Nat),
        (ds_find n (ds_find n par x).1 y).1 rA = rA →
        (ds_find n (ds_find n par x).1 y).1 rB = rB →
        rA ≠ rB →
        (rootOfRel par x rA ∨ rootOfRel par y rA) →
        (rootOfRel par x rB ∨ rootOfRel par y rB) →
        (∀ a b, sameRoot (upd (ds_find n (ds_find n par x).1 y).1 rA rB)
            a b ↔
          (sameRoot par a b ∨ (sameRoot par a x ∧ sameRoot par b y) ∨
            (sameRoot par a y ∧ sameRoot par b x))) := by
      intro rA rB hA hB hAB hAor hBor
      intro a b
      rw [link_sameRoot _ rA rB hA hB hAB a b]
      have hconva : ∀ c, (rootOfRel (ds_find n (ds_find n par x).1 y).1
          c rA ↔ rootOfRel par c rA) := fun c => hpres c rA
      have hconvb : ∀ c, (rootOfRel (ds_find n (ds_find n par x).1 y).1
          c rB ↔ rootOfRel par c rB) := fun c => hpres c rB
      -- identify rA and rB with the classes of x and y
      have hAx : rootOfRel par x rA ∨ rootOfRel par y rA := hAor
      have hBx : rootOfRel par x rB ∨ rootOfRel par y rB := hBor
      constructor
      · rintro (h | ⟨h1, h2⟩ | ⟨h1, h2⟩)
        · exact Or.inl ((hsame a b).mp h)
        · rw [hconva a] at h1
          rw [hconvb b] at h2
          rcases hAx with hA2 | hA2 <;> rcases hBx with hB2 | hB2
          · exact absurd (rootOf_unique par x rA rB hA2 hB2) hAB
          · exact Or.inr (Or.inl ⟨⟨rA, h1, hA2⟩, ⟨rB, h2, hB2⟩⟩)
          · exact Or.inr (Or.inr ⟨⟨rA, h1, hA2⟩, ⟨rB, h2, hB2⟩⟩)
          · exact absurd (rootOf_unique par y rA rB hA2 hB2) hAB
        · rw [hconvb a] at h1
          rw [hconva b] at h2
          rcases hAx with hA2 | hA2 <;> rcases hBx with hB2 | hB2
          · exact absurd (rootOf_unique par x rA rB hA2 hB2) hAB
          · exact Or.inr (Or.inr ⟨⟨rB, h1, hB2⟩, ⟨rA, h2, hA2⟩⟩)
          · exact Or.inr (Or.inl ⟨⟨rB, h1, hB2⟩, ⟨rA, h2, hA2⟩⟩)
          · exact absurd (rootOf_unique par y rA rB hA2 hB2) hAB
      · rintro (h | ⟨h1, h2⟩ | ⟨h1, h2⟩)
        · exact Or.inl ((hsame a b).mpr h)
        · -- a in x's class, b in y's class
          rcases hAx with hA2 | hA2
          · -- rA is x's root, so rB must be y's root
            rcases hBx with hB2 | hB2
            · exact absurd (rootOf_unique par x rA rB hA2 hB2) hAB
            · refine Or.inr (Or.inl ⟨?_, ?_⟩)
              · rw [hconva a]
                obtain ⟨r, h3, h4⟩ := h1
                rw [rootOf_unique par x r rA h4 hA2] at h3
                exact h3
              · rw [hconvb b]
                obtain ⟨r, h3, h4⟩ := h2
                rw [rootOf_unique par y r rB h4 hB2] at h3
                exact h3
          · -- rA is y's root: then rB is x's root, use the mirrored form
            rcases hBx with hB2 | hB2
            · refine Or.inr (Or.inr ⟨?_, ?_⟩)
              · rw [hconvb a]
                obtain ⟨r, h3, h4⟩ := h1
                rw [rootOf_unique par x r rB h4 hB2] at h3
                exact h3
              · rw [hconva b]
                obtain ⟨r, h3, h4⟩ := h2
                rw [rootOf_unique par y r rA h4 hA2] at h3
                exact h3
            · exact absurd (rootOf_unique par y rA rB hA2 hB2) hAB
        · -- a in y's class, b in x's class
          rcases hAx with hA2 | hA2
          · rcases hBx with hB2 | hB2
            · exact absurd (rootOf_unique par x rA rB hA2 hB2) hAB
            · refine Or.inr (Or.inr ⟨?_, ?_⟩)
              · rw [hconvb a]
                obtain ⟨r, h3, h4⟩ := h1
                rw [rootOf_unique par y r rB h4 hB2] at h3
                exact h3
              · rw [hconva b]
                obtain ⟨r, h3, h4⟩ := h2
                rw [rootOf_unique par x r rA h4 hA2] at h3
                exact h3
          · rcases hBx with hB2 | hB2
            · refine Or.inr (Or.inl ⟨?_, ?_⟩)
              · rw [hconva a]
                obtain ⟨r, h3, h4⟩ := h1
                rw [rootOf_unique par y r rA h4 hA2] at h3
                exact h3
              · rw [hconvb b]
                obtain ⟨r, h3, h4⟩ := h2
                rw [rootOf_unique par x r rB h4 hB2] at h3
                exact h3
            · exact absurd (rootOf_unique par y rA rB hA2 hB2) hAB
      -- end hmerge
    have hlinkset : ∀ (rA rB : Nat),
        (ds_find n (ds_find n par x).1 y).1 rA = rA → rA ≠ rB →
        (∀ v, (upd (ds_find n (ds_find n par x).1 y).1 rA rB v = v ↔
          (par v = v ∧ v ≠ rA))) := by
      intro rA rB hA hAB v
      by_cases hv : v = rA
      · subst hv
        rw [upd_same]
        constructor
        · intro h
          exact absurd h.symm hAB
        · rintro ⟨_, h2⟩
          exact absurd rfl h2
      · rw [upd_other _ _ _ _ hv]
        rw [hsets v]
        constructor
        · intro h
          exact ⟨h, hv⟩
        · rintro ⟨h, _⟩
          exact h
    have hrankmono : ∀ (w : Nat),
        rank w ≤ upd rank (ds_find n par x).2
          (rank (ds_find n par x).2 + 1) w := by
      intro w
      by_cases hw : w = (ds_find n par x).2
      · subst hw
        rw [upd_same]
        omega
      · rw [upd_other _ _ _ _ hw]
    rw [hdef, if_neg heq]
    split_ifs with hlt1 hlt2
    · -- rank rx < rank ry: parent[rx] = ry
      refine ⟨?_, hmerge _ _ hroots2 hroots3 heq (Or.inl hxroot)
        (Or.inr hyroot), fun hcon => absurd hcon hnxy, fun _ =>
        ⟨(ds_find n par x).2, hrxlt, hrxroot,
          hlinkset _ _ hroots2 heq⟩⟩
      dsimp only
      constructor
      · intro z hz
        by_cases hzx : z = (ds_find n par x).2
        · subst hzx
          rw [upd_same]
          exact hrylt
        · rw [upd_other _ _ _ _ hzx]
          exact hf2inv.1 z hz
      · intro z hz hzne
        by_cases hzx : z = (ds_find n par x).2
        · subst hzx
          rw [upd_same]
          exact hlt1
        · rw [upd_other _ _ _ _ hzx] at hzne ⊢
          exact hf2inv.2 z hz hzne
    · -- rank ry < rank rx: parent[ry] = rx
      refine ⟨?_, hmerge _ _ hroots3 hroots2 (Ne.symm heq)
        (Or.inr hyroot) (Or.inl hxroot), fun hcon => absurd hcon hnxy,
        fun _ => ⟨(ds_find n (ds_find n par x).1 y).2, hrylt, hryroot,
          hlinkset _ _ hroots3 (Ne.symm heq)⟩⟩
      dsimp only
      constructor
      · intro z hz
        by_cases hzy : z = (ds_find n (ds_find n par x).1 y).2
        · subst hzy
          rw [upd_same]
          exact hrxlt
        · rw [upd_other _ _ _ _ hzy]
          exact hf2inv.1 z hz
      · intro z hz hzne
        by_cases hzy : z = (ds_find n (ds_find n par x).1 y).2
        · subst hzy
          rw [upd_same]
          exact hlt2
        · rw [upd_other _ _ _ _ hzy] at hzne ⊢
          exact hf2inv.2 z hz hzne
    · -- equal ranks: parent[ry] = rx, rank[rx]++
      refine ⟨?_, hmerge _ _ hroots3 hroots2 (Ne.symm heq)
        (Or.inr hyroot) (Or.inl hxroot), fun hcon => absurd hcon hnxy,
        fun _ => ⟨(ds_find n (ds_find n par x).1 y).2, hrylt, hryroot,
          hlinkset _ _ hroots3 (Ne.symm heq)⟩⟩
      dsimp only
      constructor
      · intro z hz
        by_cases hzy : z = (ds_find n (ds_find n par x).1 y).2
        · subst hzy
          rw [upd_same]
          exact hrxlt
        · rw [upd_other _ _ _ _ hzy]
          exact hf2inv.1 z hz
      · intro z hz hzne
        by_cases hzy : z = (ds_find n (ds_find n par x).1 y).2
        · subst hzy
          rw [upd_same]
          have h1 : upd rank (ds_find n par x).2
              (rank (ds_find n par x).2 + 1)
              (ds_find n (ds_find n par x).1 y).2 =
              rank (ds_find n (ds_find n par x).1 y).2 :=
            upd_other _ _ _ _ (Ne.symm heq)
          have h2 : upd rank (ds_find n par x).2
              (rank (ds_find n par x).2 + 1) (ds_find n par x).2 =
              rank (ds_find n par x).2 + 1 := upd_same _ _ _
          rw [h1, h2]
          omega
        · rw [upd_other _ _ _ _ hzy] at hzne ⊢
          have hznx : z ≠ (ds_find n par x).2 := by
            intro h
            subst h
            exact hzne hroots2
          have h1 : upd rank (ds_find n par x).2
              (rank (ds_find n par x).2 + 1) z = rank z :=
            upd_other _ _ _ _ hznx
          rw [h1]
          exact lt_of_lt_of_le (hf2inv.2 z hz hzne) (hrankmono _)

theorem joined_mono {m1 m2 : List (Nat × Nat)}
    (hsub : ∀ p ∈ m1, p ∈ m2) {a b : Nat} (h : Joined m1 a b) :
    Joined m2 a b := by
  induction h with
  | refl => exact Relation.ReflTransGen.refl
  | tail _ hstep ih =>
    refine Relation.ReflTransGen.tail ih ?_
    rcases hstep with h1 | h1
    · exact Or.inl (hsub _ h1)
    · exact Or.inr (hsub _ h1)

theorem joined_nil {a b : Nat} : Joined [] a b ↔ a = b := by
  constructor
  · intro h
    induction h with
    | refl => rfl
    | tail _ hstep _ =>
      rcases hstep with h1 | h1 <;> exact absurd h1 (List.not_mem_nil _)
  · rintro rfl
    exact Relation.ReflTransGen.refl

theorem joined_symm {m : List (Nat × Nat)} {a b : Nat}
    (h : Joined m a b) : Joined m b a := by
  induction h with
  | refl => exact Relation.ReflTransGen.refl
  | tail _ hstep ih =>
    refine Relation.ReflTransGen.head ?_ ih
    rcases hstep with h1 | h1
    · exact Or.inr h1
    · exact Or.inl h1

theorem joined_single {m : List (Nat × Nat)} {e : Nat × Nat}
    (h : e ∈ m) : Joined m e.1 e.2 :=
  Relation.ReflTransGen.single (Or.inl (by
    cases e
    exact h))

/-- Appending one accepted edge joins exactly its two classes. -/
theorem joined_snoc {m : List (Nat × Nat)} {e : Nat × Nat} {a b : Nat} :
    Joined (m ++ [e]) a b ↔
      (Joined m a b ∨ (Joined m a e.1 ∧ Joined m e.2 b) ∨
        (Joined m a e.2 ∧ Joined m e.1 b)) := by
  constructor
  · intro h
    induction h with
    | refl => exact Or.inl Relation.ReflTransGen.refl
    | tail _ hstep ih =>
      rename_i c d _
      have hme : ∀ p : Nat × Nat, p ∈ m ++ [e] →
          p ∈ m ∨ p = e := by
        intro p hp
        rcases List.mem_append.mp hp with h1 | h1
        · exact Or.inl h1
        · exact Or.inr (List.mem_singleton.mp h1)
      rcases hstep with h1 | h1
      · rcases hme _ h1 with h2 | h2
        · -- step (c, d) within m
          have hcd : Joined m c d :=
            Relation.ReflTransGen.single (Or.inl h2)
          rcases ih with h3 | ⟨h3, h4⟩ | ⟨h3, h4⟩
          · exact Or.inl (h3.trans hcd)
          · exact Or.inr (Or.inl ⟨h3, h4.trans hcd⟩)
          · exact Or.inr (Or.inr ⟨h3, h4.trans hcd⟩)
        · -- the new edge itself: c = e.1, d = e.2
          have hc : c = e.1 := by rw [← h2]
          have hd : d = e.2 := by rw [← h2]
          subst hc
          subst hd
          rcases ih with h3 | ⟨h3, _⟩ | ⟨h3, _⟩
          · exact Or.inr (Or.inl ⟨h3, Relation.ReflTransGen.refl⟩)
          · exact Or.inr (Or.inl ⟨h3, Relation.ReflTransGen.refl⟩)
          · exact Or.inl h3
      · rcases hme _ h1 with h2 | h2
        · have hcd : Joined m c d :=
            Relation.ReflTransGen.single (Or.inr h2)
          rcases ih with h3 | ⟨h3, h4⟩ | ⟨h3, h4⟩
          · exact Or.inl (h3.trans hcd)
          · exact Or.inr (Or.inl ⟨h3, h4.trans hcd⟩)
          · exact Or.inr (Or.inr ⟨h3, h4.trans hcd⟩)
        · -- reversed new edge: d = e.1, c = e.2
          have hc : c = e.2 := by rw [← h2]
          have hd : d = e.1 := by rw [← h2]
          subst hc
          subst hd
          rcases ih with h3 | ⟨h3, _⟩ | ⟨h3, h4⟩
          · exact Or.inr (Or.inr ⟨h3, Relation.ReflTransGen.refl⟩)
          · exact Or.inl h3
          · exact Or.inr (Or.inr ⟨h3, Relation.ReflTransGen.refl⟩)
  · have hsub : ∀ p ∈ m, p ∈ m ++ [e] := fun p hp =>
      List.mem_append.mpr (Or.inl hp)
    have hee : Joined (m ++ [e]) e.1 e.2 :=
      joined_single (List.mem_append.mpr (Or.inr (List.mem_singleton.mpr
        rfl)))
    rintro (h | ⟨h1, h2⟩ | ⟨h1, h2⟩)
    · exact joined_mono hsub h
    · exact ((joined_mono hsub h1).trans hee).trans (joined_mono hsub h2)
    · exact ((joined_mono hsub h1).trans (joined_symm hee)).trans
        (joined_mono hsub h2)

/-- The roots among the first `n` vertices. -/
def rootSet (n : Nat) (par : Nat → Nat) : Finset Nat :=
  (Finset.range n).filter (fun v => par v = v)

theorem rootSet_congr {n : Nat} {p1 p2 : Nat → Nat}
    (h : ∀ v, p1 v = v ↔ p2 v = v) : rootSet n p1 = rootSet n p2 := by
  unfold rootSet
  ext v
  simp only [Finset.mem_filter]
  rw [h v]

theorem rootSet_drop {n : Nat} {p p' : Nat → Nat} {rd : Nat}
    (h : ∀ v, (p' v = v ↔ (p v = v ∧ v ≠ rd))) (hrd : rd < n)
    (hrdroot : p rd = rd) :
    (rootSet n p').card + 1 = (rootSet n p).card := by
  have hset : rootSet n p' = (rootSet n p).erase rd := by
    unfold rootSet
    ext v
    simp only [Finset.mem_filter, Finset.mem_erase]
    rw [h v]
    constructor
    · rintro ⟨h1, h2, h3⟩
      exact ⟨h3, h1, h2⟩
    · rintro ⟨h3, h1, h2⟩
      exact ⟨h1, h2, h3⟩
  rw [hset, Finset.card_erase_of_mem]
  · have hpos : 0 < (rootSet n p).card :=
      Finset.card_pos.mpr ⟨rd, by
        unfold rootSet
        exact Finset.mem_filter.mpr ⟨Finset.mem_range.mpr hrd, hrdroot⟩⟩
    omega
  · unfold rootSet
    exact Finset.mem_filter.mpr ⟨Finset.mem_range.mpr hrd, hrdroot⟩

/-- Invariant-carrying specification of the Kruskal accepting loop:
the accepted list only grows from the offered pool; its length plus the
number of union-find roots stays `n`; same-root equals joined-by-accepted;
and if the loop finishes shy of `n - 1` edges, every offered edge ended up
joined. -/
theorem kruskal_loop_spec {n : Nat} (hn : 0 < n) :
    ∀ (el : List (Nat × Nat)) (par rank : Nat → Nat)
      (mst : List (Nat × Nat)),
      UFInv n par rank →
      (∀ e ∈ el, e.1 < n ∧ e.2 < n) →
      (∀ a b, a < n → b < n → (sameRoot par a b ↔ Joined mst a b)) →
      (rootSet n par).card + mst.length = n →
      mst.length ≤ n - 1 →
      UFInv n (kruskal_loop n el par rank mst).1
        (kruskal_loop n el par rank mst).2.1 ∧
      (∃ t, (kruskal_loop n el par rank mst).2.2 = mst ++ t) ∧
      (kruskal_loop n el par rank mst).2.2.length ≤ n - 1 ∧
      (rootSet n (kruskal_loop n el par rank mst).1).card +
        (kruskal_loop n el par rank mst).2.2.length = n ∧
      (∀ a b, a < n → b < n →
        (sameRoot (kruskal_loop n el par rank mst).1 a b ↔
          Joined (kruskal_loop n el par rank mst).2.2 a b)) ∧
      (∀ p ∈ (kruskal_loop n el par rank mst).2.2, p ∈ mst ∨ p ∈ el) ∧
      ((kruskal_loop n el par rank mst).2.2.length < n - 1 →
        ∀ e ∈ el, Joined (kruskal_loop n el par rank mst).2.2 e.1 e.2) := by
  intro el
  induction el with
  | nil =>
    intro par rank mst hinv _ hiff hcard hlen
    refine ⟨hinv, ⟨[], by simp [kruskal_loop]⟩, hlen, hcard, hiff, ?_,
      ?_⟩
    · intro p hp
      exact Or.inl hp
    · intro _ e he
      exact absurd he (List.not_mem_nil e)
  | cons e es ih =>
    intro par rank mst hinv hbnd hiff hcard hlen
    have hstep0 : kruskal_loop n (e :: es) par rank mst =
        if mst.length < n - 1 then
          (if (ds_find n par e.1).2 ≠
              (ds_find n (ds_find n par e.1).1 e.2).2 then
            kruskal_loop n es
              (ds_union n (ds_find n (ds_find n par e.1).1 e.2).1 rank
                e.1 e.2).1
              (ds_union n (ds_find n (ds_find n par e.1).1 e.2).1 rank
                e.1 e.2).2 (mst ++ [e])
          else kruskal_loop n es (ds_find n (ds_find n par e.1).1 e.2).1
            rank mst)
        else (par, rank, mst) := rfl
    by_cases hfull : mst.length < n - 1
    · obtain ⟨he1, he2⟩ := hbnd e (List.mem_cons_self _ _)
      obtain ⟨rx, kx, hex, hrx, hkx⟩ := ufRoot_exists_small hinv he1
      obtain ⟨hf1root, hf1pres, hf1inv, hf1sets⟩ :=
        ds_find_spec n par e.1 kx rx hinv he1 hex hrx hkx
      obtain ⟨ry, ky, hey, hry, hky⟩ := ufRoot_exists_small hf1inv he2
      obtain ⟨hf2root, hf2pres, hf2inv, hf2sets⟩ :=
        ds_find_spec n (ds_find n par e.1).1 e.2 ky ry hf1inv he2 hey hry
          hky
      have hxroot : rootOfRel par e.1 (ds_find n par e.1).2 := hf1root
      have hyroot : rootOfRel par e.2
          (ds_find n (ds_find n par e.1).1 e.2).2 :=
        (hf1pres e.2 _).mp hf2root
      have hpres : ∀ v rr,
          rootOfRel (ds_find n (ds_find n par e.1).1 e.2).1 v rr ↔
            rootOfRel par v rr := by
        intro v rr
        rw [hf2pres v rr, hf1pres v rr]
      have hsets : ∀ v,
          ((ds_find n (ds_find n par e.1).1 e.2).1 v = v ↔
            par v = v) := by
        intro v
        rw [hf2sets v, hf1sets v]
      have hsame : ∀ a b,
          (sameRoot (ds_find n (ds_find n par e.1).1 e.2).1 a b ↔
            sameRoot par a b) := by
        intro a b
        constructor
        · rintro ⟨r, h1, h2⟩
          exact ⟨r, (hpres a r).mp h1, (hpres b r).mp h2⟩
        · rintro ⟨r, h1, h2⟩
          exact ⟨r, (hpres a r).mpr h1, (hpres b r).mpr h2⟩
      by_cases hne : (ds_find n par e.1).2 ≠
          (ds_find n (ds_find n par e.1).1 e.2).2
      · -- the edge is accepted
        have hnsame : ¬ sameRoot par e.1 e.2 := by
          rintro ⟨r, h1, h2⟩
          apply hne
          rw [rootOf_unique par e.1 _ r hxroot h1]
          rw [rootOf_unique par e.2 r _ h2 hyroot]
        have hnsame2 : ¬ sameRoot
            (ds_find n (ds_find n par e.1).1 e.2).1 e.1 e.2 := by
          intro h
          exact hnsame ((hsame e.1 e.2).mp h)
        obtain ⟨huinv, humerge, _, hudrop⟩ :=
          ds_union_spec hf2inv he1 he2
        obtain ⟨rd, hrdlt, hrdroot2, hrdsets⟩ := hudrop hnsame2
        have hrdroot : par rd = rd := (hsets rd).mp hrdroot2
        have husets : ∀ v,
            ((ds_union n (ds_find n (ds_find n par e.1).1 e.2).1 rank
              e.1 e.2).1 v = v ↔ (par v = v ∧ v ≠ rd)) := by
          intro v
          rw [hrdsets v, hsets v]
        have humerge2 : ∀ a b,
            (sameRoot (ds_union n
              (ds_find n (ds_find n par e.1).1 e.2).1 rank e.1 e.2).1
                a b ↔
              (sameRoot par a b ∨ (sameRoot par a e.1 ∧
                sameRoot par b e.2) ∨
                (sameRoot par a e.2 ∧ sameRoot par b e.1))) := by
          intro a b
          rw [humerge a b, hsame a b, hsame a e.1, hsame b e.2,
            hsame a e.2, hsame b e.1]
        have hcard2 : (rootSet n (ds_union n
            (ds_find n (ds_find n par e.1).1 e.2).1 rank e.1 e.2).1).card
            + (mst ++ [e]).length = n := by
          have hdrop := rootSet_drop husets hrdlt hrdroot
          simp only [List.length_append, List.length_singleton]
          omega
        have hiff2 : ∀ a b, a < n → b < n →
            (sameRoot (ds_union n
              (ds_find n (ds_find n par e.1).1 e.2).1 rank e.1 e.2).1
                a b ↔ Joined (mst ++ [e]) a b) := by
          intro a b ha hb
          rw [humerge2 a b, joined_snoc]
          rw [hiff a b ha hb, hiff a e.1 ha he1, hiff a e.2 ha he2]
          constructor
          · rintro (h | ⟨h1, h2⟩ | ⟨h1, h2⟩)
            · exact Or.inl h
            · exact Or.inr (Or.inl ⟨h1, joined_symm
                ((hiff b e.2 hb he2).mp h2)⟩)
            · exact Or.inr (Or.inr ⟨h1, joined_symm
                ((hiff b e.1 hb he1).mp h2)⟩)
          · rintro (h | ⟨h1, h2⟩ | ⟨h1, h2⟩)
            · exact Or.inl h
            · exact Or.inr (Or.inl ⟨h1, (hiff b e.2 hb he2).mpr
                (joined_symm h2)⟩)
            · exact Or.inr (Or.inr ⟨h1, (hiff b e.1 hb he1).mpr
                (joined_symm h2)⟩)
        have hlen2 : (mst ++ [e]).length ≤ n - 1 := by
          obtain ⟨r0, hr0⟩ := ufRoot_exists huinv hn
          have hr0root : (ds_union n
              (ds_find n (ds_find n par e.1).1 e.2).1 rank e.1 e.2).1 r0
              = r0 := hr0.choose_spec.2
          have hr0lt : r0 < n := by
            obtain ⟨j, hj, _⟩ := hr0
            rw [← hj]
            exact iter_lt huinv hn j
          have hpos : 0 < (rootSet n (ds_union n
              (ds_find n (ds_find n par e.1).1 e.2).1 rank
                e.1 e.2).1).card :=
            Finset.card_pos.mpr ⟨r0, Finset.mem_filter.mpr
              ⟨Finset.mem_range.mpr hr0lt, hr0root⟩⟩
          simp only [List.length_append, List.length_singleton] at hcard2 ⊢
          omega
        obtain ⟨hc0, ⟨t, hpre⟩, hc1, hc2, hc3, hc4, hc5⟩ :=
          ih (ds_union n (ds_find n (ds_find n par e.1).1 e.2).1 rank
              e.1 e.2).1
            (ds_union n (ds_find n (ds_find n par e.1).1 e.2).1 rank
              e.1 e.2).2
            (mst ++ [e]) huinv
            (fun e' he' => hbnd e' (List.mem_cons_of_mem _ he'))
            hiff2 hcard2 hlen2
        rw [hstep0, if_pos hfull, if_pos hne]
        refine ⟨hc0, ⟨[e] ++ t, by rw [hpre, List.append_assoc]⟩, hc1,
          hc2, hc3, ?_, ?_⟩
        · intro p hp
          rcases hc4 p hp with h1 | h1
          · rcases List.mem_append.mp h1 with h2 | h2
            · exact Or.inl h2
            · exact Or.inr (by
                rw [List.mem_singleton] at h2
                exact h2 ▸ List.mem_cons_self _ _)
          · exact Or.inr (List.mem_cons_of_mem _ h1)
        · intro hlt e' he'
          rcases List.mem_cons.mp he' with h1 | h1
          · subst h1
            apply joined_single
            rw [hpre]
            exact List.mem_append.mpr (Or.inl
              (List.mem_append.mpr (Or.inr (List.mem_singleton.mpr rfl))))
          · exact hc5 hlt e' h1
      · -- the edge is skipped: both endpoints already share a root
        push_neg at hne
        have hsamexy : sameRoot par e.1 e.2 := by
          refine ⟨(ds_find n par e.1).2, hxroot, ?_⟩
          rw [hne]
          exact hyroot
        have hiff2 : ∀ a b, a < n → b < n →
            (sameRoot (ds_find n (ds_find n par e.1).1 e.2).1 a b ↔
              Joined mst a b) := by
          intro a b ha hb
          rw [hsame a b]
          exact hiff a b ha hb
        have hcard2 : (rootSet n
            (ds_find n (ds_find n par e.1).1 e.2).1).card + mst.length
            = n := by
          rw [rootSet_congr hsets]
          exact hcard
        obtain ⟨hc0, ⟨t, hpre⟩, hc1, hc2, hc3, hc4, hc5⟩ :=
          ih (ds_find n (ds_find n par e.1).1 e.2).1 rank mst hf2inv
            (fun e' he' => hbnd e' (List.mem_cons_of_mem _ he'))
            hiff2 hcard2 hlen
        rw [hstep0, if_pos hfull, if_neg (by
          intro h
          exact h hne)]
        refine ⟨hc0, ⟨t, hpre⟩, hc1, hc2, hc3, ?_, ?_⟩
        · intro p hp
          rcases hc4 p hp with h1 | h1
          · exact Or.inl h1
          · exact Or.inr (List.mem_cons_of_mem _ h1)
        · intro hlt e' he'
          rcases List.mem_cons.mp he' with h1 | h1
          · subst h1
            have hj : Joined mst e'.1 e'.2 :=
              (hiff e'.1 e'.2 he1 he2).mp hsamexy
            refine joined_mono ?_ hj
            intro p hp
            rw [hpre]
            exact List.mem_append.mpr (Or.inl hp)
          · exact hc5 hlt e' h1
    · rw [hstep0, if_neg hfull]
      dsimp only
      have hlen2 : mst.length = n - 1 := by omega
      refine ⟨hinv, ⟨[], by simp⟩, by omega, hcard, hiff, ?_, ?_⟩
      · intro p hp
        exact Or.inl hp
      · intro hlt
        omega

theorem rootOf_id (a r : Nat) : rootOfRel (fun x => x) a r ↔ a = r := by
  constructor
  · rintro ⟨k, he, _⟩
    rw [iter_fix (fun x => x) a rfl k] at he
    exact he
  · rintro rfl
    exact ⟨0, rfl, rfl⟩

/-- C3 counterexample: an undirected graph whose single edge is stored
only on vertex 1's list.  It is connected (the edge joins 0 and 1), every
adjacency entry is in range and the graph is non-empty, yet kruskal_mst's
duplicate-avoiding extraction (`u > v` skip) never sees the edge and the
call reports the disconnected error. -/
theorem C3_counterexample :
    ((⟨2, false, fun u => if u = 1 then [0] else []⟩ : Graph).directed
      = false) ∧
    0 < (⟨2, false, fun u => if u = 1 then [0] else []⟩ : Graph).n ∧
    (⟨2, false, fun u => if u = 1 then [0] else []⟩ : Graph).WF ∧
    UConnected ⟨2, false, fun u => if u = 1 then [0] else []⟩ ∧
    kruskal_mst ⟨2, false, fun u => if u = 1 then [0] else []⟩ =
      (-1, [], 0) := by
  refine ⟨rfl, by decide, ?_, ?_, by decide⟩
  · intro u hu w hw
    simp only [Graph.n] at hu
    interval_cases u <;> simp_all
  · intro v hv
    simp only [Graph.n] at hv
    interval_cases v
    · exact Relation.ReflTransGen.refl
    · exact Relation.ReflTransGen.single
        (Or.inr ⟨by decide, by decide⟩)

/-- C3 (amended): for a non-empty undirected graph with in-range and
SYMMETRIC adjacency (each edge stored on both endpoint lists, as add_edge
maintains) within the create_graph size bound, `kruskal_mst` succeeds iff
the graph is connected; on success it returns `n - 1` accepted edges,
sets `*out_nedges` to `n - 1`, and returns total weight `n - 1` (all
extracted edges have unit weight); on a disconnected graph it returns
`-1` with no edge set exposed. -/
theorem C3_theorem (g : Graph) (_hdir : g.directed = false)
    (hn : 0 < g.n) (hwf : g.WF) (hsym : g.Sym)
    (_hnmax : g.n ≤ GRAFO_MAX_VERTICES) :
    ((kruskal_mst g).1 ≠ -1 ↔ UConnected g) ∧
    (UConnected g →
      (kruskal_mst g).1 = ((g.n - 1 : Nat) : Int) ∧
      (kruskal_mst g).2.1.length = g.n - 1 ∧
      (kruskal_mst g).2.2 = g.n - 1) ∧
    (¬ UConnected g → kruskal_mst g = (-1, [], 0)) := by
  have hinv0 : UFInv g.n (fun x => x) (fun _ => 0) :=
    ⟨fun x hx => hx, fun x _ h => absurd rfl h⟩
  have hbnd0 : ∀ e ∈ kruskal_edges g, e.1 < g.n ∧ e.2 < g.n := by
    intro e he
    have hmem : (e.1, e.2) ∈ kruskal_edges g := by
      rw [Prod.mk.eta]
      exact he
    obtain ⟨h1, h2, _⟩ := (kruskal_edges_mem g e.1 e.2).mp hmem
    exact ⟨h1, hwf e.1 h1 e.2 h2⟩
  have hiff0 : ∀ a b, a < g.n → b < g.n →
      (sameRoot (fun x => x) a b ↔ Joined [] a b) := by
    intro a b _ _
    rw [joined_nil]
    constructor
    · rintro ⟨r, h1, h2⟩
      rw [rootOf_id] at h1 h2
      rw [h1, ← h2]
    · rintro rfl
      exact ⟨a, (rootOf_id a a).mpr rfl, (rootOf_id a a).mpr rfl⟩
  have hcard0 : (rootSet g.n (fun x => x)).card + ([] :
      List (Nat × Nat)).length = g.n := by
    have : rootSet g.n (fun x => x) = Finset.range g.n := by
      unfold rootSet
      ext v
      simp
    rw [this]
    simp
  obtain ⟨hc0, ⟨t, hpre⟩, hc1, hc2, hc3, hc4, hc5⟩ :=
    kruskal_loop_spec hn (kruskal_edges g) (fun x => x) (fun _ => 0) []
      hinv0 hbnd0 hiff0 hcard0 (by simp)
  have hks : kruskal_mst g =
      if (kruskal_loop g.n (kruskal_edges g) (fun x => x) (fun _ => 0)
          []).2.2.length ≠ g.n - 1 then (-1, [], 0)
      else (((kruskal_loop g.n (kruskal_edges g) (fun x => x)
          (fun _ => 0) []).2.2.length : Int),
        (kruskal_loop g.n (kruskal_edges g) (fun x => x) (fun _ => 0)
          []).2.2,
        (kruskal_loop g.n (kruskal_edges g) (fun x => x) (fun _ => 0)
          []).2.2.length) := by
    unfold kruskal_mst
    rw [if_neg (by omega)]
  -- accepted edges are adjacency edges, so joins are walks in the graph
  have hjoin2walk : ∀ a b,
      Joined (kruskal_loop g.n (kruskal_edges g) (fun x => x)
        (fun _ => 0) []).2.2 a b →
      Relation.ReflTransGen (ukstep g) a b := by
    intro a b h
    induction h with
    | refl => exact Relation.ReflTransGen.refl
    | tail _ hstep ih =>
      rename_i c d _
      refine Relation.ReflTransGen.tail ih ?_
      rcases hstep with h1 | h1
      · rcases hc4 _ h1 with h2 | h2
        · exact absurd h2 (List.not_mem_nil _)
        · obtain ⟨h3, h4, _⟩ := (kruskal_edges_mem g c d).mp h2
          exact Or.inl ⟨h3, h4⟩
      · rcases hc4 _ h1 with h2 | h2
        · exact absurd h2 (List.not_mem_nil _)
        · obtain ⟨h3, h4, _⟩ := (kruskal_edges_mem g d c).mp h2
          exact Or.inr ⟨h3, h4⟩
  by_cases hgood : (kruskal_loop g.n (kruskal_edges g) (fun x => x)
      (fun _ => 0) []).2.2.length = g.n - 1
  · -- the loop accepted n - 1 edges: a single class, hence connected
    have hcard1 : (rootSet g.n (kruskal_loop g.n (kruskal_edges g)
        (fun x => x) (fun _ => 0) []).1).card = 1 := by
      omega
    have hallsame : ∀ v, v < g.n →
        sameRoot (kruskal_loop g.n (kruskal_edges g) (fun x => x)
          (fun _ => 0) []).1 0 v := by
      intro v hv
      obtain ⟨r0, h0⟩ := ufRoot_exists hc0 hn
      obtain ⟨rv, hvr⟩ := ufRoot_exists hc0 hv
      have hm0 : r0 ∈ rootSet g.n (kruskal_loop g.n (kruskal_edges g)
          (fun x => x) (fun _ => 0) []).1 := by
        unfold rootSet
        refine Finset.mem_filter.mpr ⟨?_, h0.choose_spec.2⟩
        obtain ⟨j, hj, _⟩ := h0
        rw [← hj]
        exact Finset.mem_range.mpr (iter_lt hc0 hn j)
      have hmv : rv ∈ rootSet g.n (kruskal_loop g.n (kruskal_edges g)
          (fun x => x) (fun _ => 0) []).1 := by
        unfold rootSet
        refine Finset.mem_filter.mpr ⟨?_, hvr.choose_spec.2⟩
        obtain ⟨j, hj, _⟩ := hvr
        rw [← hj]
        exact Finset.mem_range.mpr (iter_lt hc0 hv j)
      have heqr : r0 = rv :=
        Finset.card_le_one.mp (by omega) r0 hm0 rv hmv
      exact ⟨rv, heqr ▸ h0, hvr⟩
    have hconn : UConnected g := by
      intro v hv
      exact hjoin2walk 0 v ((hc3 0 v hn hv).mp (hallsame v hv))
    rw [hks, if_neg (by omega)]
    refine ⟨⟨fun _ => hconn, fun _ => ?_⟩, fun _ => ⟨?_, ?_, ?_⟩,
      fun hcon => absurd hconn hcon⟩
    · simp only [ne_eq]
      intro hbad
      have : ((kruskal_loop g.n (kruskal_edges g) (fun x => x)
          (fun _ => 0) []).2.2.length : Int) < 0 := by
        rw [hbad]
        omega
      omega
    · rw [hgood]
    · exact hgood
    · exact hgood
  · -- fewer than n - 1 accepted edges: the graph cannot be connected
    have hlt : (kruskal_loop g.n (kruskal_edges g) (fun x => x)
        (fun _ => 0) []).2.2.length < g.n - 1 := by omega
    have halljoin := hc5 hlt
    have hnconn : ¬ UConnected g := by
      intro hconn
      -- every vertex is joined to 0 by accepted edges
      have hwalkjoin : ∀ v, Relation.ReflTransGen (ukstep g) 0 v →
          v < g.n ∧ Joined (kruskal_loop g.n (kruskal_edges g)
            (fun x => x) (fun _ => 0) []).2.2 0 v := by
        intro v h
        induction h with
        | refl => exact ⟨hn, Relation.ReflTransGen.refl⟩
        | tail _ hstep ih =>
          rename_i c d _
          obtain ⟨hcn, hjoin⟩ := ih
          have hstep2 : d < g.n ∧ Joined (kruskal_loop g.n
              (kruskal_edges g) (fun x => x) (fun _ => 0) []).2.2 c d := by
            rcases hstep with ⟨h1, h2⟩ | ⟨h1, h2⟩
            · have hdn : d < g.n := hwf c h1 d h2
              by_cases hcd : d < c
              · have hmem : (d, c) ∈ kruskal_edges g := by
                  rw [kruskal_edges_mem]
                  exact ⟨hdn, hsym c d h2, by omega⟩
                exact ⟨hdn, joined_symm (halljoin (d, c) hmem)⟩
              · have hmem : (c, d) ∈ kruskal_edges g := by
                  rw [kruskal_edges_mem]
                  exact ⟨h1, h2, by omega⟩
                exact ⟨hdn, halljoin (c, d) hmem⟩
            · by_cases hcd : c < d
              · have hmem : (c, d) ∈ kruskal_edges g := by
                  rw [kruskal_edges_mem]
                  exact ⟨hcn, hsym d c h2, by omega⟩
                exact ⟨h1, halljoin (c, d) hmem⟩
              · have hmem : (d, c) ∈ kruskal_edges g := by
                  rw [kruskal_edges_mem]
                  exact ⟨h1, h2, by omega⟩
                exact ⟨h1, joined_symm (halljoin (d, c) hmem)⟩
          exact ⟨hstep2.1, hjoin.trans hstep2.2⟩
      -- hence a single union-find class, contradicting the edge count
      have hsub : rootSet g.n (kruskal_loop g.n (kruskal_edges g)
          (fun x => x) (fun _ => 0) []).1 ⊆
          rootSet g.n (kruskal_loop g.n (kruskal_edges g)
            (fun x => x) (fun _ => 0) []).1 := fun _ h => h
      obtain ⟨r0, h0⟩ := ufRoot_exists hc0 hn
      have hallr : ∀ r ∈ rootSet g.n (kruskal_loop g.n (kruskal_edges g)
          (fun x => x) (fun _ => 0) []).1, r = r0 := by
        intro r hr
        obtain ⟨hrn, hrroot⟩ := Finset.mem_filter.mp hr
        rw [Finset.mem_range] at hrn
        have hj := (hwalkjoin r (hconn r hrn)).2
        have hs : sameRoot (kruskal_loop g.n (kruskal_edges g)
            (fun x => x) (fun _ => 0) []).1 0 r :=
          (hc3 0 r hn hrn).mpr hj
        obtain ⟨rr, h1, h2⟩ := hs
        have hr1 : rr = r :=
          rootOf_unique _ r rr r h2 (rootOf_root _ r hrroot)
        have hr2 : rr = r0 := rootOf_unique _ 0 rr r0 h1 h0
        rw [← hr1, hr2]
      have hcardle : (rootSet g.n (kruskal_loop g.n (kruskal_edges g)
          (fun x => x) (fun _ => 0) []).1).card ≤ 1 := by
        apply Finset.card_le_one.mpr
        intro a ha b hb
        rw [hallr a ha, hallr b hb]
      omega
    rw [hks, if_pos (by omega)]
    exact ⟨⟨fun h => absurd rfl h, fun h => absurd h hnconn⟩,
      fun h => absurd h hnconn, fun _ => rfl⟩

/-- C3 witness: the two-vertex undirected path with both edge copies
stored satisfies every hypothesis of `C3_theorem`; it is connected, so
kruskal_mst accepts one edge of weight 1. -/
theorem C3_witness :
    ((⟨2, false, fun u => if u = 0 then [1] else
        if u = 1 then [0] else []⟩ : Graph).directed = false) ∧
    0 < (⟨2, false, fun u => if u = 0 then [1] else
        if u = 1 then [0] else []⟩ : Graph).n ∧
    (⟨2, false, fun u => if u = 0 then [1] else
        if u = 1 then [0] else []⟩ : Graph).WF ∧
    (⟨2, false, fun u => if u = 0 then [1] else
        if u = 1 then [0] else []⟩ : Graph).Sym ∧
    (((kruskal_mst ⟨2, false, fun u => if u = 0 then [1] else
        if u = 1 then [0] else []⟩).1 ≠ -1 ↔
      UConnected ⟨2, false, fun u => if u = 0 then [1] else
        if u = 1 then [0] else []⟩) ∧
    (UConnected ⟨2, false, fun u => if u = 0 then [1] else
        if u = 1 then [0] else []⟩ →
      (kruskal_mst ⟨2, false, fun u => if u = 0 then [1] else
        if u = 1 then [0] else []⟩).1 = (((⟨2, false,
          fun u => if u = 0 then [1] else if u = 1 then [0] else []⟩ :
            Graph).n - 1 : Nat) : Int) ∧
      (kruskal_mst ⟨2, false, fun u => if u = 0 then [1] else
        if u = 1 then [0] else []⟩).2.1.length = (⟨2, false,
          fun u => if u = 0 then [1] else if u = 1 then [0] else []⟩ :
            Graph).n - 1 ∧
      (kruskal_mst ⟨2, false, fun u => if u = 0 then [1] else
        if u = 1 then [0] else []⟩).2.2 = (⟨2, false,
          fun u => if u = 0 then [1] else if u = 1 then [0] else []⟩ :
            Graph).n - 1) ∧
    (¬ UConnected ⟨2, false, fun u => if u = 0 then [1] else
        if u = 1 then [0] else []⟩ →
      kruskal_mst ⟨2, false, fun u => if u = 0 then [1] else
        if u = 1 then [0] else []⟩ = (-1, [], 0))) := by
  have hwf : (⟨2, false, fun u => if u = 0 then [1] else
      if u = 1 then [0] else []⟩ : Graph).WF := by
    intro u hu w hw
    simp only [Graph.n] at hu
    interval_cases u <;> simp_all
  have hsym : (⟨2, false, fun u => if u = 0 then [1] else
      if u = 1 then [0] else []⟩ : Graph).Sym := by
    intro u v hv
    simp only [Graph.adj] at hv ⊢
    by_cases h0 : u = 0
    · subst h0
      simp at hv
      simp [hv]
    · by_cases h1 : u = 1
      · subst h1
        simp at hv
        simp [hv]
      · simp [h0, h1] at hv
  exact ⟨rfl, by decide, hwf, hsym,
    C3_theorem _ rfl (by decide) hwf hsym (by decide)⟩

end Grafo
